import Mathlib

/-!
# ctags start-up code and the Bourne-shell tag scanner

A shallow embedding of two C files:

* `ctags/parsers/sh.c`  : `hackReject`, `findShTags`, `ShKinds`, `ShParser`;
* `ctags/main/main.c`   : `addTotals`, `isDestinationStdout`, `recurseIntoDirectory`,
  `printTotals`.

Routines these files call and do not define are parameters (`MainEnv`) or are
modelled from the design of the program; such definitions say so. The walk of
a file tree around `recurseIntoDirectory` is one of them.

Conventions of the embedding.

* A C string (`const unsigned char *`) is the list of its bytes; the
  terminating NUL is implicit: reading at the end of the list yields `0`.
  A pointer into a string is the suffix of the list it points at, so `*cp`
  is `peek cp` and `++cp` is `cp.tail`.
* `isspace` and `isalnum` are those of the "C" locale.
* Global mutable state (`name`, the emitted tags, `Totals`) is passed
  explicitly.
* A `double` is its value, a rational number; a conversion to `double` and a
  division of `double`s round to the nearest `double` (IEEE 754 binary64,
  ties to even), as where `double` expressions are evaluated in `double`.
-/

namespace Ctags

/-! ## C library: strings and character classes -/

/-- Bytes of an ASCII string literal (without the terminating NUL). -/
def bytes (s : String) : List Nat := s.toList.map Char.toNat

/-- The byte `*cp`; the end of the list is the terminating NUL. -/
def peek (cp : List Nat) : Nat := cp.headD 0

/-- The contents of the C string stored in a buffer: everything before the first NUL. -/
def cstr (s : List Nat) : List Nat := s.takeWhile (fun c => c != 0)

/-- C-locale `isspace`: space, `\t`, `\n`, `\v`, `\f`, `\r`. -/
def isspace (c : Nat) : Bool := c == 32 || (9 ≤ c && c ≤ 13)

/-- C-locale `isalnum`: `0-9`, `A-Z`, `a-z`. -/
def isalnum (c : Nat) : Bool :=
  (48 ≤ c && c ≤ 57) || (65 ≤ c && c ≤ 90) || (97 ≤ c && c ≤ 122)

/-- The test `strcmp (a, b) == 0`: both strings agree up to and including
the first NUL. -/
def strcmpEq : List Nat → List Nat → Bool
  | [], b => peek b == 0
  | a :: as, b =>
    if a != peek b then false
    else if a == 0 then true
    else strcmpEq as b.tail

/-- The test `strncmp (a, b, n) == 0`: the strings agree on their first `n`
bytes, or up to and including a common NUL before that. -/
def strncmpEq : List Nat → List Nat → Nat → Bool
  | _, _, 0 => true
  | a, b, n + 1 =>
    if peek a != peek b then false
    else if peek a == 0 then true
    else strncmpEq a.tail b.tail n

/-! ## vString (vstring.h) -/

/-- Modelled from the spec: `vstring.h` is not among the sources. The working
identifier buffer is an owned, growable byte sequence. -/
abbrev vString := List Nat

/-- Modelled from the spec: `vStringNew` of the absent `vstring.c`, a fresh empty buffer. -/
def vStringNew : vString := []

/-- Modelled from the spec: `vStringPut` of the absent `vstring.c`, append one byte. -/
def vStringPut (s : vString) (c : Nat) : vString := s ++ [c]

/-- Modelled from the spec: `vStringTerminate` of the absent `vstring.c`; it writes
the NUL that the list representation leaves implicit. -/
def vStringTerminate (s : vString) : vString := s

/-- Modelled from the spec: `vStringClear` of the absent `vstring.c`, the buffer
is emptied. -/
def vStringClear (_s : vString) : vString := []

/-- Modelled from the spec: `vStringValue` of the absent `vstring.h`, the C string held. -/
def vStringValue (s : vString) : List Nat := s

/-! ## sh.c: data definitions -/

/-- The `kindOption` record of `parse.h`: enabled flag, letter, name, description. -/
structure kindOption where
  enabled : Bool
  letter : Char
  name : String
  description : String
  deriving DecidableEq, Repr

/-- The `shKind` enumeration has the single member `K_FUNCTION`, of value 0. -/
def K_FUNCTION : Nat := 0

/-- The table `ShKinds`. -/
def ShKinds : List kindOption :=
  [{ enabled := true, letter := 'f', name := "function", description := "functions" }]

/-- A tag as the scanner hands it to the tag emitter: the symbol name and the
index of its kind in the parser's kind table. -/
structure Tag where
  name : List Nat
  kind : Nat
  deriving DecidableEq, Repr

/-- Modelled from the spec: `makeSimpleTag` of the absent `parse.c`. "emit(name,
kindIndex, parserKindTable): one Tag forwarded to the output sink"; the sink is
the list of tags emitted so far, in order. -/
def makeSimpleTag (sink : List Tag) (name : vString) (_kinds : List kindOption)
    (kind : Nat) : List Tag :=
  sink ++ [{ name := vStringValue name, kind := kind }]

/-! ## sh.c: functions -/

/-- The function `hackReject`. `scriptName` stands for
`baseFilename (getInputFileName ())`, the base name of the file being read. -/
def hackReject (scriptName : List Nat) (tagName : vString) : Bool :=
  strcmpEq scriptName (bytes "configure") &&
    strcmpEq (vStringValue tagName) (bytes "main")

/-- The loop `while (isspace (*cp)) cp++;`. At the end of the list `*cp` is NUL,
which is not a space. -/
def skipSpace : List Nat → List Nat
  | [] => []
  | c :: cp => if isspace c then skipSpace cp else c :: cp

/-- The loop `while (isalnum (*cp) || *cp == '_') { vStringPut (name, *cp); ++cp; }`,
returning the buffer and the pointer. -/
def scanName : vString → List Nat → vString × List Nat
  | name, [] => (name, [])
  | name, c :: cp =>
    if isalnum c || c == '_'.toNat then scanName (vStringPut name c) cp
    else (name, c :: cp)

/-- State of `findShTags` between two lines: the working buffer `name` and the
tags emitted so far. -/
structure ShState where
  name : vString
  tags : List Tag
  deriving DecidableEq, Repr

/-- Lines 76-95 of `findShTags`: from the test for the start of an identifier
to `vStringClear`. A `continue` leaves the state as it is. -/
def scanIdentifier (scriptName : List Nat) (st : ShState) (functionFound : Bool)
    (cp : List Nat) : ShState :=
  if !(isalnum (peek cp) || peek cp == '_'.toNat) then st
  else
    let (name, cp) := scanName st.name cp
    let name := vStringTerminate name
    let cp := skipSpace cp
    let c := peek cp
    let cp := cp.tail
    let functionFound :=
      if c == '('.toNat then
        let cp := skipSpace cp
        if peek cp == ')'.toNat && !hackReject scriptName name then true
        else functionFound
      else functionFound
    let tags :=
      if functionFound then makeSimpleTag st.tags name ShKinds K_FUNCTION
      else st.tags
    { name := vStringClear name, tags := tags }

/-- One iteration of the `while` loop of `findShTags` (lines 57-96) on the line
just read. -/
def scanLine (scriptName : List Nat) (st : ShState) (line : List Nat) : ShState :=
  if peek line == '#'.toNat then st
  else
    let cp := skipSpace line
    if strncmpEq cp (bytes "function") 8 && isspace (peek (cp.drop 8)) then
      let cp := cp.drop 8
      if !isspace (peek cp) then st
      else scanIdentifier scriptName st true (skipSpace cp)
    else scanIdentifier scriptName st false cp

/-- The state of `findShTags` after the lines read so far. -/
def runShLines (scriptName : List Nat) (lines : List (List Nat)) : ShState :=
  lines.foldl (scanLine scriptName) { name := vStringNew, tags := [] }

/-- The function `findShTags`: `lines` is what successive calls of
`readLineFromInputFile` return before `NULL`; the result is the sequence of
tags handed to `makeSimpleTag`. -/
def findShTags (scriptName : List Nat) (lines : List (List Nat)) : List Tag :=
  (runShLines scriptName lines).tags

/-! ## Shapes of lines used in the statements -/

/-- Every byte of `w` is whitespace (`isspace`). -/
def allSpace (w : List Nat) : Prop := ∀ c ∈ w, isspace c = true

/-- A byte that may occur in an identifier: alphanumeric or underscore. -/
def identChar (c : Nat) : Bool := isalnum c || c == '_'.toNat

/-- Every byte of `w` is alphanumeric or an underscore. -/
def allIdent (w : List Nat) : Prop := ∀ c ∈ w, identChar c = true

instance (w : List Nat) : Decidable (allSpace w) := by unfold allSpace; infer_instance

instance (w : List Nat) : Decidable (allIdent w) := by unfold allIdent; infer_instance

/-- After the identifier: `ws* '(' ws* ')'` follows, as lines 84-90 of
`findShTags` test it. -/
def closesParen (r : List Nat) : Bool :=
  peek (skipSpace r) == '('.toNat && peek (skipSpace (skipSpace r).tail) == ')'.toNat

/-! ## main.c: machine integers and globals declared elsewhere -/

/-- A value stored in a signed integer of `w` bits (`long`, `clock_t`):
two's-complement wrap-around of the mathematical result. -/
def wrapLong (w : Nat) (x : Int) : Int := Int.bmod x (2 ^ w)

/-- The values of type `long` (and of `clock_t`) of `w` bits. -/
def isLong (w : Nat) (x : Int) : Prop := -(2 ^ (w - 1) : Int) ≤ x ∧ x < 2 ^ (w - 1)

instance (w : Nat) (x : Int) : Decidable (isLong w x) := by unfold isLong; infer_instance

/-- The fields of the global `Option` (type `optionValues` of `options.h`) that
`main.c` reads. `tagFileName` is `none` for a NULL pointer. -/
structure optionValues where
  append : Bool
  sorted : Bool
  xref : Bool
  filter : Bool
  recurse : Bool
  tagFileName : Option (List Nat)
  deriving DecidableEq, Repr

/-- The fields of the global `TagFile` (`entry.h`) that `main.c` reads:
`numTags.added`, `numTags.prev` and `max.line`, all `unsigned long`. -/
structure tagFile where
  added : Nat
  prev : Nat
  maxLine : Nat
  deriving DecidableEq, Repr

/-- Build configuration of `main.c`: whether `CLOCK_AVAILABLE` is defined, the
value of `CLOCKS_PER_SEC`, and whether `TM_DEBUG` is defined. -/
structure BuildConfig where
  CLOCK_AVAILABLE : Bool
  CLOCKS_PER_SEC : Nat
  TM_DEBUG : Bool
  deriving DecidableEq, Repr

/-! ## main.c: `Totals` and `addTotals` -/

/-- The static `Totals`: `struct { long files, lines, bytes; }`. -/
structure Totals where
  files : Int
  lines : Int
  bytes : Int
  deriving DecidableEq, Repr

/-- The initialiser `{ 0, 0, 0 }` of `Totals`. -/
def Totals.zero : Totals := { files := 0, lines := 0, bytes := 0 }

/-- The function `addTotals`, for a `long` of `w` bits: each field is increased
by its own argument, the sum being stored back into the `long`. -/
def addTotals (w : Nat) (t : Totals) (files lines bytes : Nat) : Totals :=
  { files := wrapLong w (t.files + files),
    lines := wrapLong w (t.lines + lines),
    bytes := wrapLong w (t.bytes + bytes) }

/-- `Totals` after a sequence of calls `addTotals (files, lines, bytes)`,
starting from the static initialiser. -/
def runAddTotals (w : Nat) (calls : List (Nat × Nat × Nat)) : Totals :=
  calls.foldl (fun t c => addTotals w t c.1 c.2.1 c.2.2) Totals.zero

/-! ## main.c: `recurseIntoDirectory` -/

/-- The messages `recurseIntoDirectory` issues, each with the directory name
it is formatted with: three through `verbose`, one through
`error (WARNING | PERROR, ...)`. -/
inductive Diagnostic where
  | ignoringRecursiveLink (dirName : List Nat)
  | ignoringDirectory (dirName : List Nat)
  | recursing (dirName : List Nat)
  | cannotRecurse (dirName : List Nat)
  deriving DecidableEq, Repr

/-- What `recurseIntoDirectory` calls and `main.c` does not define, acting on a
state `σ` of the rest of the program and of the file system. `opendir` yields
`none` for a NULL `DIR *`, and otherwise the names that successive `readdir`
calls return, in that order. -/
structure MainEnv (σ : Type) where
  isRecursiveLink : List Nat → σ → Bool
  opendir : List Nat → σ → Option (List (List Nat))
  combinePathAndFile : List Nat → List Nat → vString
  createTagsForEntry : List Nat → σ → Bool × σ
  verbose : Diagnostic → σ → σ
  error : Diagnostic → σ → σ

/-- Modelled from the spec: `vStringNewInit` of the absent `vstring.c`, a new
buffer holding a copy of the C string. -/
def vStringNewInit (s : List Nat) : vString := cstr s

/-- The loop `while ((entry = readdir (dir)) != NULL) { ... }` of
`recurseIntoDirectory` (lines 179-192) over the names still to be read. -/
def readdirLoop {σ : Type} (env : MainEnv σ) (dirName : List Nat) :
    List (List Nat) → Bool → σ → Bool × σ
  | [], resize, s => (resize, s)
  | d_name :: entries, resize, s =>
    if !strcmpEq d_name (bytes ".") && !strcmpEq d_name (bytes "..") then
      let filePath :=
        if strcmpEq dirName (bytes ".") then vStringNewInit d_name
        else env.combinePathAndFile dirName d_name
      let r := env.createTagsForEntry (vStringValue filePath) s
      readdirLoop env dirName entries (resize || r.1) r.2
    else readdirLoop env dirName entries resize s

/-- The function `recurseIntoDirectory`, in the `HAVE_OPENDIR` build. -/
def recurseIntoDirectory {σ : Type} (env : MainEnv σ) (opt : optionValues)
    (dirName : List Nat) (s : σ) : Bool × σ :=
  let resize := false
  if env.isRecursiveLink dirName s then
    (resize, env.verbose (Diagnostic.ignoringRecursiveLink dirName) s)
  else if !opt.recurse then
    (resize, env.verbose (Diagnostic.ignoringDirectory dirName) s)
  else
    match env.opendir dirName s with
    | none => (resize, env.error (Diagnostic.cannotRecurse dirName) s)
    | some entries =>
      readdirLoop env dirName entries resize (env.verbose (Diagnostic.recursing dirName) s)

/-- The entries `recurseIntoDirectory` is to hand on: those whose name is
neither `.` nor `..`. -/
def properEntries (entries : List (List Nat)) : List (List Nat) :=
  entries.filter (fun e => decide (cstr e ≠ bytes "." ∧ cstr e ≠ bytes ".."))

/-- The path for an entry: the bare entry name in the directory `.`, the
directory name combined with the entry name otherwise. -/
def entryPath {σ : Type} (env : MainEnv σ) (dirName d_name : List Nat) : List Nat :=
  if cstr dirName = bytes "." then cstr d_name else env.combinePathAndFile dirName d_name

/-- Calling `f` once on each path, in order, on the state the previous call
left: the results of the calls and the final state. -/
def callEach {σ : Type} (f : List Nat → σ → Bool × σ) : List (List Nat) → σ → List Bool × σ
  | [], s => ([], s)
  | path :: paths, s =>
    let r := f path s
    let rest := callEach f paths r.2
    (r.1 :: rest.1, rest.2)

/-- An environment for examples: the directory `dir` lists `.`, `a.sh`, `..`,
`b`; there is no recursive link; the state is the list of paths
`createTagsForEntry` was called with, and the call on `dir/b` answers TRUE. -/
def exampleEnv : MainEnv (List (List Nat)) where
  isRecursiveLink := fun _ _ => false
  opendir := fun d _ =>
    if d = bytes "dir" then some [bytes ".", bytes "a.sh", bytes "..", bytes "b"] else none
  combinePathAndFile := fun d f => d ++ bytes "/" ++ f
  createTagsForEntry := fun path s => (decide (path = bytes "dir/b"), s ++ [path])
  verbose := fun _ s => s
  error := fun _ s => s

/-- Options for examples: only `recurse` is set. -/
def exampleOption : optionValues :=
  { append := false, sorted := false, xref := false, filter := false, recurse := true,
    tagFileName := none }

/-! ## main.c: `printTotals` -/

/-- The macro `plural`: `""` for the value 1 and `"s"` otherwise. -/
def plural (value : Int) : String := if value = 1 then "" else "s"

/-- What `printTotals` writes to `errout`, one constructor for each `fprintf`
format (with its arguments) and one for the `fputc` of a newline. A `double`
argument is given by its value, a rational. -/
inductive Output where
  /-- Format `"%ld file%s, %ld line%s (%ld kB) scanned"`. -/
  | scanned (files : Int) (filesPlural : String) (lines : Int) (linesPlural : String)
      (kB : Int)
  /-- Format `" in %.01f seconds"`. -/
  | inSeconds (interval : ℚ)
  /-- Format `" (%lu kB/s)"`; `none` when the value is undefined in C. -/
  | throughput (kBs : Option Nat)
  /-- The call `fputc` of a newline. -/
  | newline
  /-- Format `"%lu tag%s added to tag file"`. -/
  | tagsAdded (added : Nat) (addedPlural : String)
  /-- Format `" (now %lu tags)"`. -/
  | nowTags (totalTags : Nat)
  /-- Format `"%lu tag%s sorted"`. -/
  | tagsSorted (totalTags : Nat) (totalPlural : String)
  /-- Format `" in %.02f seconds"`. -/
  | sortSeconds (interval : ℚ)
  /-- Format `"longest tag line = %lu"` and a newline, under `TM_DEBUG`. -/
  | longestTagLine (line : Nat)
  deriving DecidableEq, Repr

/-! ### The `double` arithmetic of `printTotals` (IEEE 754 binary64)

A `double` is given by its value, a rational. A conversion of an integer to
`double` and a division of two `double`s give the exact result rounded to the
nearest `double`, ties to even. Infinities and NaN are not modelled: with
integers of at most 64 bits and a `CLOCKS_PER_SEC` other than zero, no
operation of `printTotals` overflows, and the only division by an interval is
guarded by the test that it is not zero. -/

/-- The whole part of the binary logarithm of `n`, by repeated halving; the
first argument bounds the number of halvings. -/
def log2Aux : Nat → Nat → Nat
  | 0, _ => 0
  | limit + 1, n => if n < 2 then 0 else log2Aux limit (n / 2) + 1

/-- The whole part of the binary logarithm of a positive number. -/
def ilog2 (n : Nat) : Nat := log2Aux n n

/-- The integer nearest to `q`, the even one of the two when `q` lies halfway. -/
def roundNearestEven (q : ℚ) : Int :=
  let f := Rat.floor q
  let r := q - f
  if r < 1 / 2 then f
  else if 1 / 2 < r then f + 1
  else if f % 2 = 0 then f
  else f + 1

/-- The binary exponent of a positive rational: the `e` with `2^e ≤ q < 2^(e+1)`. -/
def binade (q : ℚ) : Int :=
  let e0 : Int := (ilog2 q.num.natAbs : Int) - (ilog2 q.den : Int)
  if (2 : ℚ) ^ e0 ≤ q then e0 else e0 - 1

/-- A positive rational rounded to the nearest `double`, ties to even: 53
significant bits, least exponent -1022 (below it the spacing stays `2^-1074`). -/
def roundMagnitude (q : ℚ) : ℚ :=
  let e := max (binade q) (-1022)
  (roundNearestEven (q / 2 ^ (e - 52)) : ℚ) * 2 ^ (e - 52)

/-- A rational rounded to the nearest `double`, ties to even. -/
def roundDouble (q : ℚ) : ℚ :=
  if 0 < q then roundMagnitude q
  else if q < 0 then -roundMagnitude (-q)
  else 0

/-- The finite `double` values, the upper limit of the exponent left aside: a
significand of at most 53 bits times a power of two not below `2^-1074`. -/
def isDouble (x : ℚ) : Prop :=
  ∃ m e : Int, |m| < 2 ^ 53 ∧ -1074 ≤ e ∧ x = (m : ℚ) * 2 ^ e

/-- Correct rounding: `x` is a `double` and no `double` is nearer to `q`. -/
def NearestDouble (q x : ℚ) : Prop :=
  isDouble x ∧ ∀ y, isDouble y → |x - q| ≤ |y - q|

/-- The conversion `(unsigned long) x` of a `double`, for an `unsigned long` of
`w` bits: the fraction is dropped. When what is left does not fit, the
conversion is undefined in C, and the result is `none`. -/
def doubleToULong (w : Nat) (x : ℚ) : Option Nat :=
  if 0 ≤ Int.tdiv x.num x.den ∧ Int.tdiv x.num x.den < 2 ^ w then
    some (Int.tdiv x.num x.den).toNat
  else none

/-- The expression `((double) (timeStamps [j] - timeStamps [i])) / CLOCKS_PER_SEC`
for a `clock_t` of `w` bits: the difference of the samples in `clock_t`, its
conversion to `double`, the conversion of `CLOCKS_PER_SEC`, and the division in
`double`. -/
def elapsed (cfg : BuildConfig) (w : Nat) (timeStamps : Fin 3 → Int) (i j : Fin 3) : ℚ :=
  roundDouble (roundDouble ((wrapLong w (timeStamps j - timeStamps i) : Int) : ℚ) /
    roundDouble (cfg.CLOCKS_PER_SEC : ℚ))

/-- The function `printTotals`, for `long`, `unsigned long` and `clock_t` of `w`
bits; the result is the sequence of writes to `errout`. -/
def printTotals (cfg : BuildConfig) (w : Nat) (opt : optionValues) (TagFile : tagFile)
    (totals : Totals) (timeStamps : Fin 3 → Int) : List Output :=
  let totalTags : Nat := (TagFile.added + TagFile.prev) % 2 ^ w
  let scan : List Output :=
    [Output.scanned totals.files (plural totals.files) totals.lines (plural totals.lines)
      (Int.tdiv totals.bytes 1024)] ++
    (if cfg.CLOCK_AVAILABLE then
      let interval : ℚ := elapsed cfg w timeStamps 0 1
      [Output.inSeconds interval] ++
      (if interval ≠ 0 then
        [Output.throughput
          ((doubleToULong w (roundDouble (roundDouble (totals.bytes : ℚ) / interval))).map
            (fun n => n / 1024))]
       else [])
     else []) ++
    [Output.newline]
  let added : List Output :=
    [Output.tagsAdded TagFile.added (plural TagFile.added)] ++
    (if opt.append then [Output.nowTags totalTags] else []) ++
    [Output.newline]
  let sorted : List Output :=
    if 0 < totalTags && opt.sorted then
      [Output.tagsSorted totalTags (plural totalTags)] ++
      (if cfg.CLOCK_AVAILABLE then [Output.sortSeconds (elapsed cfg w timeStamps 1 2)]
       else []) ++
      [Output.newline]
    else []
  let debug : List Output :=
    if cfg.TM_DEBUG then [Output.longestTagLine TagFile.maxLine] else []
  scan ++ added ++ sorted ++ debug

/-- A build for examples: a clock of 1000000 ticks per second, no `TM_DEBUG`. -/
def exampleConfig : BuildConfig :=
  { CLOCK_AVAILABLE := true, CLOCKS_PER_SEC := 1000000, TM_DEBUG := false }

/-- A tag file for examples: 5 tags added, none before. -/
def exampleTagFile : tagFile := { added := 5, prev := 0, maxLine := 0 }

/-- Totals for examples: 2 files, 30 lines, 300000 bytes. -/
def exampleTotals : Totals := { files := 2, lines := 30, bytes := 300000 }

/-- An environment for examples in which every directory is a recursive link. -/
def exampleLinkEnv : MainEnv (List (List Nat)) :=
  { exampleEnv with isRecursiveLink := fun _ _ => true }

/-- Options for examples: nothing is set, in particular not `recurse`. -/
def exampleOptionNoRecurse : optionValues :=
  { append := false, sorted := false, xref := false, filter := false, recurse := false,
    tagFileName := none }

/-! ## main.c: `isDestinationStdout` -/

/-- The function `isDestinationStdout`. The global `Option` is passed in and
handed back, so that what the function does to it is part of the result. -/
def isDestinationStdout (opt : optionValues) : Bool × optionValues :=
  let toStdout := false
  let toStdout :=
    if opt.xref || opt.filter ||
        (match opt.tagFileName with
         | none => false
         | some tagFileName =>
           strcmpEq tagFileName (bytes "-") || strcmpEq tagFileName (bytes "/dev/stdout"))
    then true
    else toStdout
  (toStdout, opt)

/-! ## sh.c: `ShParser` -/

/-- The fields of `parserDefinition` (`parse.h`) that `ShParser` sets. `parser`
is `none` for a NULL function pointer; a parser is run on the base name of the
input file and on its lines. -/
structure parserDefinition where
  name : String
  kinds : List kindOption
  kindCount : Nat
  extensions : List String
  parser : Option (List Nat → List (List Nat) → List Tag)

/-- Modelled from the spec: `parserNew` of the absent `parse.c`, a fresh
definition that carries the given name and nothing else. -/
def parserNew (name : String) : parserDefinition :=
  { name := name, kinds := [], kindCount := 0, extensions := [], parser := none }

/-- The macro `ARRAY_SIZE`: the number of elements of a static array. -/
def ARRAY_SIZE {α : Type} (a : List α) : Nat := a.length

/-- The function `ShParser`. -/
def ShParser : parserDefinition :=
  let extensions := ["sh", "SH", "bsh", "bash", "ksh", "zsh", "ash"]
  let d := parserNew "Sh"
  { d with
    kinds := ShKinds
    kindCount := ARRAY_SIZE ShKinds
    extensions := extensions
    parser := some findShTags }


/-- Options for examples: `sorted` and `append` are set. -/
def exampleOptionSorted : optionValues :=
  { append := true, sorted := true, xref := false, filter := false, recurse := false,
    tagFileName := none }

/-! ## sh.c: the scan of a line with checked reads

The same code as `scanLine`, with the line held in memory as its bytes followed
by the terminating NUL, `cp` an index into it, every read checked against the
bounds of that memory, and every loop given a limit of iterations. -/

/-- The ways a checked scan can go wrong: a read outside the memory of the line,
or a loop that has not ended within its limit. -/
inductive ScanFault where
  | outOfRange (index : Nat)
  | loopLimit
  deriving DecidableEq, Repr

/-- The memory of a NUL-terminated line: its bytes, then the terminator. -/
def lineMemory (line : List Nat) : List Nat := line ++ [0]

/-- A checked read of `mem[i]`. -/
def readAt (mem : List Nat) (i : Nat) : Except ScanFault Nat :=
  match mem.get? i with
  | some c => Except.ok c
  | none => Except.error (ScanFault.outOfRange i)

/-- The loop `while (isspace (*cp)) cp++;` with checked reads; the first
argument limits the number of iterations. -/
def skipSpaceAt (mem : List Nat) : Nat → Nat → Except ScanFault Nat
  | 0, _ => Except.error ScanFault.loopLimit
  | limit + 1, cp => do
    let c ← readAt mem cp
    if isspace c then skipSpaceAt mem limit (cp + 1) else pure cp

/-- The loop `while (isalnum (*cp) || *cp == '_') { vStringPut (name, *cp); ++cp; }`
with checked reads. -/
def scanNameAt (mem : List Nat) : Nat → vString → Nat → Except ScanFault (vString × Nat)
  | 0, _, _ => Except.error ScanFault.loopLimit
  | limit + 1, name, cp => do
    let c ← readAt mem cp
    if isalnum c || c == '_'.toNat then scanNameAt mem limit (vStringPut name c) (cp + 1)
    else pure (name, cp)

/-- The test `strncmp (cp, b, n) == 0` with checked reads of the line; `b` is
the string literal. -/
def strncmpAt (mem : List Nat) : Nat → List Nat → Nat → Except ScanFault Bool
  | _, _, 0 => pure true
  | cp, b, n + 1 => do
    let x ← readAt mem cp
    if x != peek b then pure false
    else if x == 0 then pure true
    else strncmpAt mem (cp + 1) b.tail n

/-- Lines 76-95 of `findShTags` with checked reads. -/
def scanIdentifierAt (scriptName : List Nat) (mem : List Nat) (limit : Nat) (st : ShState)
    (functionFound : Bool) (cp : Nat) : Except ScanFault ShState := do
  let c ← readAt mem cp
  if !(isalnum c || c == '_'.toNat) then pure st
  else
    let r ← scanNameAt mem limit st.name cp
    let name := vStringTerminate r.1
    let cp ← skipSpaceAt mem limit r.2
    let c ← readAt mem cp
    let cp := cp + 1
    let functionFound ←
      if c == '('.toNat then do
        let cp ← skipSpaceAt mem limit cp
        let d ← readAt mem cp
        pure (if d == ')'.toNat && !hackReject scriptName name then true else functionFound)
      else pure functionFound
    let tags :=
      if functionFound then makeSimpleTag st.tags name ShKinds K_FUNCTION
      else st.tags
    pure { name := vStringClear name, tags := tags }

/-- One iteration of the `while` loop of `findShTags` with checked reads. -/
def scanLineAt (scriptName : List Nat) (mem : List Nat) (limit : Nat) (st : ShState) :
    Except ScanFault ShState := do
  let c ← readAt mem 0
  if c == '#'.toNat then pure st
  else
    let cp ← skipSpaceAt mem limit 0
    let same ← strncmpAt mem cp (bytes "function") 8
    let keyword ←
      if same then do
        let c8 ← readAt mem (cp + 8)
        pure (isspace c8)
      else pure false
    if keyword then
      let cp := cp + 8
      let c ← readAt mem cp
      if !isspace c then pure st
      else do
        let cp ← skipSpaceAt mem limit cp
        scanIdentifierAt scriptName mem limit st true cp
    else scanIdentifierAt scriptName mem limit st false cp


/-! ## The directory walk around `recurseIntoDirectory` (spec 4.1)

`createTagsForEntry` and `isRecursiveLink` are called by `main.c` and defined
elsewhere; they are modelled here from the design of the walker, on top of the
embedding of `recurseIntoDirectory` above. -/

/-- Modelled from the spec: what a path names, a regular file, a directory, or
something else (nothing, a device, ...). Symbolic links are followed. -/
inductive FileKind where
  | regular
  | directory
  | other
  deriving DecidableEq, Repr

/-- Modelled from the spec: the platform layer under the walker (spec 6, "Input
discovery"): what a path names, its resolved identity ("resolve real identity"),
the names its directory lists (`none` when it cannot be read), and whether
creating the tags of a regular file asks for a resize of the tag file. -/
structure FileTree where
  kind : List Nat → FileKind
  identity : List Nat → Nat
  entries : List Nat → Option (List (List Nat))
  parseFile : List Nat → Bool

/-- Modelled from the spec: the state of a walk. `traversal` is the
TraversalState, the identities of the directories on the current recursion
path, the directory under examination first; `visited` lists the regular files
the walk has reached, by path, in order; `notes` are the advisory notes and
warnings; `outOfFuel` records that the bound on the recursion depth was hit. -/
structure WalkState where
  traversal : List Nat
  visited : List (List Nat)
  notes : List Diagnostic
  outOfFuel : Bool
  deriving DecidableEq, Repr

/-- The state at the start of a walk. -/
def WalkState.start : WalkState :=
  { traversal := [], visited := [], notes := [], outOfFuel := false }

/-- Modelled from the spec: the routines `recurseIntoDirectory` calls, over a
file tree. A directory is a recursive link when "its resolved identity already
appears in TraversalState", that is among the directories above it on the
recursion path; `combinePathAndFile` joins with the path separator. -/
def walkEnv (fs : FileTree) (create : List Nat → WalkState → Bool × WalkState) :
    MainEnv WalkState where
  isRecursiveLink := fun dirName s => decide (fs.identity dirName ∈ s.traversal.tail)
  opendir := fun dirName _ => fs.entries dirName
  combinePathAndFile := fun dirName name => cstr dirName ++ '/'.toNat :: cstr name
  createTagsForEntry := create
  verbose := fun d s => { s with notes := s.notes ++ [d] }
  error := fun d s => { s with notes := s.notes ++ [d] }

/-- Modelled from the spec: `createTagsForEntry`, the walk of one path (spec
4.1). A regular file is visited; a directory is put on the recursion path and
handed to `recurseIntoDirectory`, which walks its entries "with an identity-set
that includes this directory", and taken off again on return; anything else is
skipped. The first argument bounds the depth of the recursion. -/
def createTagsForEntry (fs : FileTree) (opt : optionValues) :
    Nat → List Nat → WalkState → Bool × WalkState
  | 0, _, s => (false, { s with outOfFuel := true })
  | fuel + 1, path, s =>
    match fs.kind path with
    | FileKind.regular => (fs.parseFile path, { s with visited := s.visited ++ [path] })
    | FileKind.directory =>
      let r := recurseIntoDirectory (walkEnv fs (createTagsForEntry fs opt fuel)) opt path
        { s with traversal := fs.identity path :: s.traversal }
      (r.1, { r.2 with traversal := s.traversal })
    | FileKind.other => (false, s)

/-- The path of the entry `name` of the directory `dirName`, as
`recurseIntoDirectory` forms it in a walk. -/
def treePath (dirName name : List Nat) : List Nat :=
  if cstr dirName = bytes "." then cstr name else cstr dirName ++ '/'.toNat :: cstr name

/-- The path reached from `dirName` by descending through the names of a trail. -/
def trailPath : List Nat → List (List Nat) → List Nat
  | dirName, [] => dirName
  | dirName, name :: trail => trailPath (treePath dirName name) trail

/-- A trail of names from the directory `dirName` leads to a regular file
without going round a cycle: `above` holds the identities of the directories
above `dirName`; each directory on the way is readable, lists the next name
(other than `.` and `..`), and has an identity that none of the directories
above it has; the last name is a regular file. -/
def NonCyclicFile (fs : FileTree) : List Nat → List Nat → List (List Nat) → Prop
  | _, _, [] => False
  | above, dirName, name :: trail =>
    fs.identity dirName ∉ above ∧
    (∃ entries, fs.entries dirName = some entries ∧ name ∈ properEntries entries) ∧
    ((trail = [] ∧ fs.kind (treePath dirName name) = FileKind.regular) ∨
      (fs.kind (treePath dirName name) = FileKind.directory ∧
        NonCyclicFile fs (fs.identity dirName :: above) (treePath dirName name) trail))

/-- A file tree for examples: `dir` holds `f.sh` and the directory `a`; `a`
holds `g.sh` and `loop`, a symbolic link back to `dir`. Identities: 1 for
`dir` (and for every path that ends in `loop`), 2 for `a`. -/
def exampleTree : FileTree where
  kind := fun p =>
    if p = bytes "dir" ∨ p = bytes "dir/a" ∨ p = bytes "dir/a/loop" then FileKind.directory
    else if p = bytes "dir/f.sh" ∨ p = bytes "dir/a/g.sh" then FileKind.regular
    else FileKind.other
  identity := fun p =>
    if p = bytes "dir" ∨ p = bytes "dir/a/loop" then 1
    else if p = bytes "dir/a" then 2
    else 0
  entries := fun p =>
    if p = bytes "dir" ∨ p = bytes "dir/a/loop" then
      some [bytes ".", bytes "..", bytes "f.sh", bytes "a"]
    else if p = bytes "dir/a" then some [bytes ".", bytes "..", bytes "g.sh", bytes "loop"]
    else none
  parseFile := fun _ => false


/-- A file tree for examples: `dir` holds the directory `a`, the symbolic link
`b` to `a`, and `loop`, a symbolic link back to `dir`; `a` holds the regular
file `g.sh`. Identities: 1 for `dir` and `dir/loop`, 2 for `dir/a` and `dir/b`,
5 for `g.sh`, by either path. -/
def aliasTree : FileTree where
  kind := fun p =>
    if p = bytes "dir" ∨ p = bytes "dir/a" ∨ p = bytes "dir/b" ∨ p = bytes "dir/loop" then
      FileKind.directory
    else if p = bytes "dir/a/g.sh" ∨ p = bytes "dir/b/g.sh" then FileKind.regular
    else FileKind.other
  identity := fun p =>
    if p = bytes "dir" ∨ p = bytes "dir/loop" then 1
    else if p = bytes "dir/a" ∨ p = bytes "dir/b" then 2
    else if p = bytes "dir/a/g.sh" ∨ p = bytes "dir/b/g.sh" then 5
    else 0
  entries := fun p =>
    if p = bytes "dir" ∨ p = bytes "dir/loop" then
      some [bytes ".", bytes "..", bytes "a", bytes "b", bytes "loop"]
    else if p = bytes "dir/a" ∨ p = bytes "dir/b" then some [bytes ".", bytes "..", bytes "g.sh"]
    else none
  parseFile := fun _ => false

/-- The trails, from `path`, of the regular files that a walk of `path` reaches
when recursion is on, the directories above `path` have the identities `above`
and the depth is bounded by the first argument: the trail `[]` for a regular
file, and for a directory that is no recursive link and can be read, the trails
through each of its entries other than `.` and `..`, in order. -/
def visitsOf (fs : FileTree) : Nat → List Nat → List Nat → List (List (List Nat))
  | 0, _, _ => []
  | fuel + 1, above, path =>
    match fs.kind path with
    | FileKind.regular => [[]]
    | FileKind.directory =>
      if fs.identity path ∈ above then []
      else
        match fs.entries path with
        | none => []
        | some entries =>
          (properEntries entries).flatMap (fun name =>
            (visitsOf fs fuel (fs.identity path :: above) (treePath path name)).map
              (fun trail => name :: trail))
    | FileKind.other => []


/-! ## Lemmas on the C library model -/

theorem peek_nil : peek [] = 0 := rfl

theorem peek_cons (c : Nat) (cp : List Nat) : peek (c :: cp) = c := rfl

theorem peek_append_of_ne_nil {a : List Nat} (h : a ≠ []) (b : List Nat) :
    peek (a ++ b) = peek a := by
  cases a with
  | nil => exact absurd rfl h
  | cons c cs => rfl

theorem isspace_not_ident {c : Nat} (h : isspace c = true) : identChar c = false := by
  simp [isspace, identChar, isalnum] at h ⊢
  omega

theorem identChar_ne_zero {c : Nat} (h : identChar c = true) : c ≠ 0 := by
  simp [identChar, isalnum] at h
  omega

theorem identChar_iff (c : Nat) :
    (isalnum c || c == '_'.toNat) = identChar c := rfl

theorem cstr_of_allIdent {a : List Nat} (h : allIdent a) : cstr a = a := by
  induction a with
  | nil => rfl
  | cons c cs ih =>
    have hc : c ≠ 0 := identChar_ne_zero (h c (List.mem_cons_self _ _))
    have hcs : allIdent cs := fun x hx => h x (List.mem_cons_of_mem _ hx)
    have ih2 := ih hcs
    unfold cstr at ih2 ⊢
    simp [List.takeWhile_cons, hc, ih2]

theorem cstr_nil : cstr [] = [] := rfl

theorem cstr_cons_zero (cs : List Nat) : cstr (0 :: cs) = [] := by
  simp [cstr, List.takeWhile_cons]

theorem cstr_cons_of_ne {c : Nat} (h : c ≠ 0) (cs : List Nat) :
    cstr (c :: cs) = c :: cstr cs := by
  simp [cstr, List.takeWhile_cons, h]

/-- `strcmp` returns 0 exactly when the two C strings are equal. -/
theorem strcmpEq_iff (a b : List Nat) : strcmpEq a b = true ↔ cstr a = cstr b := by
  induction a generalizing b with
  | nil =>
    cases b with
    | nil => simp [strcmpEq, peek]
    | cons y ys =>
      by_cases hy : y = 0
      · subst hy; simp [strcmpEq, peek, cstr_cons_zero, cstr_nil]
      · simp [strcmpEq, peek, cstr_cons_of_ne hy, cstr_nil, hy]
  | cons x xs ih =>
    cases b with
    | nil =>
      by_cases hx : x = 0
      · subst hx; simp [strcmpEq, peek, cstr_cons_zero, cstr_nil]
      · simp [strcmpEq, peek, cstr_cons_of_ne hx, cstr_nil, hx]
    | cons y ys =>
      by_cases hxy : x = y
      · subst hxy
        by_cases hx : x = 0
        · subst hx; simp [strcmpEq, peek, cstr_cons_zero]
        · simp [strcmpEq, peek, cstr_cons_of_ne hx, hx, ih ys]
      · by_cases hx : x = 0
        · subst hx
          have hy : y ≠ 0 := fun h => hxy h.symm
          simp [strcmpEq, peek, cstr_cons_zero, cstr_cons_of_ne hy, hxy]
        · by_cases hy : y = 0
          · subst hy; simp [strcmpEq, peek, cstr_cons_zero, cstr_cons_of_ne hx, hxy]
          · simp [strcmpEq, peek, cstr_cons_of_ne hx, cstr_cons_of_ne hy, hxy]

/-- `strncmp (a, b, n)` returns 0 exactly when `b`, a NUL-free string of length
`n`, is a prefix of `a`. -/
theorem strncmpEq_iff_prefix (b : List Nat) (hb : ∀ c ∈ b, c ≠ 0) (a : List Nat) :
    strncmpEq a b b.length = true ↔ ∃ r, a = b ++ r := by
  induction b generalizing a with
  | nil => simp [strncmpEq]
  | cons y ys ih =>
    have hy : y ≠ 0 := hb y (List.mem_cons_self _ _)
    have hys : ∀ c ∈ ys, c ≠ 0 := fun c hc => hb c (List.mem_cons_of_mem _ hc)
    cases a with
    | nil => simp [strncmpEq, peek, hy, Ne.symm hy]
    | cons x xs =>
      by_cases hxy : x = y
      · subst hxy
        simp [strncmpEq, peek, hy, ih hys xs]
      · simp [strncmpEq, peek, hxy]

theorem function_ne_zero : ∀ c ∈ bytes "function", c ≠ 0 := by decide

theorem function_length : (bytes "function").length = 8 := by decide

theorem strncmpEq_function (cp : List Nat) :
    strncmpEq cp (bytes "function") 8 = true ↔ ∃ r, cp = bytes "function" ++ r := by
  have h := strncmpEq_iff_prefix (bytes "function") function_ne_zero cp
  rw [function_length] at h
  exact h

/-! ## Lemmas on the scanning loops -/

theorem skipSpace_append {w : List Nat} (h : allSpace w) (r : List Nat) :
    skipSpace (w ++ r) = skipSpace r := by
  induction w with
  | nil => rfl
  | cons c cs ih =>
    have hc : isspace c = true := h c (List.mem_cons_self _ _)
    have hcs : allSpace cs := fun x hx => h x (List.mem_cons_of_mem _ hx)
    simp [skipSpace, hc, ih hcs]

theorem skipSpace_of_not_space {r : List Nat} (h : isspace (peek r) = false) :
    skipSpace r = r := by
  cases r with
  | nil => rfl
  | cons c cs =>
    rw [peek_cons] at h
    simp [skipSpace, h]

theorem peek_skipSpace (cp : List Nat) : isspace (peek (skipSpace cp)) = false := by
  induction cp with
  | nil => decide
  | cons c cs ih =>
    by_cases hc : isspace c = true
    · simp [skipSpace, hc, ih]
    · simp only [Bool.not_eq_true] at hc
      simp [skipSpace, hc, peek_cons]

theorem skipSpace_decomp (cp : List Nat) :
    ∃ w, allSpace w ∧ cp = w ++ skipSpace cp := by
  induction cp with
  | nil => exact ⟨[], fun _ h => absurd h (List.not_mem_nil _), rfl⟩
  | cons c cs ih =>
    by_cases hc : isspace c = true
    · obtain ⟨w, hw, he⟩ := ih
      refine ⟨c :: w, ?_, ?_⟩
      · intro x hx
        rcases List.mem_cons.1 hx with rfl | hx
        · exact hc
        · exact hw x hx
      · simp only [skipSpace, hc, if_true, List.cons_append]
        exact congrArg (List.cons c) he
    · refine ⟨[], fun _ h => absurd h (List.not_mem_nil _), ?_⟩
      simp [skipSpace, hc]

theorem scanName_cons (n : List Nat) (c : Nat) (cp : List Nat) :
    scanName n (c :: cp) =
      if identChar c = true then scanName (vStringPut n c) cp else (n, c :: cp) := rfl

theorem scanName_nil (n : List Nat) : scanName n [] = (n, []) := rfl

theorem scanName_append {id : List Nat} (h : allIdent id) (n r : List Nat) :
    scanName n (id ++ r) = scanName (n ++ id) r := by
  induction id generalizing n with
  | nil => simp
  | cons c cs ih =>
    have hc : identChar c = true := h c (List.mem_cons_self _ _)
    have hcs : allIdent cs := fun x hx => h x (List.mem_cons_of_mem _ hx)
    rw [List.cons_append, scanName_cons, if_pos hc, ih hcs]
    simp [vStringPut]

theorem scanName_stop {r : List Nat} (h : identChar (peek r) = false) (n : List Nat) :
    scanName n r = (n, r) := by
  cases r with
  | nil => rfl
  | cons c cs =>
    rw [peek_cons] at h
    rw [scanName_cons, if_neg (by simp [h])]

theorem scanName_decomp (n cp : List Nat) :
    ∃ id, allIdent id ∧ cp = id ++ (scanName n cp).2 ∧ (scanName n cp).1 = n ++ id ∧
      identChar (peek (scanName n cp).2) = false := by
  induction cp generalizing n with
  | nil =>
    refine ⟨[], fun _ h => absurd h (List.not_mem_nil _), rfl, by simp [scanName], ?_⟩
    rw [scanName_nil]; rfl
  | cons c cs ih =>
    by_cases hc : identChar c = true
    · obtain ⟨id, hid, he, hn, hp⟩ := ih (vStringPut n c)
      refine ⟨c :: id, ?_, ?_, ?_, ?_⟩
      · intro x hx
        rcases List.mem_cons.1 hx with rfl | hx
        · exact hc
        · exact hid x hx
      · rw [scanName_cons, if_pos hc, List.cons_append]
        exact congrArg (List.cons c) he
      · rw [scanName_cons, if_pos hc, hn]; simp [vStringPut]
      · rw [scanName_cons, if_pos hc]
        exact hp
    · have hs : scanName n (c :: cs) = (n, c :: cs) := by rw [scanName_cons, if_neg hc]
      simp only [Bool.not_eq_true] at hc
      rw [hs]
      exact ⟨[], fun _ h => absurd h (List.not_mem_nil _), rfl, by simp, by simpa [peek_cons] using hc⟩

/-- The identifier scanned from a position is determined by the text: two
splittings into a run of identifier bytes and a rest that starts with another
byte are equal. -/
theorem ident_split_unique {a b r t : List Nat} (ha : allIdent a) (hb : allIdent b)
    (hr : identChar (peek r) = false) (ht : identChar (peek t) = false)
    (h : a ++ r = b ++ t) : a = b ∧ r = t := by
  have h1 : scanName [] (a ++ r) = ([] ++ a, r) := by
    rw [scanName_append ha, scanName_stop hr]
  have h2 : scanName [] (b ++ t) = ([] ++ b, t) := by
    rw [scanName_append hb, scanName_stop ht]
  rw [h, h2] at h1
  simpa using (Prod.mk.inj h1).imp Eq.symm Eq.symm

/-- Closed form of lines 76-95 when the pointer is at a non-empty identifier. -/
theorem scanIdentifier_ident (scriptName : List Nat) (st : ShState) (ff : Bool)
    {id r : List Nat} (hne : id ≠ []) (hid : allIdent id)
    (hr : identChar (peek r) = false) :
    scanIdentifier scriptName st ff (id ++ r) =
      { name := [],
        tags := if ff || (closesParen r && !hackReject scriptName (st.name ++ id))
                then st.tags ++ [{ name := st.name ++ id, kind := K_FUNCTION }]
                else st.tags } := by
  have hp : identChar (peek (id ++ r)) = true := by
    rw [peek_append_of_ne_nil hne]
    cases id with
    | nil => exact absurd rfl hne
    | cons c cs => exact hid c (List.mem_cons_self _ _)
  unfold scanIdentifier
  rw [identChar_iff, hp, scanName_append hid, scanName_stop hr]
  simp only [Bool.not_true, Bool.false_eq_true, if_false, vStringTerminate, vStringClear,
    makeSimpleTag, vStringValue, closesParen]
  cases ff <;> simp [and_assoc]

/-- Lines 76-77: when the pointer is not at an identifier the line is abandoned. -/
theorem scanIdentifier_abandon (scriptName : List Nat) (st : ShState) (ff : Bool)
    {cp : List Nat} (h : identChar (peek cp) = false) :
    scanIdentifier scriptName st ff cp = st := by
  unfold scanIdentifier
  rw [identChar_iff, h]
  simp

/-! ## Lemmas on one line of `findShTags` -/

theorem bytes_function : bytes "function" = [102, 117, 110, 99, 116, 105, 111, 110] := by
  decide

theorem allIdent_function : allIdent (bytes "function") := by decide

theorem allIdent_main : allIdent (bytes "main") := by decide

theorem hackReject_iff (scriptName : List Nat) (tagName : vString) :
    hackReject scriptName tagName = true ↔
      cstr scriptName = bytes "configure" ∧ cstr tagName = bytes "main" := by
  have h1 : cstr (bytes "configure") = bytes "configure" := by decide
  have h2 : cstr (bytes "main") = bytes "main" := by decide
  simp only [hackReject, vStringValue, Bool.and_eq_true, strcmpEq_iff, h1, h2]

theorem closesParen_shape {w2 w3 : List Nat} (hw2 : allSpace w2) (hw3 : allSpace w3)
    (rest : List Nat) :
    closesParen (w2 ++ '('.toNat :: (w3 ++ ')'.toNat :: rest)) = true := by
  have e1 : skipSpace (w2 ++ '('.toNat :: (w3 ++ ')'.toNat :: rest)) =
      '('.toNat :: (w3 ++ ')'.toNat :: rest) := by
    rw [skipSpace_append hw2]; exact skipSpace_of_not_space rfl
  have e2 : skipSpace (w3 ++ ')'.toNat :: rest) = ')'.toNat :: rest := by
    rw [skipSpace_append hw3]; exact skipSpace_of_not_space rfl
  unfold closesParen
  rw [e1, List.tail_cons, e2]
  simp [peek_cons]

theorem closesParen_inv {r : List Nat} (h : closesParen r = true) :
    ∃ w2 w3 rest, allSpace w2 ∧ allSpace w3 ∧
      r = w2 ++ '('.toNat :: (w3 ++ ')'.toNat :: rest) := by
  unfold closesParen at h
  rw [Bool.and_eq_true] at h
  obtain ⟨h1, h2⟩ := h
  obtain ⟨w2, hw2, e2⟩ := skipSpace_decomp r
  cases hs : skipSpace r with
  | nil => rw [hs] at h1; exact absurd h1 (by decide)
  | cons c t =>
    rw [hs] at h1 h2 e2
    rw [peek_cons] at h1
    rw [List.tail_cons] at h2
    have hc : c = '('.toNat := by simpa using h1
    obtain ⟨w3, hw3, e3⟩ := skipSpace_decomp t
    cases ht : skipSpace t with
    | nil => rw [ht] at h2; exact absurd h2 (by decide)
    | cons d u =>
      rw [ht] at h2 e3
      rw [peek_cons] at h2
      have hd : d = ')'.toNat := by simpa using h2
      refine ⟨w2, w3, u, hw2, hw3, ?_⟩
      rw [e2, hc, e3, hd]

/-- The keyword test of lines 66-67 succeeds exactly on `function` followed by
a whitespace byte. -/
theorem keyword_test_iff (cp : List Nat) :
    (strncmpEq cp (bytes "function") 8 && isspace (peek (cp.drop 8))) = true ↔
      ∃ c rest, isspace c = true ∧ cp = bytes "function" ++ c :: rest := by
  rw [Bool.and_eq_true, strncmpEq_function]
  constructor
  · rintro ⟨⟨r, rfl⟩, h⟩
    have hd : (bytes "function" ++ r).drop 8 = r := by
      rw [← function_length]; exact List.drop_left _ _
    rw [hd] at h
    cases r with
    | nil => exact absurd h (by decide)
    | cons c rest => exact ⟨c, rest, h, rfl⟩
  · rintro ⟨c, rest, hc, rfl⟩
    refine ⟨⟨c :: rest, rfl⟩, ?_⟩
    have hd : (bytes "function" ++ c :: rest).drop 8 = c :: rest := by
      rw [← function_length]; exact List.drop_left _ _
    rw [hd]; exact hc

theorem scanLine_comment (scriptName : List Nat) (st : ShState) (rest : List Nat) :
    scanLine scriptName st ('#'.toNat :: rest) = st := by
  simp [scanLine, peek_cons]

/-- Lines 64-75 on a line that starts, after blanks, with the keyword. -/
theorem scanLine_keyword (scriptName : List Nat) (st : ShState)
    {w1 w2 : List Nat} (hw1 : allSpace w1) (hw2 : allSpace w2) (hne : w2 ≠ [])
    (r : List Nat) :
    scanLine scriptName st (w1 ++ bytes "function" ++ w2 ++ r) =
      scanIdentifier scriptName st true (skipSpace r) := by
  have hhash : (peek (w1 ++ bytes "function" ++ w2 ++ r) == '#'.toNat) = false := by
    cases w1 with
    | nil => simp [bytes_function, peek]
    | cons c cs =>
      have hc : isspace c = true := hw1 c (List.mem_cons_self _ _)
      simp only [List.cons_append, peek_cons]
      simp [isspace] at hc ⊢
      omega
  obtain ⟨c, cs, rfl⟩ := List.exists_cons_of_ne_nil hne
  have hc : isspace c = true := hw2 c (List.mem_cons_self _ _)
  have hsk : skipSpace (w1 ++ bytes "function" ++ c :: cs ++ r) =
      bytes "function" ++ c :: (cs ++ r) := by
    rw [List.append_assoc, List.append_assoc, skipSpace_append hw1]
    simp only [List.cons_append]
    exact skipSpace_of_not_space rfl
  have hkw := (keyword_test_iff (bytes "function" ++ c :: (cs ++ r))).2 ⟨c, cs ++ r, hc, rfl⟩
  have hd : (bytes "function" ++ c :: (cs ++ r)).drop 8 = c :: (cs ++ r) := by
    rw [← function_length]; exact List.drop_left _ _
  unfold scanLine
  rw [hhash]
  simp only [Bool.false_eq_true, if_false]
  rw [hsk, hkw]
  simp only [if_true]
  rw [hd, peek_cons, hc]
  simp only [Bool.not_true, Bool.false_eq_true, if_false]
  have : skipSpace (c :: (cs ++ r)) = skipSpace r := by
    have := skipSpace_append hw2 r
    simpa using this
  rw [this]

/-- Lines 64-75 on a line that does not start with the keyword. -/
theorem scanLine_plain (scriptName : List Nat) (st : ShState)
    {w1 : List Nat} (hw1 : allSpace w1) {cp : List Nat}
    (hsp : isspace (peek cp) = false) (hhash : peek (w1 ++ cp) ≠ '#'.toNat)
    (hkw : ¬ ∃ c rest, isspace c = true ∧ cp = bytes "function" ++ c :: rest) :
    scanLine scriptName st (w1 ++ cp) = scanIdentifier scriptName st false cp := by
  have hsk : skipSpace (w1 ++ cp) = cp := by
    rw [skipSpace_append hw1]; exact skipSpace_of_not_space hsp
  have hk : (strncmpEq cp (bytes "function") 8 && isspace (peek (cp.drop 8))) = false := by
    rw [← Bool.not_eq_true, keyword_test_iff]; exact hkw
  unfold scanLine
  rw [if_neg (by simpa using hhash)]
  simp only [hsk, hk, Bool.false_eq_true, if_false]

theorem peek_ne_hash_of_ident {w1 cp : List Nat} (hw1 : allSpace w1)
    (hid : identChar (peek cp) = true) : peek (w1 ++ cp) ≠ '#'.toNat := by
  cases w1 with
  | nil =>
    simp only [List.nil_append]
    intro h; rw [h] at hid; exact absurd hid (by decide)
  | cons c cs =>
    have hc : isspace c = true := hw1 c (List.mem_cons_self _ _)
    simp only [List.cons_append, peek_cons]
    intro h; rw [h] at hc; exact absurd hc (by decide)

theorem findShTags_single (scriptName line : List Nat) :
    findShTags scriptName [line] =
      (scanLine scriptName { name := [], tags := [] } line).tags := rfl

/-- The pointer is either not at an identifier, or at a non-empty maximal run
of identifier bytes. -/
theorem ident_or_not (cp : List Nat) :
    identChar (peek cp) = false ∨
      ∃ id r, id ≠ [] ∧ allIdent id ∧ identChar (peek r) = false ∧ cp = id ++ r := by
  by_cases h : identChar (peek cp) = true
  · right
    obtain ⟨id, hid, he, _, hp⟩ := scanName_decomp [] cp
    refine ⟨id, (scanName [] cp).2, ?_, hid, hp, he⟩
    rintro rfl
    rw [List.nil_append] at he
    rw [← he, h] at hp
    exact absurd hp (by decide)
  · left; simpa using h

theorem scanIdentifier_state (scriptName : List Nat) (st : ShState) (ff : Bool)
    (cp : List Nat) (hst : st.name = []) :
    (scanIdentifier scriptName st ff cp).name = [] ∧
      (scanIdentifier scriptName st ff cp).tags =
        st.tags ++ (scanIdentifier scriptName { name := [], tags := [] } ff cp).tags := by
  rcases ident_or_not cp with h | ⟨id, r, hne, hid, hr, rfl⟩
  · rw [scanIdentifier_abandon _ _ _ h, scanIdentifier_abandon _ _ _ h]
    exact ⟨hst, by simp⟩
  · rw [scanIdentifier_ident _ _ _ hne hid hr, scanIdentifier_ident _ _ _ hne hid hr]
    simp only [hst, List.nil_append, true_and]
    split <;> simp

theorem scanLine_state (scriptName : List Nat) (st : ShState) (line : List Nat)
    (hst : st.name = []) :
    (scanLine scriptName st line).name = [] ∧
      (scanLine scriptName st line).tags =
        st.tags ++ (scanLine scriptName { name := [], tags := [] } line).tags := by
  unfold scanLine
  split
  · exact ⟨hst, by simp⟩
  · simp only []
    split
    · split
      · exact ⟨hst, by simp⟩
      · exact scanIdentifier_state _ _ _ _ hst
    · exact scanIdentifier_state _ _ _ _ hst

theorem runShLines_nil (scriptName : List Nat) :
    runShLines scriptName [] = { name := [], tags := [] } := rfl

theorem runShLines_snoc (scriptName : List Nat) (lines : List (List Nat)) (line : List Nat) :
    runShLines scriptName (lines ++ [line]) =
      scanLine scriptName (runShLines scriptName lines) line := by
  simp [runShLines, List.foldl_append]

theorem runShLines_name (scriptName : List Nat) (lines : List (List Nat)) :
    (runShLines scriptName lines).name = [] := by
  induction lines using List.reverseRecOn with
  | nil => rfl
  | append_singleton ls l ih =>
    rw [runShLines_snoc]
    exact (scanLine_state scriptName _ l ih).1

theorem findShTags_snoc (scriptName : List Nat) (lines : List (List Nat)) (line : List Nat) :
    findShTags scriptName (lines ++ [line]) =
      findShTags scriptName lines ++ findShTags scriptName [line] := by
  unfold findShTags
  rw [runShLines_snoc]
  exact (scanLine_state scriptName _ line (runShLines_name scriptName lines)).2

theorem findShTags_append (scriptName : List Nat) (xs ys : List (List Nat)) :
    findShTags scriptName (xs ++ ys) =
      findShTags scriptName xs ++ findShTags scriptName ys := by
  induction ys using List.reverseRecOn with
  | nil => simp [findShTags, runShLines_nil]
  | append_singleton ls l ih =>
    rw [← List.append_assoc, findShTags_snoc, ih, findShTags_snoc, List.append_assoc]

theorem findShTags_cons (scriptName : List Nat) (line : List Nat) (lines : List (List Nat)) :
    findShTags scriptName (line :: lines) =
      findShTags scriptName [line] ++ findShTags scriptName lines :=
  findShTags_append scriptName [line] lines

theorem findShTags_flatMap (scriptName : List Nat) (lines : List (List Nat)) :
    findShTags scriptName lines =
      lines.flatMap (fun line => findShTags scriptName [line]) := by
  induction lines with
  | nil => rfl
  | cons l ls ih => rw [findShTags_cons, List.flatMap_cons, ← ih]

/-- Tags of a line that starts, after blanks, with an identifier that is not
the keyword followed by a blank. -/
theorem findShTags_ident_line (scriptName : List Nat) {w1 ident rest : List Nat}
    (hw1 : allSpace w1) (hne : ident ≠ []) (hid : allIdent ident)
    (hr : identChar (peek rest) = false)
    (hkw : ¬ (ident = bytes "function" ∧ isspace (peek rest) = true)) :
    findShTags scriptName [w1 ++ (ident ++ rest)] =
      if closesParen rest && !hackReject scriptName ident
      then [{ name := ident, kind := K_FUNCTION }] else [] := by
  have hhead : identChar (peek (ident ++ rest)) = true := by
    rw [peek_append_of_ne_nil hne]
    obtain ⟨c, cs, rfl⟩ := List.exists_cons_of_ne_nil hne
    exact hid c (List.mem_cons_self _ _)
  have hsp : isspace (peek (ident ++ rest)) = false := by
    cases h : isspace (peek (ident ++ rest))
    · rfl
    · rw [isspace_not_ident h] at hhead; exact absurd hhead (by decide)
  have hnk : ¬ ∃ c r, isspace c = true ∧ ident ++ rest = bytes "function" ++ c :: r := by
    rintro ⟨c, r, hc, he⟩
    obtain ⟨e1, e2⟩ := ident_split_unique hid allIdent_function hr
      (by rw [peek_cons]; exact isspace_not_ident hc) he
    refine hkw ⟨e1, ?_⟩
    rw [e2, peek_cons]; exact hc
  rw [findShTags_single, scanLine_plain scriptName _ hw1 hsp (peek_ne_hash_of_ident hw1 hhead) hnk,
    scanIdentifier_ident _ _ _ hne hid hr]
  simp

/-- Tags of a line in the `name()` shape, before the exclusion rule is looked at. -/
theorem findShTags_paren_line (scriptName : List Nat) {w1 ident w2 w3 : List Nat}
    (rest : List Nat) (hw1 : allSpace w1) (hne : ident ≠ []) (hid : allIdent ident)
    (hw2 : allSpace w2) (hw3 : allSpace w3)
    (hkw : ¬ (ident = bytes "function" ∧ w2 ≠ [])) :
    findShTags scriptName [w1 ++ ident ++ w2 ++ '('.toNat :: (w3 ++ ')'.toNat :: rest)] =
      if hackReject scriptName ident then [] else [{ name := ident, kind := K_FUNCTION }] := by
  have hr : identChar (peek (w2 ++ '('.toNat :: (w3 ++ ')'.toNat :: rest))) = false := by
    cases w2 with
    | nil => rfl
    | cons c cs => exact isspace_not_ident (hw2 c (List.mem_cons_self _ _))
  have hk : ¬ (ident = bytes "function" ∧
      isspace (peek (w2 ++ '('.toNat :: (w3 ++ ')'.toNat :: rest))) = true) := by
    rintro ⟨e, hs⟩
    refine hkw ⟨e, ?_⟩
    rintro rfl
    exact Bool.noConfusion hs
  rw [List.append_assoc, List.append_assoc,
    findShTags_ident_line scriptName hw1 hne hid hr hk, closesParen_shape hw2 hw3]
  cases hh : hackReject scriptName ident <;> simp [hh]

/-- A line that emits a tag is in the keyword shape or in the `name()` shape. -/
theorem findShTags_emits_inv (scriptName line : List Nat)
    (h : findShTags scriptName [line] ≠ []) :
    (∃ w c rest, allSpace w ∧ isspace c = true ∧
        line = w ++ bytes "function" ++ c :: rest) ∨
    (∃ w1 ident w2 w3 rest, allSpace w1 ∧ ident ≠ [] ∧ allIdent ident ∧ allSpace w2 ∧
        allSpace w3 ∧ line = w1 ++ ident ++ w2 ++ '('.toNat :: (w3 ++ ')'.toNat :: rest)) := by
  obtain ⟨w, hw, he⟩ := skipSpace_decomp line
  have hsp := peek_skipSpace line
  generalize skipSpace line = cp at he hsp
  subst he
  by_cases hkw : ∃ c rest, isspace c = true ∧ cp = bytes "function" ++ c :: rest
  · obtain ⟨c, rest, hc, rfl⟩ := hkw
    exact Or.inl ⟨w, c, rest, hw, hc, by simp⟩
  · right
    rcases ident_or_not cp with hi | ⟨id, r, hne, hid, hr, rfl⟩
    · exfalso
      apply h
      rw [findShTags_single]
      by_cases hhash : peek (w ++ cp) = '#'.toNat
      · simp [scanLine, hhash]
      · rw [scanLine_plain scriptName _ hw hsp hhash hkw, scanIdentifier_abandon _ _ _ hi]
    · have hk : ¬ (id = bytes "function" ∧ isspace (peek r) = true) := by
        rintro ⟨e, hs⟩
        apply hkw
        cases r with
        | nil => exact absurd hs (by decide)
        | cons c rest => exact ⟨c, rest, hs, by rw [e]⟩
      rw [findShTags_ident_line scriptName hw hne hid hr hk] at h
      have hc : closesParen r = true := by
        cases hcp : closesParen r
        · rw [hcp] at h; simp at h
        · rfl
      obtain ⟨w2, w3, rest, hw2, hw3, rfl⟩ := closesParen_inv hc
      exact ⟨w, id, w2, w3, rest, hw, hne, hid, hw2, hw3, by simp⟩

/-- A line emits nothing, or one tag of kind `K_FUNCTION` whose name is a
non-empty run of identifier bytes taken from the line itself. -/
theorem findShTags_single_shape (scriptName line : List Nat) :
    findShTags scriptName [line] = [] ∨
    ∃ pre id post, id ≠ [] ∧ allIdent id ∧ line = pre ++ id ++ post ∧
      findShTags scriptName [line] = [{ name := id, kind := K_FUNCTION }] := by
  obtain ⟨w, hw, he⟩ := skipSpace_decomp line
  have hsp := peek_skipSpace line
  generalize skipSpace line = cp at he hsp
  subst he
  by_cases hkw : ∃ c rest, isspace c = true ∧ cp = bytes "function" ++ c :: rest
  · obtain ⟨c, rest, hc, rfl⟩ := hkw
    have hc1 : allSpace [c] := by
      intro x hx
      rw [List.mem_singleton.1 hx]; exact hc
    have hline : w ++ (bytes "function" ++ c :: rest) = w ++ bytes "function" ++ [c] ++ rest := by
      simp
    obtain ⟨w2, _, he2⟩ := skipSpace_decomp rest
    rcases ident_or_not (skipSpace rest) with hi | ⟨id, r, hne, hid, hr, hcp⟩
    · left
      rw [hline, findShTags_single, scanLine_keyword scriptName _ hw hc1 (by simp),
        scanIdentifier_abandon _ _ _ hi]
    · right
      refine ⟨w ++ bytes "function" ++ [c] ++ w2, id, r, hne, hid, ?_, ?_⟩
      · rw [hline]
        conv_lhs => rw [he2, hcp]
        simp
      · rw [hline, findShTags_single, scanLine_keyword scriptName _ hw hc1 (by simp), hcp,
          scanIdentifier_ident _ _ _ hne hid hr]
        simp
  · rcases ident_or_not cp with hi | ⟨id, r, hne, hid, hr, rfl⟩
    · left
      rw [findShTags_single]
      by_cases hhash : peek (w ++ cp) = '#'.toNat
      · simp [scanLine, hhash]
      · rw [scanLine_plain scriptName _ hw hsp hhash hkw, scanIdentifier_abandon _ _ _ hi]
    · have hk : ¬ (id = bytes "function" ∧ isspace (peek r) = true) := by
        rintro ⟨e, hs⟩
        apply hkw
        cases r with
        | nil => exact absurd hs (by decide)
        | cons c rest => exact ⟨c, rest, hs, by rw [e]⟩
      have h := findShTags_ident_line scriptName hw hne hid hr hk
      cases hb : (closesParen r && !hackReject scriptName id)
      · left
        rw [h, hb]; simp
      · right
        refine ⟨w, id, r, hne, hid, by simp, ?_⟩
        rw [h, hb]; simp

/-! ## Claims on `findShTags` -/

/-- C1. `findShTags`, `name()` form: a line `ws* IDENT ws* '(' ws* ')' REST`, with
`IDENT` a non-empty run of alphanumeric or underscore bytes, that is not the
keyword `function` followed by whitespace and is not `main` in a file whose base
name is `configure`, emits exactly one tag, of kind `K_FUNCTION`, named `IDENT`. -/
theorem findShTags_name_paren_form (scriptName w1 ident w2 w3 rest : List Nat)
    (hw1 : allSpace w1) (hne : ident ≠ []) (hid : allIdent ident)
    (hw2 : allSpace w2) (hw3 : allSpace w3)
    (hkw : ¬ (ident = bytes "function" ∧ w2 ≠ []))
    (hex : ¬ (cstr scriptName = bytes "configure" ∧ ident = bytes "main")) :
    findShTags scriptName [w1 ++ ident ++ w2 ++ '('.toNat :: (w3 ++ ')'.toNat :: rest)] =
      [{ name := ident, kind := K_FUNCTION }] := by
  have hrej : hackReject scriptName ident = false := by
    rw [← Bool.not_eq_true, hackReject_iff, cstr_of_allIdent hid]
    exact hex
  rw [findShTags_paren_line scriptName rest hw1 hne hid hw2 hw3 hkw, hrej]
  simp

/-- Witness of C1: the line `foo() {` emits one tag named `foo`. -/
theorem findShTags_name_paren_form_witness :
    findShTags (bytes "script.sh") [bytes "foo() \x7b"] =
      [{ name := bytes "foo", kind := K_FUNCTION }] :=
  findShTags_name_paren_form (bytes "script.sh") [] (bytes "foo") [] [] (bytes " \x7b")
    (by decide) (by decide) (by decide) (by decide) (by decide) (by decide) (by decide)

/-- C2. `findShTags`, keyword form: a line `ws* function ws+ IDENT REST`, with
`IDENT` a non-empty maximal run of alphanumeric or underscore bytes, emits
exactly one tag, of kind `K_FUNCTION`, named `IDENT`, whatever `REST` is. The
keyword path does not consult the exclusion rule, so the statement needs no
hypothesis on the file name; it covers the candidates that are not excluded. -/
theorem findShTags_keyword_form (scriptName w1 w2 ident rest : List Nat)
    (hw1 : allSpace w1) (hw2 : allSpace w2) (hw2ne : w2 ≠ [])
    (hne : ident ≠ []) (hid : allIdent ident) (hmax : identChar (peek rest) = false) :
    findShTags scriptName [w1 ++ bytes "function" ++ w2 ++ (ident ++ rest)] =
      [{ name := ident, kind := K_FUNCTION }] := by
  have hsp : isspace (peek (ident ++ rest)) = false := by
    rw [peek_append_of_ne_nil hne]
    obtain ⟨c, cs, rfl⟩ := List.exists_cons_of_ne_nil hne
    have hc := hid c (List.mem_cons_self _ _)
    cases h : isspace (peek (c :: cs))
    · rfl
    · rw [peek_cons] at h; rw [isspace_not_ident h] at hc; exact absurd hc (by decide)
  rw [findShTags_single, scanLine_keyword scriptName _ hw1 hw2 hw2ne,
    skipSpace_of_not_space hsp, scanIdentifier_ident _ _ _ hne hid hmax]
  simp

/-- Witness of C2: the line `function bar {` emits one tag named `bar`. -/
theorem findShTags_keyword_form_witness :
    findShTags (bytes "script.sh") [bytes "function bar \x7b"] =
      [{ name := bytes "bar", kind := K_FUNCTION }] :=
  findShTags_keyword_form (bytes "script.sh") [] (bytes " ") (bytes "bar") (bytes " \x7b")
    (by decide) (by decide) (by decide) (by decide) (by decide) (by decide)

/-- C3. `findShTags`, comments: a line whose first byte is `#` emits no tag,
whatever follows, and the scan goes on with the next line as if the comment
line were not there; in particular `# foo() {` emits no tag. -/
theorem findShTags_comment_line (scriptName rest : List Nat)
    (before after : List (List Nat)) :
    findShTags scriptName ['#'.toNat :: rest] = [] ∧
    findShTags scriptName (before ++ ('#'.toNat :: rest) :: after) =
      findShTags scriptName (before ++ after) ∧
    findShTags scriptName [bytes "# foo() \x7b"] = [] := by
  have h : ∀ r : List Nat, findShTags scriptName ['#'.toNat :: r] = [] := by
    intro r
    rw [findShTags_single, scanLine_comment]
  refine ⟨h rest, ?_, h (bytes " foo() \x7b")⟩
  rw [findShTags_append, findShTags_cons, h rest, findShTags_append]
  simp

/-- C4. Exclusion on the `name()` form: a line `ws* main ws* '(' ws* ')' REST`
emits no tag when the base name of the input file is `configure` and exactly one
tag, named `main`, for every other base name; `hackReject` is true exactly when
the base name is `configure` and the tag name is `main`. -/
theorem findShTags_main_paren_exclusion (scriptName w1 w2 w3 rest : List Nat)
    (tagName : vString) (hw1 : allSpace w1) (hw2 : allSpace w2) (hw3 : allSpace w3) :
    (cstr scriptName = bytes "configure" →
      findShTags scriptName
        [w1 ++ bytes "main" ++ w2 ++ '('.toNat :: (w3 ++ ')'.toNat :: rest)] = []) ∧
    (cstr scriptName ≠ bytes "configure" →
      findShTags scriptName
        [w1 ++ bytes "main" ++ w2 ++ '('.toNat :: (w3 ++ ')'.toNat :: rest)] =
          [{ name := bytes "main", kind := K_FUNCTION }]) ∧
    (hackReject scriptName tagName = true ↔
      cstr scriptName = bytes "configure" ∧ cstr tagName = bytes "main") := by
  have hline := findShTags_paren_line scriptName rest hw1 (by decide) allIdent_main hw2 hw3
    (fun h => absurd h.1 (by decide))
  have hm : cstr (bytes "main") = bytes "main" := by decide
  refine ⟨fun hc => ?_, fun hc => ?_, hackReject_iff scriptName tagName⟩
  · rw [hline, (hackReject_iff scriptName (bytes "main")).2 ⟨hc, hm⟩]
    simp
  · have hrej : hackReject scriptName (bytes "main") = false := by
      rw [← Bool.not_eq_true, hackReject_iff]
      exact fun h => hc h.1
    rw [hline, hrej]
    simp

/-- Witness of C4: the line `main() {` in `configure` and in `build.sh`. -/
theorem findShTags_main_paren_exclusion_witness :
    findShTags (bytes "configure") [bytes "main() \x7b"] = [] ∧
    findShTags (bytes "build.sh") [bytes "main() \x7b"] =
      [{ name := bytes "main", kind := K_FUNCTION }] :=
  ⟨(findShTags_main_paren_exclusion (bytes "configure") [] [] [] (bytes " \x7b") []
      (by decide) (by decide) (by decide)).1 (by decide),
   (findShTags_main_paren_exclusion (bytes "build.sh") [] [] [] (bytes " \x7b") []
      (by decide) (by decide) (by decide)).2.1 (by decide)⟩

/-- C5. The exclusion rule is not applied to a candidate confirmed by the
keyword: in a file whose base name is `configure` the lines `function main {`
and `function main() {` each emit a tag named `main`, although `hackReject`
rejects that name for that file. -/
theorem findShTags_configure_function_main :
    findShTags (bytes "configure") [bytes "function main \x7b"] =
      [{ name := bytes "main", kind := K_FUNCTION }] ∧
    findShTags (bytes "configure") [bytes "function main() \x7b"] =
      [{ name := bytes "main", kind := K_FUNCTION }] ∧
    hackReject (bytes "configure") (bytes "main") = true := by
  decide

/-- C6. No unconfirmed tags: a line that emits a tag begins, after leading
whitespace, with `function` followed by a whitespace byte, or with an identifier
followed by `ws* '(' ws* ')'`. In particular an identifier followed by anything
else (and not the keyword followed by whitespace) emits nothing, as do `foo=1`,
`foo (x)` and `foo`, and so does a line whose first non-whitespace byte is not
alphanumeric or underscore. -/
theorem findShTags_no_unconfirmed_tag (scriptName : List Nat) :
    (∀ line, findShTags scriptName [line] ≠ [] →
      (∃ w c rest, allSpace w ∧ isspace c = true ∧
          line = w ++ bytes "function" ++ c :: rest) ∨
      (∃ w1 ident w2 w3 rest, allSpace w1 ∧ ident ≠ [] ∧ allIdent ident ∧ allSpace w2 ∧
          allSpace w3 ∧
          line = w1 ++ ident ++ w2 ++ '('.toNat :: (w3 ++ ')'.toNat :: rest))) ∧
    (∀ w1 ident rest, allSpace w1 → ident ≠ [] → allIdent ident →
      identChar (peek rest) = false →
      ¬ (ident = bytes "function" ∧ isspace (peek rest) = true) →
      (¬ ∃ w2 w3 r, allSpace w2 ∧ allSpace w3 ∧
          rest = w2 ++ '('.toNat :: (w3 ++ ')'.toNat :: r)) →
      findShTags scriptName [w1 ++ ident ++ rest] = []) ∧
    (∀ w rest, allSpace w → isspace (peek rest) = false →
      identChar (peek rest) = false → findShTags scriptName [w ++ rest] = []) ∧
    findShTags scriptName [bytes "foo=1"] = [] ∧
    findShTags scriptName [bytes "foo (x)"] = [] ∧
    findShTags scriptName [bytes "foo"] = [] := by
  have hgen : ∀ w1 ident rest, allSpace w1 → ident ≠ [] → allIdent ident →
      identChar (peek rest) = false →
      ¬ (ident = bytes "function" ∧ isspace (peek rest) = true) →
      (¬ ∃ w2 w3 r, allSpace w2 ∧ allSpace w3 ∧
          rest = w2 ++ '('.toNat :: (w3 ++ ')'.toNat :: r)) →
      findShTags scriptName [w1 ++ ident ++ rest] = [] := by
    intro w1 ident rest hw1 hne hid hr hk hshape
    have hc : closesParen rest = false := by
      cases hcp : closesParen rest
      · rfl
      · exact absurd (closesParen_inv hcp) hshape
    rw [List.append_assoc, findShTags_ident_line scriptName hw1 hne hid hr hk, hc]
    simp
  have hfoo : ∀ rest : List Nat, identChar (peek rest) = false →
      closesParen rest = false → findShTags scriptName [bytes "foo" ++ rest] = [] := by
    intro rest hr hc
    have h := @findShTags_ident_line scriptName [] (bytes "foo") rest
      (by decide) (by decide) (by decide) hr (fun h => absurd h.1 (by decide))
    rw [hc] at h
    simpa using h
  refine ⟨findShTags_emits_inv scriptName, hgen, ?_, hfoo (bytes "=1") rfl rfl,
    hfoo (bytes " (x)") rfl rfl, hfoo [] rfl rfl⟩
  intro w rest hw hsp hid
  by_cases hhash : peek (w ++ rest) = '#'.toNat
  · rw [findShTags_single]
    simp [scanLine, hhash]
  · have hkw : ¬ ∃ c r, isspace c = true ∧ rest = bytes "function" ++ c :: r := by
      rintro ⟨c, r, _, rfl⟩
      exact Bool.noConfusion hid
    rw [findShTags_single, scanLine_plain scriptName _ hw hsp hhash hkw,
      scanIdentifier_abandon _ _ _ hid]

/-- Witness of C6: the line `foo() {` emits a tag, and it is in one of the two
confirmed shapes. -/
theorem findShTags_no_unconfirmed_tag_witness :
    (∃ w c rest, allSpace w ∧ isspace c = true ∧
        bytes "foo() \x7b" = w ++ bytes "function" ++ c :: rest) ∨
    (∃ w1 ident w2 w3 rest, allSpace w1 ∧ ident ≠ [] ∧ allIdent ident ∧ allSpace w2 ∧
        allSpace w3 ∧
        bytes "foo() \x7b" = w1 ++ ident ++ w2 ++ '('.toNat :: (w3 ++ ')'.toNat :: rest)) :=
  (findShTags_no_unconfirmed_tag (bytes "script.sh")).1 (bytes "foo() \x7b") (by decide)

/-- C7. Per-line reset: the working buffer `name` is empty after any sequence of
lines, hence at the start of every line; the tags of a sequence of lines are the
concatenation, in order, of the tags of each line scanned alone; and every
emitted tag is one that a line of the sequence emits when scanned alone, its
name being a contiguous part of that line. -/
theorem findShTags_per_line_reset (scriptName : List Nat) (lines : List (List Nat)) :
    (runShLines scriptName lines).name = [] ∧
    (∀ before line after, lines = before ++ line :: after →
      (runShLines scriptName before).name = []) ∧
    findShTags scriptName lines =
      lines.flatMap (fun line => findShTags scriptName [line]) ∧
    (∀ t ∈ findShTags scriptName lines,
      ∃ line ∈ lines, t ∈ findShTags scriptName [line] ∧ t.name <:+: line) := by
  refine ⟨runShLines_name scriptName lines, fun before _ _ _ => runShLines_name scriptName before,
    findShTags_flatMap scriptName lines, ?_⟩
  intro t ht
  rw [findShTags_flatMap] at ht
  obtain ⟨line, hl, hmem⟩ := List.mem_flatMap.1 ht
  refine ⟨line, hl, hmem, ?_⟩
  rcases findShTags_single_shape scriptName line with h | ⟨pre, id, post, _, _, he, h⟩
  · rw [h] at hmem; exact absurd hmem (List.not_mem_nil _)
  · rw [h] at hmem
    rw [List.mem_singleton.1 hmem, he]
    exact ⟨pre, post, rfl⟩

/-- Witness of C7: four lines scanned in sequence (a comment, a `name()`
line, an assignment, a keyword line) emit the tags of the second and fourth. -/
theorem findShTags_per_line_reset_witness :
    findShTags (bytes "script.sh")
        [bytes "# setup", bytes "foo() \x7b", bytes "x=1", bytes "function bar"] =
      [{ name := bytes "foo", kind := K_FUNCTION }, { name := bytes "bar", kind := K_FUNCTION }] :=
  (findShTags_per_line_reset (bytes "script.sh")
    [bytes "# setup", bytes "foo() \x7b", bytes "x=1", bytes "function bar"]).2.2.1.trans
    (by decide)

/-! ## Lemmas on `main.c` -/

theorem wrapLong_emod (w : Nat) (x : Int) : wrapLong w x % 2 ^ w = x % 2 ^ w := by
  have h := @Int.bmod_emod x (2 ^ w)
  simpa [wrapLong] using h

theorem wrapLong_add_left (w : Nat) (x y : Int) :
    wrapLong w (wrapLong w x + y) = wrapLong w (x + y) := by
  unfold wrapLong
  exact Int.bmod_add_bmod_congr

theorem wrapLong_zero (w : Nat) : wrapLong w 0 = 0 := by
  simp [wrapLong]

theorem two_pow_pred (w : Nat) (hw : 0 < w) : (2 : Int) ^ w = 2 * 2 ^ (w - 1) := by
  obtain ⟨k, rfl⟩ : ∃ k, w = k + 1 := ⟨w - 1, by omega⟩
  simp [pow_succ, mul_comm]

theorem wrapLong_of_nonneg_lt (w : Nat) {x : Int} (h0 : 0 ≤ x) (h1 : x < 2 ^ (w - 1)) :
    wrapLong w x = x := by
  unfold wrapLong
  rw [Int.bmod_def]
  have hpos : (0 : Int) < 2 ^ (w - 1) := by positivity
  rcases Nat.eq_zero_or_pos w with rfl | hw
  · have hx : x = 0 := by
      have : x < 1 := by simpa using h1
      omega
    subst hx
    simp
  · have e := two_pow_pred w hw
    have hc : ((2 ^ w : Nat) : Int) = 2 ^ w := by push_cast; rfl
    rw [hc, e]
    have hm : x % (2 * 2 ^ (w - 1)) = x := Int.emod_eq_of_lt h0 (by omega)
    rw [hm, if_pos (by omega)]

theorem wrapLong_of_isLong (w : Nat) (hw : 0 < w) {x : Int} (h : isLong w x) :
    wrapLong w x = x := by
  obtain ⟨h1, h2⟩ := h
  rcases le_or_lt 0 x with h0 | h0
  · exact wrapLong_of_nonneg_lt w h0 h2
  · unfold wrapLong
    rw [Int.bmod_def]
    have e := two_pow_pred w hw
    have hc : ((2 ^ w : Nat) : Int) = 2 ^ w := by push_cast; rfl
    have hpos : (0 : Int) < 2 ^ (w - 1) := by positivity
    rw [hc, e]
    have hm : (x + 2 * 2 ^ (w - 1)) % (2 * 2 ^ (w - 1)) = x + 2 * 2 ^ (w - 1) :=
      Int.emod_eq_of_lt (by omega) (by omega)
    rw [Int.add_emod_self] at hm
    rw [hm, if_neg (by omega)]
    omega

theorem wrapLong_eq_zero_iff (w : Nat) (hw : 0 < w) {a b : Int} (ha : isLong w a)
    (hb : isLong w b) : wrapLong w (b - a) = 0 ↔ b = a := by
  constructor
  · intro h
    have h2 := wrapLong_emod w (b - a)
    rw [h] at h2
    have hd : (2 : Int) ^ w ∣ b - a := Int.dvd_of_emod_eq_zero (by simpa using h2.symm)
    have e := two_pow_pred w hw
    obtain ⟨ha1, ha2⟩ := ha
    obtain ⟨hb1, hb2⟩ := hb
    have habs : |b - a| < 2 ^ w := by
      rw [abs_lt]; constructor <;> omega
    have := Int.eq_zero_of_abs_lt_dvd hd habs
    omega
  · rintro rfl
    simp [wrapLong_zero]

theorem runAddTotals_snoc (w : Nat) (calls : List (Nat × Nat × Nat)) (c : Nat × Nat × Nat) :
    runAddTotals w (calls ++ [c]) = addTotals w (runAddTotals w calls) c.1 c.2.1 c.2.2 := by
  simp [runAddTotals, List.foldl_append]

theorem runAddTotals_sums (w : Nat) (calls : List (Nat × Nat × Nat)) :
    runAddTotals w calls =
      { files := wrapLong w (calls.map (fun c => (c.1 : Int))).sum,
        lines := wrapLong w (calls.map (fun c => (c.2.1 : Int))).sum,
        bytes := wrapLong w (calls.map (fun c => (c.2.2 : Int))).sum } := by
  induction calls using List.reverseRecOn with
  | nil => simp [runAddTotals, Totals.zero, wrapLong_zero]
  | append_singleton cs c ih =>
    rw [runAddTotals_snoc, ih]
    simp [addTotals, wrapLong_add_left]

theorem cstr_dot : cstr (bytes ".") = bytes "." := by decide

theorem cstr_dotdot : cstr (bytes "..") = bytes ".." := by decide

theorem callEach_nil {σ : Type} (f : List Nat → σ → Bool × σ) (s : σ) :
    callEach f [] s = ([], s) := rfl

theorem callEach_cons {σ : Type} (f : List Nat → σ → Bool × σ) (path : List Nat)
    (paths : List (List Nat)) (s : σ) :
    callEach f (path :: paths) s =
      ((f path s).1 :: (callEach f paths (f path s).2).1,
        (callEach f paths (f path s).2).2) := rfl

/-- The `readdir` loop calls `createTagsForEntry` on the paths of the proper
entries, in order, and ORs the results into `resize`. -/
theorem readdirLoop_eq {σ : Type} (env : MainEnv σ) (dirName : List Nat)
    (entries : List (List Nat)) (resize : Bool) (s : σ) :
    readdirLoop env dirName entries resize s =
      (resize || (callEach env.createTagsForEntry
          ((properEntries entries).map (entryPath env dirName)) s).1.or,
        (callEach env.createTagsForEntry
          ((properEntries entries).map (entryPath env dirName)) s).2) := by
  induction entries generalizing resize s with
  | nil => simp [readdirLoop, properEntries, callEach_nil]
  | cons e es ih =>
    by_cases hp : cstr e ≠ bytes "." ∧ cstr e ≠ bytes ".."
    · have hf : properEntries (e :: es) = e :: properEntries es := by
        simp [properEntries, hp]
      have h1 : strcmpEq e (bytes ".") = false := by
        rw [← Bool.not_eq_true, strcmpEq_iff, cstr_dot]; exact hp.1
      have h2 : strcmpEq e (bytes "..") = false := by
        rw [← Bool.not_eq_true, strcmpEq_iff, cstr_dotdot]; exact hp.2
      have hpath : vStringValue (if strcmpEq dirName (bytes ".") = true then vStringNewInit e
          else env.combinePathAndFile dirName e) = entryPath env dirName e := by
        unfold entryPath vStringValue vStringNewInit
        by_cases hd : cstr dirName = bytes "."
        · rw [if_pos hd, if_pos ((strcmpEq_iff _ _).2 (by rw [cstr_dot]; exact hd))]
        · rw [if_neg hd, if_neg (fun h => hd (by rw [strcmpEq_iff, cstr_dot] at h; exact h))]
      rw [hf, List.map_cons, callEach_cons]
      simp only [readdirLoop, h1, h2, Bool.not_false, Bool.and_self, if_true]
      rw [hpath, ih]
      simp [List.or, Bool.or_assoc]
    · have hf : properEntries (e :: es) = properEntries es := by
        simp only [properEntries, List.filter_cons]
        rw [if_neg (by simpa using hp)]
      have h12 : (!strcmpEq e (bytes ".") && !strcmpEq e (bytes "..")) = false := by
        rw [← Bool.not_eq_true, Bool.and_eq_true]
        rintro ⟨a, b⟩
        apply hp
        constructor
        · intro h; rw [← cstr_dot, ← strcmpEq_iff] at h; simp [h] at a
        · intro h; rw [← cstr_dotdot, ← strcmpEq_iff] at h; simp [h] at b
      rw [hf]
      simp only [readdirLoop, h12, Bool.false_eq_true, if_false]
      exact ih resize s

/-! ## Claims on `main.c` -/

/-- C8. Totals accumulation: starting from `{0, 0, 0}`, after any sequence of
calls of `addTotals` each field of `Totals` is the sum of its own arguments,
stored in a `long` (so equal to the sum modulo `2^w`, and equal to the sum itself
when that fits in a `long`); one call changes each field by its own argument
only; and the result does not depend on the order of the calls. -/
theorem addTotals_accumulates (w : Nat) (calls : List (Nat × Nat × Nat)) :
    ((runAddTotals w calls).files = wrapLong w (calls.map (fun c => (c.1 : Int))).sum ∧
      (runAddTotals w calls).lines = wrapLong w (calls.map (fun c => (c.2.1 : Int))).sum ∧
      (runAddTotals w calls).bytes = wrapLong w (calls.map (fun c => (c.2.2 : Int))).sum) ∧
    (∀ x : Int, wrapLong w x % 2 ^ w = x % 2 ^ w) ∧
    ((calls.map (fun c => (c.1 : Int))).sum < 2 ^ (w - 1) →
      (runAddTotals w calls).files = (calls.map (fun c => (c.1 : Int))).sum) ∧
    ((calls.map (fun c => (c.2.1 : Int))).sum < 2 ^ (w - 1) →
      (runAddTotals w calls).lines = (calls.map (fun c => (c.2.1 : Int))).sum) ∧
    ((calls.map (fun c => (c.2.2 : Int))).sum < 2 ^ (w - 1) →
      (runAddTotals w calls).bytes = (calls.map (fun c => (c.2.2 : Int))).sum) ∧
    (∀ (t : Totals) (files lines bytes : Nat),
      (addTotals w t files lines bytes).files = wrapLong w (t.files + files) ∧
      (addTotals w t files lines bytes).lines = wrapLong w (t.lines + lines) ∧
      (addTotals w t files lines bytes).bytes = wrapLong w (t.bytes + bytes)) ∧
    (∀ calls2 : List (Nat × Nat × Nat), calls.Perm calls2 →
      runAddTotals w calls2 = runAddTotals w calls) := by
  have hnn : ∀ (f : Nat × Nat × Nat → Nat) (l : List (Nat × Nat × Nat)),
      0 ≤ (l.map (fun c => (f c : Int))).sum := by
    intro f l
    apply List.sum_nonneg
    intro x hx
    obtain ⟨c, _, rfl⟩ := List.mem_map.1 hx
    exact Int.ofNat_nonneg _
  have hs := runAddTotals_sums w calls
  refine ⟨⟨by rw [hs], by rw [hs], by rw [hs]⟩, wrapLong_emod w, ?_, ?_, ?_,
    fun t f l b => ⟨rfl, rfl, rfl⟩, ?_⟩
  · intro h; rw [hs]; exact wrapLong_of_nonneg_lt w (hnn (fun c => c.1) calls) h
  · intro h; rw [hs]; exact wrapLong_of_nonneg_lt w (hnn (fun c => c.2.1) calls) h
  · intro h; rw [hs]; exact wrapLong_of_nonneg_lt w (hnn (fun c => c.2.2) calls) h
  · intro calls2 hp
    rw [hs, runAddTotals_sums w calls2, (hp.map _).sum_eq, (hp.map _).sum_eq,
      (hp.map _).sum_eq]

/-- Witness of C8: two files of 10 and 20 lines, 100 and 200 bytes, with a
`long` of 64 bits. -/
theorem addTotals_accumulates_witness :
    (runAddTotals 64 [(1, 10, 100), (1, 20, 200)]).files = 2 ∧
    (runAddTotals 64 [(1, 10, 100), (1, 20, 200)]).lines = 30 ∧
    (runAddTotals 64 [(1, 10, 100), (1, 20, 200)]).bytes = 300 ∧
    runAddTotals 64 [(1, 20, 200), (1, 10, 100)] =
      runAddTotals 64 [(1, 10, 100), (1, 20, 200)] :=
  ⟨(addTotals_accumulates 64 [(1, 10, 100), (1, 20, 200)]).2.2.1 (by decide),
   (addTotals_accumulates 64 [(1, 10, 100), (1, 20, 200)]).2.2.2.1 (by decide),
   (addTotals_accumulates 64 [(1, 10, 100), (1, 20, 200)]).2.2.2.2.1 (by decide),
   (addTotals_accumulates 64 [(1, 10, 100), (1, 20, 200)]).2.2.2.2.2.2 _
     (List.Perm.swap _ _ _)⟩

/-! ### Lemmas on the rounding to `double` -/

theorem log2Aux_spec (limit n : Nat) (h1 : n ≤ limit) (h0 : 0 < n) :
    2 ^ log2Aux limit n ≤ n ∧ n < 2 ^ (log2Aux limit n + 1) := by
  induction limit generalizing n with
  | zero => omega
  | succ k ih =>
    unfold log2Aux
    by_cases h2 : n < 2
    · rw [if_pos h2]
      have : n = 1 := by omega
      subst this
      simp
    · rw [if_neg h2]
      obtain ⟨i1, i2⟩ := ih (n / 2) (by omega) (by omega)
      rw [pow_succ, pow_succ]
      rw [pow_succ] at i2
      constructor <;> omega

theorem ilog2_spec (n : Nat) (h0 : 0 < n) :
    2 ^ ilog2 n ≤ n ∧ n < 2 ^ (ilog2 n + 1) :=
  log2Aux_spec n n (Nat.le_refl _) h0

theorem ilog2_spec_rat (n : Nat) (h0 : 0 < n) :
    (2 : ℚ) ^ (ilog2 n : Int) ≤ (n : ℚ) ∧ (n : ℚ) < 2 ^ ((ilog2 n : Int) + 1) := by
  obtain ⟨h1, h2⟩ := ilog2_spec n h0
  constructor
  · rw [zpow_natCast]
    exact_mod_cast h1
  · have : ((ilog2 n : Int) + 1) = ((ilog2 n + 1 : Nat) : Int) := by push_cast; rfl
    rw [this, zpow_natCast]
    exact_mod_cast h2

theorem binade_spec (q : ℚ) (hq : 0 < q) :
    (2 : ℚ) ^ binade q ≤ q ∧ q < 2 ^ (binade q + 1) := by
  have hnum : 0 < q.num := Rat.num_pos.2 hq
  have hden : 0 < q.den := q.den_pos
  have ha : 0 < q.num.natAbs := Int.natAbs_pos.2 (ne_of_gt hnum)
  obtain ⟨a1, a2⟩ := ilog2_spec_rat q.num.natAbs ha
  obtain ⟨d1, d2⟩ := ilog2_spec_rat q.den hden
  have hqe : q = (q.num.natAbs : ℚ) / (q.den : ℚ) := by
    have h1 : ((q.num.natAbs : Int) : ℚ) = (q.num : ℚ) := by
      rw [Int.natAbs_of_nonneg (le_of_lt hnum)]
    rw [← Int.cast_natCast, h1]
    exact (Rat.num_div_den q).symm
  have hdq : (0 : ℚ) < (q.den : ℚ) := by exact_mod_cast hden
  have h2pos : ∀ k : Int, (0 : ℚ) < 2 ^ k := fun k => zpow_pos (by norm_num) k
  unfold binade
  simp only []
  by_cases ht : (2 : ℚ) ^ ((ilog2 q.num.natAbs : Int) - (ilog2 q.den : Int)) ≤ q
  · rw [if_pos ht]
    refine ⟨ht, ?_⟩
    have e : ((ilog2 q.num.natAbs : Int) - (ilog2 q.den : Int) + 1) =
        ((ilog2 q.num.natAbs : Int) + 1) - (ilog2 q.den : Int) := by ring
    rw [e, zpow_sub₀ (by norm_num : (2 : ℚ) ≠ 0)]
    conv_lhs => rw [hqe]
    exact div_lt_div₀ a2 d1 (le_of_lt (h2pos _)) (h2pos _)
  · rw [if_neg ht]
    have ht2 : q < (2 : ℚ) ^ ((ilog2 q.num.natAbs : Int) - (ilog2 q.den : Int)) := lt_of_not_le ht
    refine ⟨?_, by simpa using ht2⟩
    have e : ((ilog2 q.num.natAbs : Int) - (ilog2 q.den : Int) - 1) =
        (ilog2 q.num.natAbs : Int) - ((ilog2 q.den : Int) + 1) := by ring
    rw [e, zpow_sub₀ (by norm_num : (2 : ℚ) ≠ 0)]
    conv_rhs => rw [hqe]
    exact div_le_div₀ (by exact_mod_cast Nat.zero_le _) a1 hdq (le_of_lt d2)


theorem rat_floor_eq (q : ℚ) : Rat.floor q = ⌊q⌋ := rfl

/-- The nearest integer is not below an integer that is not above `y`. -/
theorem roundNearestEven_ge (m : Int) (y : ℚ) (h : (m : ℚ) ≤ y) : m ≤ roundNearestEven y := by
  have hf : m ≤ ⌊y⌋ := Int.le_floor.2 h
  unfold roundNearestEven
  simp only [rat_floor_eq]
  split_ifs <;> omega

/-- The nearest integer is not above an integer that is not below `y`. -/
theorem roundNearestEven_le (m : Int) (y : ℚ) (h : y ≤ (m : ℚ)) : roundNearestEven y ≤ m := by
  have h1 : (⌊y⌋ : ℚ) ≤ y := Int.floor_le y
  unfold roundNearestEven
  simp only [rat_floor_eq]
  by_cases hr : y - (⌊y⌋ : ℚ) < 1 / 2
  · rw [if_pos hr]
    exact_mod_cast (Int.floor_le y).trans h
  · have hlt : ⌊y⌋ < m := by
      have : (⌊y⌋ : ℚ) < m := by linarith
      exact_mod_cast this
    rw [if_neg hr]
    split_ifs <;> omega

theorem roundNearestEven_intCast (m : Int) : roundNearestEven (m : ℚ) = m :=
  le_antisymm (roundNearestEven_le m m (le_refl _)) (roundNearestEven_ge m m (le_refl _))

/-- The nearest integer is within one half. -/
theorem roundNearestEven_error (y : ℚ) : |((roundNearestEven y : Int) : ℚ) - y| ≤ 1 / 2 := by
  have h1 : (⌊y⌋ : ℚ) ≤ y := Int.floor_le y
  have h2 : y < (⌊y⌋ : ℚ) + 1 := Int.lt_floor_add_one y
  unfold roundNearestEven
  simp only [rat_floor_eq]
  rw [abs_le]
  split_ifs with c1 c2 c3 <;> push_cast <;> constructor <;> linarith


/-- The nearest integer is at least as near as any integer. -/
theorem roundNearestEven_nearest (t : ℚ) (k : Int) :
    |((roundNearestEven t : Int) : ℚ) - t| ≤ |(k : ℚ) - t| := by
  have h := roundNearestEven_error t
  by_cases hk : k = roundNearestEven t
  · rw [hk]
  · have h1 : (1 : ℚ) ≤ |(k : ℚ) - ((roundNearestEven t : Int) : ℚ)| := by
      have h3 : (1 : Int) ≤ |k - roundNearestEven t| := Int.one_le_abs (sub_ne_zero.2 hk)
      exact_mod_cast h3
    have h2 := abs_sub_le (k : ℚ) t ((roundNearestEven t : Int) : ℚ)
    rw [abs_sub_comm t _] at h2
    linarith

theorem two_zpow_pos (k : Int) : (0 : ℚ) < 2 ^ k := zpow_pos (by norm_num) k

theorem two_zpow_split (a b : Int) : (2 : ℚ) ^ a = 2 ^ (a - b) * 2 ^ b := by
  rw [← zpow_add₀ (by norm_num : (2 : ℚ) ≠ 0)]
  congr 1
  ring

theorem two_zpow_toNat (j : Int) (hj : 0 ≤ j) : (2 : ℚ) ^ j = (((2 : Int) ^ j.toNat : Int) : ℚ) := by
  push_cast
  rw [← zpow_natCast, Int.toNat_of_nonneg hj]

theorem binade_le_of_le (q : ℚ) (hq : 0 < q) (k : Int) (h : q ≤ 2 ^ k) : binade q ≤ k :=
  (zpow_le_zpow_iff_right₀ (by norm_num : (1 : ℚ) < 2)).1 ((binade_spec q hq).1.trans h)

theorem le_binade_of_le (q : ℚ) (hq : 0 < q) (k : Int) (h : 2 ^ k ≤ q) : k ≤ binade q := by
  have h3 := (zpow_lt_zpow_iff_right₀ (by norm_num : (1 : ℚ) < 2)).1
    (lt_of_le_of_lt h (binade_spec q hq).2)
  omega

theorem roundMagnitude_eq (q : ℚ) :
    roundMagnitude q =
      ((roundNearestEven (q / 2 ^ (max (binade q) (-1022) - 52)) : Int) : ℚ) *
        2 ^ (max (binade q) (-1022) - 52) := rfl

/-- Rounding does not cross a power of two from above. -/
theorem roundMagnitude_ge (q : ℚ) (hq : 0 < q) (k : Int) (hk : -1022 ≤ k) (h : 2 ^ k ≤ q) :
    2 ^ k ≤ roundMagnitude q := by
  have hkb := le_binade_of_le q hq k h
  have hmax : max (binade q) (-1022) = binade q := max_eq_left (by omega)
  rw [roundMagnitude_eq, hmax]
  have hu := two_zpow_pos (binade q - 52)
  have hsplit : (2 : ℚ) ^ binade q = 2 ^ (52 : Int) * 2 ^ (binade q - 52) := by
    have := two_zpow_split (binade q) (binade q - 52)
    rwa [show binade q - (binade q - 52) = 52 by ring] at this
  have h52 : (2 : ℚ) ^ (52 : Int) = (((2 : Int) ^ 52 : Int) : ℚ) := by norm_num
  have hle : (((2 : Int) ^ 52 : Int) : ℚ) ≤ q / 2 ^ (binade q - 52) := by
    rw [le_div_iff₀ hu, ← h52, ← hsplit]
    exact (binade_spec q hq).1
  have hn := roundNearestEven_ge _ _ hle
  have hn2 : (((2 : Int) ^ 52 : Int) : ℚ) ≤ ((roundNearestEven (q / 2 ^ (binade q - 52)) : Int) : ℚ) := by
    exact_mod_cast hn
  calc (2 : ℚ) ^ k ≤ 2 ^ binade q := (zpow_le_zpow_iff_right₀ (by norm_num : (1 : ℚ) < 2)).2 hkb
    _ = (((2 : Int) ^ 52 : Int) : ℚ) * 2 ^ (binade q - 52) := by rw [hsplit, h52]
    _ ≤ _ := mul_le_mul_of_nonneg_right hn2 (le_of_lt hu)

/-- Rounding does not cross a power of two from below. -/
theorem roundMagnitude_le (q : ℚ) (hq : 0 < q) (k : Int) (hk : -1022 ≤ k) (h : q ≤ 2 ^ k) :
    roundMagnitude q ≤ 2 ^ k := by
  have hbk := binade_le_of_le q hq k h
  have hek : max (binade q) (-1022) ≤ k := max_le hbk hk
  rw [roundMagnitude_eq]
  generalize max (binade q) (-1022) = e at hek
  have hu := two_zpow_pos (e - 52)
  have hsplit := two_zpow_split k (e - 52)
  have hj := two_zpow_toNat (k - (e - 52)) (by omega)
  have hle : q / 2 ^ (e - 52) ≤ (((2 : Int) ^ (k - (e - 52)).toNat : Int) : ℚ) := by
    rw [div_le_iff₀ hu, ← hj, ← hsplit]
    exact h
  have hn := roundNearestEven_le _ _ hle
  have hn2 : ((roundNearestEven (q / 2 ^ (e - 52)) : Int) : ℚ) ≤
      (((2 : Int) ^ (k - (e - 52)).toNat : Int) : ℚ) := by exact_mod_cast hn
  calc _ ≤ (((2 : Int) ^ (k - (e - 52)).toNat : Int) : ℚ) * 2 ^ (e - 52) :=
        mul_le_mul_of_nonneg_right hn2 (le_of_lt hu)
    _ = 2 ^ k := by rw [← hj, ← hsplit]

theorem roundMagnitude_pos (q : ℚ) (hq : 0 < q) : 0 ≤ roundMagnitude q := by
  rw [roundMagnitude_eq]
  apply mul_nonneg _ (le_of_lt (two_zpow_pos _))
  have h0 : ((0 : Int) : ℚ) ≤ q / 2 ^ (max (binade q) (-1022) - 52) := by
    simpa using div_nonneg (le_of_lt hq) (le_of_lt (two_zpow_pos _))
  have := roundNearestEven_ge 0 _ h0
  exact_mod_cast this


theorem roundMagnitude_isDouble (q : ℚ) (hq : 0 < q) : isDouble (roundMagnitude q) := by
  rw [roundMagnitude_eq]
  have he : -1022 ≤ max (binade q) (-1022) := le_max_right _ _
  have hb : binade q ≤ max (binade q) (-1022) := le_max_left _ _
  generalize max (binade q) (-1022) = e at he hb
  have hu := two_zpow_pos (e - 52)
  have h0 : (0 : Int) ≤ roundNearestEven (q / 2 ^ (e - 52)) :=
    roundNearestEven_ge 0 _ (by simpa using div_nonneg (le_of_lt hq) (le_of_lt hu))
  have h53 : roundNearestEven (q / 2 ^ (e - 52)) ≤ 2 ^ 53 := by
    apply roundNearestEven_le
    rw [div_le_iff₀ hu]
    have h1 := (binade_spec q hq).2
    have h2 : (2 : ℚ) ^ (binade q + 1) ≤ 2 ^ (e + 1) :=
      zpow_le_zpow_right₀ (by norm_num) (by omega)
    have h3 : (2 : ℚ) ^ (e + 1) = (((2 : Int) ^ 53 : Int) : ℚ) * 2 ^ (e - 52) := by
      have h4 := two_zpow_split (e + 1) (e - 52)
      rw [show e + 1 - (e - 52) = 53 by ring] at h4
      rw [h4]
      norm_num
    linarith
  by_cases hn : roundNearestEven (q / 2 ^ (e - 52)) = 2 ^ 53
  · refine ⟨2 ^ 52, e - 51, by norm_num, by omega, ?_⟩
    rw [hn]
    have h4 := two_zpow_split (e - 51) (e - 52)
    rw [show e - 51 - (e - 52) = 1 by ring] at h4
    rw [h4]
    push_cast
    ring
  · refine ⟨roundNearestEven (q / 2 ^ (e - 52)), e - 52, ?_, by omega, rfl⟩
    rw [abs_lt]
    constructor <;> omega

theorem roundMagnitude_nearest (q : ℚ) (hq : 0 < q) (y : ℚ) (hy : isDouble y) :
    |roundMagnitude q - q| ≤ |y - q| := by
  obtain ⟨m, e, hm, he, rfl⟩ := hy
  have key : ∀ k : Int, |roundMagnitude q - q| ≤
      |(k : ℚ) * 2 ^ (max (binade q) (-1022) - 52) - q| := by
    intro k
    rw [roundMagnitude_eq]
    have hu := two_zpow_pos (max (binade q) (-1022) - 52)
    have hk := roundNearestEven_nearest (q / 2 ^ (max (binade q) (-1022) - 52)) k
    generalize roundNearestEven (q / 2 ^ (max (binade q) (-1022) - 52)) = n at hk
    generalize (2 : ℚ) ^ (max (binade q) (-1022) - 52) = u at hu hk
    have e1 : (n : ℚ) * u - q = ((n : ℚ) - q / u) * u := by field_simp
    have e2 : (k : ℚ) * u - q = ((k : ℚ) - q / u) * u := by field_simp
    rw [e1, e2, abs_mul, abs_mul]
    exact mul_le_mul_of_nonneg_right hk (abs_nonneg _)
  by_cases hc : max (binade q) (-1022) - 52 ≤ e
  · have h1 := key (m * 2 ^ (e - (max (binade q) (-1022) - 52)).toNat)
    have h2 : (((m * 2 ^ (e - (max (binade q) (-1022) - 52)).toNat : Int) : ℚ)) *
        2 ^ (max (binade q) (-1022) - 52) = (m : ℚ) * 2 ^ e := by
      have h3 := two_zpow_toNat (e - (max (binade q) (-1022) - 52)) (by omega)
      have h4 := two_zpow_split e (max (binade q) (-1022) - 52)
      push_cast at h3 ⊢
      rw [mul_assoc, ← h3, ← h4]
    rwa [h2] at h1
  · have hE : max (binade q) (-1022) = binade q := by
      rcases max_cases (binade q) (-1022) with ⟨h1, _⟩ | ⟨h1, _⟩
      · exact h1
      · omega
    rw [hE] at key hc
    have h1 := key (2 ^ 52)
    have h2 : (((2 ^ 52 : Int) : ℚ)) * 2 ^ (binade q - 52) = 2 ^ binade q := by
      have h4 := two_zpow_split (binade q) (binade q - 52)
      rw [show binade q - (binade q - 52) = 52 by ring] at h4
      rw [h4]
      norm_num
    rw [h2] at h1
    have hlow := (binade_spec q hq).1
    have hm1 : (m : ℚ) < 2 ^ 53 := by
      have : m < 2 ^ 53 := (abs_lt.1 hm).2
      exact_mod_cast this
    have hy1 : (m : ℚ) * 2 ^ e < 2 ^ binade q := by
      have h5 : (m : ℚ) * 2 ^ e < 2 ^ 53 * 2 ^ e :=
        mul_lt_mul_of_pos_right hm1 (two_zpow_pos e)
      have h6 : (2 : ℚ) ^ 53 * 2 ^ e = 2 ^ (53 + e) := by
        rw [zpow_add₀ (by norm_num : (2 : ℚ) ≠ 0)]
        norm_num
      have h7 : (2 : ℚ) ^ (53 + e) ≤ 2 ^ binade q :=
        zpow_le_zpow_right₀ (by norm_num) (by omega)
      linarith
    rw [abs_of_nonpos (by linarith : (2 : ℚ) ^ binade q - q ≤ 0)] at h1
    rw [abs_of_nonpos (by linarith : (m : ℚ) * 2 ^ e - q ≤ 0)]
    linarith

theorem isDouble_neg (x : ℚ) (h : isDouble x) : isDouble (-x) := by
  obtain ⟨m, e, hm, he, rfl⟩ := h
  exact ⟨-m, e, by rwa [abs_neg], he, by push_cast; ring⟩

theorem isDouble_intCast (n : Int) (h : |n| < 2 ^ 53) : isDouble (n : ℚ) :=
  ⟨n, 0, h, by norm_num, by simp⟩

theorem roundDouble_zero : roundDouble 0 = 0 := by
  simp [roundDouble]

theorem roundDouble_of_pos (q : ℚ) (h : 0 < q) : roundDouble q = roundMagnitude q := by
  simp [roundDouble, h]

theorem roundDouble_of_neg (q : ℚ) (h : q < 0) : roundDouble q = -roundMagnitude (-q) := by
  simp [roundDouble, h, not_lt.2 (le_of_lt h)]

/-- The model of rounding is correct rounding: the result is a `double`, and no
`double` is nearer. -/
theorem roundDouble_nearest (q : ℚ) : NearestDouble q (roundDouble q) := by
  rcases lt_trichotomy 0 q with h | h | h
  · rw [roundDouble_of_pos q h]
    exact ⟨roundMagnitude_isDouble q h, fun y hy => roundMagnitude_nearest q h y hy⟩
  · subst h
    rw [roundDouble_zero]
    exact ⟨isDouble_intCast 0 (by norm_num), fun y _ => by simp⟩
  · rw [roundDouble_of_neg q h]
    have hq : 0 < -q := neg_pos.2 h
    refine ⟨isDouble_neg _ (roundMagnitude_isDouble _ hq), fun y hy => ?_⟩
    have h1 := roundMagnitude_nearest (-q) hq (-y) (isDouble_neg y hy)
    rw [show -roundMagnitude (-q) - q = -(roundMagnitude (-q) - -q) by ring, abs_neg,
      show y - q = -(-y - -q) by ring, abs_neg]
    exact h1

/-- A `double` is not changed by rounding. -/
theorem roundDouble_of_isDouble (x : ℚ) (h : isDouble x) : roundDouble x = x := by
  have h1 := (roundDouble_nearest x).2 x h
  rw [sub_self, abs_zero] at h1
  exact sub_eq_zero.1 (abs_eq_zero.1 (le_antisymm h1 (abs_nonneg _)))

theorem roundDouble_abs_ge (q : ℚ) (k : Int) (hk : -1022 ≤ k) (h : 2 ^ k ≤ |q|) :
    2 ^ k ≤ |roundDouble q| := by
  rcases lt_trichotomy 0 q with hq | hq | hq
  · rw [roundDouble_of_pos q hq]
    rw [abs_of_pos hq] at h
    exact (roundMagnitude_ge q hq k hk h).trans (le_abs_self _)
  · subst hq
    rw [abs_zero] at h
    exact absurd h (not_le.2 (two_zpow_pos k))
  · rw [roundDouble_of_neg q hq, abs_neg]
    rw [abs_of_neg hq] at h
    exact (roundMagnitude_ge (-q) (neg_pos.2 hq) k hk h).trans (le_abs_self _)

theorem roundDouble_abs_le (q : ℚ) (k : Int) (hk : -1022 ≤ k) (h : |q| ≤ 2 ^ k) :
    |roundDouble q| ≤ 2 ^ k := by
  rcases lt_trichotomy 0 q with hq | hq | hq
  · rw [roundDouble_of_pos q hq, abs_of_nonneg (roundMagnitude_pos q hq)]
    rw [abs_of_pos hq] at h
    exact roundMagnitude_le q hq k hk h
  · subst hq
    rw [roundDouble_zero, abs_zero]
    exact le_of_lt (two_zpow_pos k)
  · rw [roundDouble_of_neg q hq, abs_neg, abs_of_nonneg (roundMagnitude_pos _ (neg_pos.2 hq))]
    rw [abs_of_neg hq] at h
    exact roundMagnitude_le (-q) (neg_pos.2 hq) k hk h

theorem isDouble_natCast (n : Nat) (h : n < 2 ^ 53) : isDouble (n : ℚ) := by
  have h1 := isDouble_intCast (n : Int) (by rw [Nat.abs_cast]; exact_mod_cast h)
  rwa [Int.cast_natCast] at h1

/-- The quotient of a non-zero integer and a non-zero integer of at most 64
bits, computed in `double`, is not zero. -/
theorem roundDouble_quotient_ne_zero (w : Nat) (hw : w ≤ 64) (d : Int) (c : Nat) (hd : d ≠ 0)
    (hc0 : c ≠ 0) (hc : c < 2 ^ w) :
    roundDouble (roundDouble (d : ℚ) / roundDouble (c : ℚ)) ≠ 0 := by
  have h1 : (2 : ℚ) ^ (0 : Int) ≤ |(d : ℚ)| := by
    have h : (1 : Int) ≤ |d| := Int.one_le_abs hd
    rw [zpow_zero]
    exact_mod_cast h
  have h2 : (2 : ℚ) ^ (0 : Int) ≤ |(c : ℚ)| := by
    rw [zpow_zero, Nat.abs_cast]
    exact_mod_cast Nat.one_le_iff_ne_zero.2 hc0
  have h3 : |(c : ℚ)| ≤ 2 ^ (w : Int) := by
    rw [Nat.abs_cast, zpow_natCast]
    exact_mod_cast le_of_lt hc
  have a1 := roundDouble_abs_ge _ 0 (by norm_num) h1
  have a2 := roundDouble_abs_ge _ 0 (by norm_num) h2
  have a3 := roundDouble_abs_le _ (w : Int) (by omega) h3
  rw [zpow_zero] at a1 a2
  have a4 : (2 : ℚ) ^ (-(w : Int)) ≤ |roundDouble (d : ℚ) / roundDouble (c : ℚ)| := by
    rw [abs_div, zpow_neg, ← one_div]
    exact div_le_div₀ (by linarith) a1 (by linarith) a3
  have a5 := roundDouble_abs_ge _ (-(w : Int)) (by omega) a4
  intro h
  rw [h, abs_zero] at a5
  exact absurd a5 (not_le.2 (two_zpow_pos _))

theorem tdiv_of_nonneg (x : ℚ) (h0 : 0 ≤ x) : Int.tdiv x.num x.den = ⌊x⌋ := by
  rw [Int.tdiv_eq_ediv (Rat.num_nonneg.2 h0) (Int.natCast_nonneg _), ← Rat.floor_def]

theorem tdiv_of_nonpos (x : ℚ) (h0 : x ≤ 0) : Int.tdiv x.num x.den = -⌊-x⌋ := by
  have h := tdiv_of_nonneg (-x) (neg_nonneg.2 h0)
  rw [Rat.neg_num, Rat.neg_den, Int.neg_tdiv] at h
  omega

/-- The conversion to `unsigned long` of a `double` above -1 and below `2^w` is
defined, and is its whole part. -/
theorem doubleToULong_of_fits (w : Nat) (x : ℚ) (h0 : -1 < x) (h1 : x < 2 ^ w) :
    doubleToULong w x = some ⌊x⌋.toNat := by
  unfold doubleToULong
  rcases le_or_lt 0 x with hx | hx
  · rw [tdiv_of_nonneg x hx]
    have hf0 : 0 ≤ ⌊x⌋ := Int.floor_nonneg.2 hx
    have hf1 : ⌊x⌋ < 2 ^ w := by
      have h2 : ((⌊x⌋ : Int) : ℚ) < 2 ^ w := lt_of_le_of_lt (Int.floor_le x) h1
      exact_mod_cast h2
    rw [if_pos ⟨hf0, hf1⟩]
  · rw [tdiv_of_nonpos x (le_of_lt hx)]
    have hz : ⌊-x⌋ = 0 := Int.floor_eq_zero_iff.2 ⟨by linarith, by linarith⟩
    have hneg : ⌊x⌋ ≤ 0 := by
      have h2 : ((⌊x⌋ : Int) : ℚ) < ((0 : Int) : ℚ) := by
        have := Int.floor_le x
        push_cast
        linarith
      have h3 : ⌊x⌋ < 0 := by exact_mod_cast h2
      omega
    have hpos : (0 : Int) < 2 ^ w := by positivity
    rw [hz, Int.toNat_of_nonpos hneg, if_pos ⟨by omega, by omega⟩]
    rfl

/-- The conversion to `unsigned long` of a `double` not above -1 or not below
`2^w` is undefined. -/
theorem doubleToULong_of_not_fits (w : Nat) (x : ℚ) (h : x ≤ -1 ∨ 2 ^ w ≤ x) :
    doubleToULong w x = none := by
  unfold doubleToULong
  rw [if_neg]
  rintro ⟨h0, h1⟩
  rcases h with h | h
  · rw [tdiv_of_nonpos x (by linarith)] at h0
    have h2 : (1 : Int) ≤ ⌊-x⌋ := Int.le_floor.2 (by push_cast; linarith)
    omega
  · have hx : 0 ≤ x := le_trans (by positivity) h
    rw [tdiv_of_nonneg x hx] at h1
    have h2 : (2 ^ w : Int) ≤ ⌊x⌋ := Int.le_floor.2 (by push_cast; exact h)
    omega

theorem wrapLong_abs_le (w : Nat) (hw64 : w ≤ 64) (x : Int) : |wrapLong w x| ≤ 2 ^ 63 := by
  have hm : 0 < 2 ^ w := Nat.two_pow_pos w
  have hle : 2 ^ w ≤ 18446744073709551616 := by
    have h := @Nat.pow_le_pow_right 2 (by norm_num) w 64 hw64
    norm_num at h
    exact h
  have h1 := @Int.bmod_lt x (2 ^ w) hm
  have h2 := @Int.le_bmod x (2 ^ w) hm
  unfold wrapLong
  rw [abs_le]
  constructor <;> omega

theorem isLong_abs_le (w : Nat) (hw64 : w ≤ 64) (x : Int) (h : isLong w x) : |x| ≤ 2 ^ 63 := by
  obtain ⟨h1, h2⟩ := h
  have hle : (2 : Int) ^ (w - 1) ≤ 2 ^ 63 := pow_le_pow_right₀ (by norm_num) (by omega)
  rw [abs_le]
  constructor <;> omega

theorem intCast_abs_le (d : Int) (h : |d| ≤ 2 ^ 63) : |(d : ℚ)| ≤ 2 ^ (63 : Int) := by
  have h1 : ((|d| : Int) : ℚ) ≤ (((2 : Int) ^ 63 : Int) : ℚ) := by exact_mod_cast h
  rw [Int.cast_abs] at h1
  norm_num at h1 ⊢
  exact h1

/-- The magnitudes of the `double`s of an interval, for integers of at most 64
bits: no conversion or division overflows, and the interval of a non-zero
difference is far from underflow. -/
theorem elapsed_magnitude (w : Nat) (hw64 : w ≤ 64) (d : Int) (c : Nat) (hd : |d| ≤ 2 ^ 63)
    (hc0 : c ≠ 0) (hc : c < 2 ^ w) :
    |roundDouble (d : ℚ)| ≤ 2 ^ 63 ∧ 1 ≤ roundDouble (c : ℚ) ∧ roundDouble (c : ℚ) ≤ 2 ^ 64 ∧
      |roundDouble (roundDouble (d : ℚ) / roundDouble (c : ℚ))| ≤ 2 ^ 63 ∧
      (d ≠ 0 →
        2 ^ (-64 : Int) ≤ |roundDouble (roundDouble (d : ℚ) / roundDouble (c : ℚ))|) := by
  have e63 : (2 : ℚ) ^ (63 : Int) = 2 ^ 63 := by norm_num
  have e64 : (2 : ℚ) ^ (64 : Int) = 2 ^ 64 := by norm_num
  have hcpos : (0 : ℚ) < (c : ℚ) := by exact_mod_cast Nat.pos_of_ne_zero hc0
  have hc1 : (2 : ℚ) ^ (0 : Int) ≤ (c : ℚ) := by
    rw [zpow_zero]
    exact_mod_cast Nat.one_le_iff_ne_zero.2 hc0
  have hc2 : (c : ℚ) ≤ 2 ^ (64 : Int) := by
    have h1 : c < 2 ^ 64 := lt_of_lt_of_le hc (Nat.pow_le_pow_right (by norm_num) hw64)
    rw [e64]
    exact_mod_cast le_of_lt h1
  have a1 : |roundDouble (d : ℚ)| ≤ 2 ^ 63 := by
    rw [← e63]
    exact roundDouble_abs_le _ 63 (by norm_num) (intCast_abs_le d hd)
  have a2 : 1 ≤ roundDouble (c : ℚ) := by
    rw [roundDouble_of_pos _ hcpos]
    have h1 := roundMagnitude_ge _ hcpos 0 (by norm_num) hc1
    rwa [zpow_zero] at h1
  have a3 : roundDouble (c : ℚ) ≤ 2 ^ 64 := by
    rw [roundDouble_of_pos _ hcpos, ← e64]
    exact roundMagnitude_le _ hcpos 64 (by norm_num) hc2
  have hcp : (0 : ℚ) < roundDouble (c : ℚ) := by linarith
  have a4 : |roundDouble (d : ℚ) / roundDouble (c : ℚ)| ≤ 2 ^ (63 : Int) := by
    rw [abs_div, abs_of_pos hcp, e63]
    calc |roundDouble (d : ℚ)| / roundDouble (c : ℚ) ≤ |roundDouble (d : ℚ)| / 1 :=
          div_le_div₀ (abs_nonneg _) (le_refl _) one_pos a2
      _ = |roundDouble (d : ℚ)| := div_one _
      _ ≤ 2 ^ 63 := a1
  refine ⟨a1, a2, a3, ?_, ?_⟩
  · rw [← e63]
    exact roundDouble_abs_le _ 63 (by norm_num) a4
  · intro hd0
    have h1 : (2 : ℚ) ^ (0 : Int) ≤ |(d : ℚ)| := by
      have h : (1 : Int) ≤ |d| := Int.one_le_abs hd0
      rw [zpow_zero]
      exact_mod_cast h
    have b1 := roundDouble_abs_ge _ 0 (by norm_num) h1
    rw [zpow_zero] at b1
    apply roundDouble_abs_ge _ (-64) (by norm_num)
    rw [abs_div, abs_of_pos hcp, zpow_neg, ← one_div, e64]
    exact div_le_div₀ (by linarith) b1 hcp a3

/-- The magnitude of the `double` quotient of a size and an interval that is
zero or not below `2^-64`: the division does not overflow. -/
theorem quotient_magnitude (size interval : ℚ) (hs : |size| ≤ 2 ^ 63)
    (hi : interval = 0 ∨ 2 ^ (-64 : Int) ≤ |interval|) :
    |roundDouble (size / interval)| ≤ 2 ^ 127 := by
  have e127 : (2 : ℚ) ^ (127 : Int) = 2 ^ 127 := by norm_num
  rw [← e127]
  apply roundDouble_abs_le _ 127 (by norm_num)
  rcases hi with rfl | hi
  · rw [div_zero, abs_zero]
    exact le_of_lt (two_zpow_pos _)
  · rw [abs_div]
    calc |size| / |interval| ≤ 2 ^ 63 / 2 ^ (-64 : Int) :=
          div_le_div₀ (by positivity) hs (two_zpow_pos _) hi
      _ = 2 ^ (127 : Int) := by norm_num

/-! ### Claims on `printTotals` -/

theorem elapsed_ne_zero_iff (cfg : BuildConfig) (w : Nat) (timeStamps : Fin 3 → Int)
    (hcps : cfg.CLOCKS_PER_SEC ≠ 0) (hcps2 : cfg.CLOCKS_PER_SEC < 2 ^ w) (hw : 0 < w)
    (hw64 : w ≤ 64) (h0 : isLong w (timeStamps 0)) (h1 : isLong w (timeStamps 1)) :
    elapsed cfg w timeStamps 0 1 ≠ 0 ↔ timeStamps 1 ≠ timeStamps 0 := by
  unfold elapsed
  constructor
  · intro h e
    apply h
    rw [(wrapLong_eq_zero_iff w hw h0 h1).2 e]
    simp [roundDouble_zero]
  · intro h
    exact roundDouble_quotient_ne_zero w hw64 _ _
      (fun e => h ((wrapLong_eq_zero_iff w hw h0 h1).1 e)) hcps hcps2

/-- What `printTotals` writes after the scan summary line. -/
theorem printTotals_split (cfg : BuildConfig) (w : Nat) (opt : optionValues)
    (TagFile : tagFile) (totals : Totals) (timeStamps : Fin 3 → Int)
    (hclk : cfg.CLOCK_AVAILABLE = true) :
    ∃ rest, (∀ k, Output.throughput k ∉ rest) ∧
      printTotals cfg w opt TagFile totals timeStamps =
        [Output.scanned totals.files (plural totals.files) totals.lines
            (plural totals.lines) (Int.tdiv totals.bytes 1024),
          Output.inSeconds (elapsed cfg w timeStamps 0 1)] ++
        (if elapsed cfg w timeStamps 0 1 ≠ 0 then
          [Output.throughput
            ((doubleToULong w (roundDouble (roundDouble (totals.bytes : ℚ) /
              elapsed cfg w timeStamps 0 1))).map (fun n => n / 1024))]
         else []) ++ [Output.newline] ++ rest := by
  refine ⟨[Output.tagsAdded TagFile.added (plural TagFile.added)] ++
    (if opt.append then [Output.nowTags ((TagFile.added + TagFile.prev) % 2 ^ w)] else []) ++
    [Output.newline] ++
    (if 0 < (TagFile.added + TagFile.prev) % 2 ^ w && opt.sorted then
      [Output.tagsSorted ((TagFile.added + TagFile.prev) % 2 ^ w)
        (plural (((TagFile.added + TagFile.prev) % 2 ^ w : Nat) : Int))] ++
      (if cfg.CLOCK_AVAILABLE then [Output.sortSeconds (elapsed cfg w timeStamps 1 2)]
       else []) ++
      [Output.newline]
    else []) ++
    (if cfg.TM_DEBUG then [Output.longestTagLine TagFile.maxLine] else []), ?_, ?_⟩
  · intro k hk
    simp only [List.mem_append, List.mem_singleton] at hk
    split_ifs at hk <;> simp at hk
  · unfold printTotals
    simp only [hclk, if_true, List.append_assoc, List.cons_append, List.nil_append]

/-- C9. `printTotals` never divides by a zero interval. With a clock, a
non-zero `CLOCKS_PER_SEC` and integers of at most 64 bits, the interval is the
`double` quotient of `timeStamps[1] - timeStamps[0]` (taken in `clock_t`, the
plain difference when it fits) and `CLOCKS_PER_SEC`, each conversion and the
division correctly rounded, and exact up to the one rounding of the division
when both integers are below `2^53`. The throughput `(unsigned long) (Totals.bytes / interval) / 1024` is computed and
written exactly when the interval is non-zero, that is when the two samples
differ; it is the whole part of the `double` quotient of `Totals.bytes` and the
interval, divided by 1024, when that quotient lies above -1 and below `2^w`,
and otherwise its conversion to `unsigned long` is undefined. No conversion or
division overflows the range of `double`. For equal samples the first line is
the scan summary alone (files, lines, kB, seconds). -/
theorem printTotals_throughput_guard (cfg : BuildConfig) (w : Nat) (opt : optionValues)
    (TagFile : tagFile) (totals : Totals) (timeStamps : Fin 3 → Int)
    (hclk : cfg.CLOCK_AVAILABLE = true) (hcps : cfg.CLOCKS_PER_SEC ≠ 0)
    (hcps2 : cfg.CLOCKS_PER_SEC < 2 ^ w) (hw : 0 < w) (hw64 : w ≤ 64)
    (h0 : isLong w (timeStamps 0)) (h1 : isLong w (timeStamps 1)) :
    ∃ difference ticks interval size quotient : ℚ,
      (NearestDouble ((wrapLong w (timeStamps 1 - timeStamps 0) : Int) : ℚ) difference ∧
        NearestDouble (cfg.CLOCKS_PER_SEC : ℚ) ticks ∧
        NearestDouble (difference / ticks) interval ∧
        NearestDouble (totals.bytes : ℚ) size ∧
        NearestDouble (size / interval) quotient) ∧
      (difference = roundDouble ((wrapLong w (timeStamps 1 - timeStamps 0) : Int) : ℚ) ∧
        ticks = roundDouble (cfg.CLOCKS_PER_SEC : ℚ) ∧
        interval = roundDouble (difference / ticks) ∧
        size = roundDouble (totals.bytes : ℚ) ∧
        quotient = roundDouble (size / interval)) ∧
      ((|wrapLong w (timeStamps 1 - timeStamps 0)| < 2 ^ 53 →
          difference = ((wrapLong w (timeStamps 1 - timeStamps 0) : Int) : ℚ)) ∧
        (cfg.CLOCKS_PER_SEC < 2 ^ 53 → ticks = (cfg.CLOCKS_PER_SEC : ℚ)) ∧
        (|totals.bytes| < 2 ^ 53 → size = (totals.bytes : ℚ)) ∧
        (isLong w (timeStamps 1 - timeStamps 0) →
          wrapLong w (timeStamps 1 - timeStamps 0) = timeStamps 1 - timeStamps 0)) ∧
      (isLong w totals.bytes →
        |difference| ≤ 2 ^ 63 ∧ 1 ≤ ticks ∧ ticks ≤ 2 ^ 64 ∧ |interval| ≤ 2 ^ 63 ∧
          |size| ≤ 2 ^ 63 ∧ |quotient| ≤ 2 ^ 127) ∧
      (interval ≠ 0 ↔ timeStamps 1 ≠ timeStamps 0) ∧
      ((∃ k, Output.throughput k ∈ printTotals cfg w opt TagFile totals timeStamps) ↔
        timeStamps 1 ≠ timeStamps 0) ∧
      (timeStamps 1 ≠ timeStamps 0 →
        ∃ rest figure, (∀ k, Output.throughput k ∉ rest) ∧
          printTotals cfg w opt TagFile totals timeStamps =
            [Output.scanned totals.files (plural totals.files) totals.lines
                (plural totals.lines) (Int.tdiv totals.bytes 1024),
              Output.inSeconds interval, Output.throughput figure, Output.newline] ++ rest ∧
          (-1 < quotient → quotient < 2 ^ w → figure = some (⌊quotient⌋.toNat / 1024)) ∧
          (quotient ≤ -1 ∨ 2 ^ w ≤ quotient → figure = none)) ∧
      (timeStamps 1 = timeStamps 0 →
        ∃ rest, (∀ k, Output.throughput k ∉ rest) ∧
          printTotals cfg w opt TagFile totals timeStamps =
            [Output.scanned totals.files (plural totals.files) totals.lines
                (plural totals.lines) (Int.tdiv totals.bytes 1024),
              Output.inSeconds 0, Output.newline] ++ rest) := by
  have hiff := elapsed_ne_zero_iff cfg w timeStamps hcps hcps2 hw hw64 h0 h1
  obtain ⟨rest, hrest, hp⟩ := printTotals_split cfg w opt TagFile totals timeStamps hclk
  have hne : timeStamps 1 ≠ timeStamps 0 →
      printTotals cfg w opt TagFile totals timeStamps =
        [Output.scanned totals.files (plural totals.files) totals.lines
            (plural totals.lines) (Int.tdiv totals.bytes 1024),
          Output.inSeconds (elapsed cfg w timeStamps 0 1),
          Output.throughput
            ((doubleToULong w (roundDouble (roundDouble (totals.bytes : ℚ) /
              elapsed cfg w timeStamps 0 1))).map (fun n => n / 1024)),
          Output.newline] ++ rest := by
    intro h
    rw [hp, if_pos (hiff.2 h)]
    simp
  have heq : timeStamps 1 = timeStamps 0 →
      printTotals cfg w opt TagFile totals timeStamps =
        [Output.scanned totals.files (plural totals.files) totals.lines
            (plural totals.lines) (Int.tdiv totals.bytes 1024),
          Output.inSeconds 0, Output.newline] ++ rest := by
    intro h
    have hz : elapsed cfg w timeStamps 0 1 = 0 := by
      by_contra hc
      exact hiff.1 hc h
    rw [hp, hz]
    simp
  refine ⟨roundDouble ((wrapLong w (timeStamps 1 - timeStamps 0) : Int) : ℚ),
    roundDouble (cfg.CLOCKS_PER_SEC : ℚ), elapsed cfg w timeStamps 0 1,
    roundDouble (totals.bytes : ℚ),
    roundDouble (roundDouble (totals.bytes : ℚ) / elapsed cfg w timeStamps 0 1),
    ⟨roundDouble_nearest _, roundDouble_nearest _, roundDouble_nearest _,
      roundDouble_nearest _, roundDouble_nearest _⟩,
    ⟨rfl, rfl, rfl, rfl, rfl⟩,
    ⟨fun h => roundDouble_of_isDouble _ (isDouble_intCast _ h),
      fun h => roundDouble_of_isDouble _ (isDouble_natCast _ h),
      fun h => roundDouble_of_isDouble _ (isDouble_intCast _ h),
      fun h => wrapLong_of_isLong w hw h⟩,
    ?_, hiff, ⟨?_, ?_⟩,
    fun h => ⟨rest, _, hrest, hne h,
      fun h0 h1 => by rw [doubleToULong_of_fits w _ h0 h1]; rfl,
      fun h2 => by rw [doubleToULong_of_not_fits w _ h2]; rfl⟩,
    fun h => ⟨rest, hrest, heq h⟩⟩
  · intro hb
    obtain ⟨a1, a2, a3, a4, a5⟩ := elapsed_magnitude w hw64
      (wrapLong w (timeStamps 1 - timeStamps 0)) cfg.CLOCKS_PER_SEC
      (wrapLong_abs_le w hw64 _) hcps hcps2
    have hsize : |roundDouble (totals.bytes : ℚ)| ≤ 2 ^ 63 := by
      have e63 : (2 : ℚ) ^ (63 : Int) = 2 ^ 63 := by norm_num
      rw [← e63]
      exact roundDouble_abs_le _ 63 (by norm_num)
        (intCast_abs_le _ (isLong_abs_le w hw64 _ hb))
    refine ⟨a1, a2, a3, a4, hsize, quotient_magnitude _ _ hsize ?_⟩
    by_cases hd : wrapLong w (timeStamps 1 - timeStamps 0) = 0
    · left
      unfold elapsed
      rw [hd]
      simp [roundDouble_zero]
    · exact Or.inr (a5 hd)
  · rintro ⟨k, hk⟩ h
    rw [heq h] at hk
    simp only [List.mem_append, List.mem_cons, List.mem_singleton] at hk
    rcases hk with (hk | hk | hk | hk) | hk
    · exact Output.noConfusion hk
    · exact Output.noConfusion hk
    · exact Output.noConfusion hk
    · exact absurd hk (List.not_mem_nil _)
    · exact hrest k hk
  · intro h
    refine ⟨(doubleToULong w (roundDouble (roundDouble (totals.bytes : ℚ) /
      elapsed cfg w timeStamps 0 1))).map (fun n => n / 1024), ?_⟩
    rw [hne h]
    simp

/-- Witness of C9: half a second between the samples gives a throughput, equal
samples give none. With 1000000 ticks per second, 16 bytes and 5 ticks between
the samples, the interval is the `double` nearest to 5/1000000, a little above
it, and the throughput written is 3124 kB/s. With 2048 bytes and the first
sample half a second after the second one, the interval is -1/2 and the
conversion of -4096 to `unsigned long` is undefined. -/
theorem printTotals_throughput_guard_witness :
    (∃ k, Output.throughput k ∈
      printTotals exampleConfig 64 exampleOption exampleTagFile exampleTotals
        ![0, 500000, 600000]) ∧
    ¬ (∃ k, Output.throughput k ∈
      printTotals exampleConfig 64 exampleOption exampleTagFile exampleTotals
        ![7, 7, 9]) ∧
    printTotals exampleConfig 64 exampleOption exampleTagFile
        { files := 1, lines := 2, bytes := 16 } ![0, 5, 5] =
      [Output.scanned 1 "" 2 "s" 0,
        Output.inSeconds (5902958103587057 / 1180591620717411303424),
        Output.throughput (some 3124), Output.newline,
        Output.tagsAdded 5 "s", Output.newline] ∧
    printTotals exampleConfig 64 exampleOption exampleTagFile
        { files := 1, lines := 2, bytes := 2048 } ![500000, 0, 0] =
      [Output.scanned 1 "" 2 "s" 2,
        Output.inSeconds (-1 / 2),
        Output.throughput none, Output.newline,
        Output.tagsAdded 5 "s", Output.newline] := by
  obtain ⟨_, _, _, _, _, _, _, _, _, _, hg, _⟩ :=
    printTotals_throughput_guard exampleConfig 64 exampleOption exampleTagFile
      exampleTotals ![0, 500000, 600000] rfl (by decide) (by decide) (by decide) (by decide)
      (by decide) (by decide)
  obtain ⟨_, _, _, _, _, _, _, _, _, _, hg2, _⟩ :=
    printTotals_throughput_guard exampleConfig 64 exampleOption exampleTagFile
      exampleTotals ![7, 7, 9] rfl (by decide) (by decide) (by decide) (by decide)
      (by decide) (by decide)
  exact ⟨hg.2 (by decide), fun h => hg2.1 h rfl, by decide!, by decide!⟩

/-- C10. `recurseIntoDirectory`, enumeration: when the directory is not a
recursive link, recursion is enabled and the directory can be opened,
`createTagsForEntry` is called once for each entry whose name is neither `.`
nor `..`, in enumeration order, and for no other; the path is the bare entry
name in the directory `.` and the combination of directory and entry name
otherwise; the result is the OR of the results of the calls, FALSE when there
is no such entry. -/
theorem recurseIntoDirectory_enumerates {σ : Type} (env : MainEnv σ) (opt : optionValues)
    (dirName : List Nat) (s : σ) (entries : List (List Nat))
    (hlink : env.isRecursiveLink dirName s = false) (hrec : opt.recurse = true)
    (hopen : env.opendir dirName s = some entries) :
    recurseIntoDirectory env opt dirName s =
      ((callEach env.createTagsForEntry
          ((properEntries entries).map (entryPath env dirName))
          (env.verbose (Diagnostic.recursing dirName) s)).1.or,
        (callEach env.createTagsForEntry
          ((properEntries entries).map (entryPath env dirName))
          (env.verbose (Diagnostic.recursing dirName) s)).2) ∧
    (∀ e, e ∈ properEntries entries ↔
      e ∈ entries ∧ cstr e ≠ bytes "." ∧ cstr e ≠ bytes "..") ∧
    (properEntries entries).Sublist entries ∧
    (∀ e, entryPath env dirName e =
      if cstr dirName = bytes "." then cstr e else env.combinePathAndFile dirName e) ∧
    (properEntries entries = [] → (recurseIntoDirectory env opt dirName s).1 = false) := by
  have hmain : recurseIntoDirectory env opt dirName s =
      ((callEach env.createTagsForEntry
          ((properEntries entries).map (entryPath env dirName))
          (env.verbose (Diagnostic.recursing dirName) s)).1.or,
        (callEach env.createTagsForEntry
          ((properEntries entries).map (entryPath env dirName))
          (env.verbose (Diagnostic.recursing dirName) s)).2) := by
    unfold recurseIntoDirectory
    simp only [hlink, hrec, hopen, Bool.false_eq_true, if_false, Bool.not_true]
    rw [readdirLoop_eq]
    simp
  refine ⟨hmain, ?_, List.filter_sublist _, fun e => rfl, ?_⟩
  · intro e
    simp [properEntries, List.mem_filter]
  · intro hnil
    rw [hmain, hnil]
    rfl

/-- Witness of C10: in the example environment the directory `dir` lists `.`,
`a.sh`, `..`, `b`; the calls are on `dir/a.sh` and `dir/b`, in that order, and
the result is TRUE, the answer of the second call. -/
theorem recurseIntoDirectory_enumerates_witness :
    recurseIntoDirectory exampleEnv exampleOption (bytes "dir") [] =
      (true, [bytes "dir/a.sh", bytes "dir/b"]) :=
  (recurseIntoDirectory_enumerates exampleEnv exampleOption (bytes "dir") []
    [bytes ".", bytes "a.sh", bytes "..", bytes "b"] rfl rfl (by decide)).1.trans
    (by decide)

/-- C11. `recurseIntoDirectory`, skipped subtrees: for a recursive link, or
with the recurse option off, the function returns FALSE after one `verbose`
note; the directory is not opened and `createTagsForEntry` is not called (the
result does not depend on them). The recursive-link test comes first: a
recursive link is skipped whatever the recurse option is. -/
theorem recurseIntoDirectory_skips {σ : Type} (env : MainEnv σ) (opt : optionValues)
    (dirName : List Nat) (s : σ)
    (h : env.isRecursiveLink dirName s = true ∨ opt.recurse = false) :
    (recurseIntoDirectory env opt dirName s).1 = false ∧
    (env.isRecursiveLink dirName s = true →
      recurseIntoDirectory env opt dirName s =
        (false, env.verbose (Diagnostic.ignoringRecursiveLink dirName) s)) ∧
    (env.isRecursiveLink dirName s = false → opt.recurse = false →
      recurseIntoDirectory env opt dirName s =
        (false, env.verbose (Diagnostic.ignoringDirectory dirName) s)) ∧
    (∀ (opendir2 : List Nat → σ → Option (List (List Nat)))
        (create2 : List Nat → σ → Bool × σ) (error2 : Diagnostic → σ → σ),
      recurseIntoDirectory
          { env with opendir := opendir2, createTagsForEntry := create2, error := error2 }
          opt dirName s =
        recurseIntoDirectory env opt dirName s) := by
  have hlink : env.isRecursiveLink dirName s = true →
      recurseIntoDirectory env opt dirName s =
        (false, env.verbose (Diagnostic.ignoringRecursiveLink dirName) s) := by
    intro hl
    simp [recurseIntoDirectory, hl]
  have hoff : env.isRecursiveLink dirName s = false → opt.recurse = false →
      recurseIntoDirectory env opt dirName s =
        (false, env.verbose (Diagnostic.ignoringDirectory dirName) s) := by
    intro hl hr
    simp [recurseIntoDirectory, hl, hr]
  refine ⟨?_, hlink, hoff, ?_⟩
  · cases hl : env.isRecursiveLink dirName s
    · rcases h with h | h
      · rw [hl] at h; exact Bool.noConfusion h
      · rw [hoff hl h]
    · rw [hlink hl]
  · intro opendir2 create2 error2
    cases hl : env.isRecursiveLink dirName s
    · rcases h with h | h
      · rw [hl] at h; exact Bool.noConfusion h
      · simp [recurseIntoDirectory, hl, h]
    · simp [recurseIntoDirectory, hl]

/-- Witness of C11: a recursive link with recursion on, and a plain directory
with recursion off; in both no call of `createTagsForEntry` is recorded. -/
theorem recurseIntoDirectory_skips_witness :
    recurseIntoDirectory exampleLinkEnv exampleOption (bytes "dir") [] = (false, []) ∧
    recurseIntoDirectory exampleEnv exampleOptionNoRecurse (bytes "dir") [] = (false, []) :=
  ⟨(recurseIntoDirectory_skips exampleLinkEnv exampleOption (bytes "dir") []
      (Or.inl rfl)).2.1 rfl,
   (recurseIntoDirectory_skips exampleEnv exampleOptionNoRecurse (bytes "dir") []
      (Or.inr rfl)).2.2.1 rfl rfl⟩

/-- C12. `recurseIntoDirectory`, unreadable directory: with recursion on, for
a directory that is no recursive link and cannot be opened, the function issues
the warning through `error`, calls `createTagsForEntry` for no entry and returns
FALSE; a loop of the caller that reaches this directory through
`createTagsForEntry` goes on with the following entries, its `resize` unchanged. -/
theorem recurseIntoDirectory_unreadable {σ : Type} (env : MainEnv σ) (opt : optionValues)
    (dirName : List Nat) (s : σ)
    (hlink : env.isRecursiveLink dirName s = false) (hrec : opt.recurse = true)
    (hopen : env.opendir dirName s = none) :
    recurseIntoDirectory env opt dirName s =
      (false, env.error (Diagnostic.cannotRecurse dirName) s) ∧
    (∀ create2 : List Nat → σ → Bool × σ,
      recurseIntoDirectory { env with createTagsForEntry := create2 } opt dirName s =
        recurseIntoDirectory env opt dirName s) ∧
    (∀ (caller : MainEnv σ) (callerDir d_name : List Nat) (entries : List (List Nat))
        (resize : Bool),
      cstr d_name ≠ bytes "." → cstr d_name ≠ bytes ".." →
      caller.createTagsForEntry (entryPath caller callerDir d_name) s =
        recurseIntoDirectory env opt dirName s →
      readdirLoop caller callerDir (d_name :: entries) resize s =
        readdirLoop caller callerDir entries resize
          (env.error (Diagnostic.cannotRecurse dirName) s)) := by
  have hmain : recurseIntoDirectory env opt dirName s =
      (false, env.error (Diagnostic.cannotRecurse dirName) s) := by
    simp [recurseIntoDirectory, hlink, hrec, hopen]
  refine ⟨hmain, ?_, ?_⟩
  · intro create2
    simp [recurseIntoDirectory, hlink, hrec, hopen]
  · intro caller callerDir d_name entries resize h1 h2 hcall
    have hp : properEntries (d_name :: entries) = d_name :: properEntries entries := by
      simp [properEntries, h1, h2]
    rw [readdirLoop_eq, readdirLoop_eq, hp, List.map_cons, callEach_cons, hcall, hmain]
    simp [List.or]

/-- Witness of C12: in the example environment `nowhere` cannot be opened; the
state is handed back as it was and the result is FALSE. -/
theorem recurseIntoDirectory_unreadable_witness :
    recurseIntoDirectory exampleEnv exampleOption (bytes "nowhere") [] = (false, []) :=
  (recurseIntoDirectory_unreadable exampleEnv exampleOption (bytes "nowhere") []
    rfl rfl (by decide)).1


/-! ## Claims on `ShParser`, on the shape of tags and on `isDestinationStdout` -/

/-- Every tag of a sequence of lines is the tag of one of its lines, of kind
`K_FUNCTION`, with a non-empty name of identifier bytes taken from that line. -/
theorem findShTags_mem_shape (scriptName : List Nat) (lines : List (List Nat)) (t : Tag)
    (ht : t ∈ findShTags scriptName lines) :
    t.kind = K_FUNCTION ∧ t.name ≠ [] ∧ allIdent t.name ∧
      ∃ line ∈ lines, t ∈ findShTags scriptName [line] ∧ t.name <:+: line := by
  rw [findShTags_flatMap] at ht
  obtain ⟨line, hl, hmem⟩ := List.mem_flatMap.1 ht
  rcases findShTags_single_shape scriptName line with h | ⟨pre, id, post, hne, hid, he, h⟩
  · rw [h] at hmem; exact absurd hmem (List.not_mem_nil _)
  · have hmem2 := hmem
    rw [h] at hmem2
    have ht2 := List.mem_singleton.1 hmem2
    refine ⟨by rw [ht2], by rw [ht2]; exact hne, by rw [ht2]; exact hid, line, hl, hmem, ?_⟩
    rw [ht2, he]
    exact ⟨pre, post, rfl⟩

theorem findShTags_single_length (scriptName line : List Nat) :
    (findShTags scriptName [line]).length ≤
      if peek line = '#'.toNat then 0 else 1 := by
  by_cases hh : peek line = '#'.toNat
  · rw [if_pos hh, findShTags_single]
    simp [scanLine, hh]
  · rw [if_neg hh]
    rcases findShTags_single_shape scriptName line with h | ⟨_, _, _, _, _, _, h⟩ <;>
      simp [h]

/-- C14. Kind-index validity for the Sh parser: `ShParser` has the name `Sh`,
the seven extensions, the parser `findShTags` and `kindCount` equal to the
length of `ShKinds`, which is 1; the only kind is enabled, with letter `f`, name
`function` and description `functions`; every tag `findShTags` emits has the
kind index `K_FUNCTION = 0`, which is below `kindCount`. -/
theorem ShParser_kind_index_valid :
    ShParser.name = "Sh" ∧
    ShParser.extensions = ["sh", "SH", "bsh", "bash", "ksh", "zsh", "ash"] ∧
    ShParser.parser = some findShTags ∧
    ShParser.kinds = ShKinds ∧
    ShParser.kindCount = ShKinds.length ∧
    ShParser.kindCount = 1 ∧
    ShKinds =
      [{ enabled := true, letter := 'f', name := "function", description := "functions" }] ∧
    K_FUNCTION = 0 ∧
    (∀ (scriptName : List Nat) (lines : List (List Nat)), ∀ t ∈ findShTags scriptName lines,
      t.kind = K_FUNCTION ∧ t.kind < ShParser.kindCount ∧
        ∃ k, ShParser.kinds.get? t.kind = some k ∧ k.name = "function") := by
  refine ⟨rfl, rfl, rfl, rfl, rfl, rfl, rfl, rfl, ?_⟩
  intro scriptName lines t ht
  have hk := (findShTags_mem_shape scriptName lines t ht).1
  rw [hk]
  exact ⟨rfl, by decide,
    { enabled := true, letter := 'f', name := "function", description := "functions" },
    rfl, rfl⟩

/-- Witness of C14: the tags of a two-line script both carry a valid kind index. -/
theorem ShParser_kind_index_valid_witness :
    ∀ t ∈ findShTags (bytes "script.sh") [bytes "foo() \x7b", bytes "function bar"],
      t.kind = K_FUNCTION ∧ t.kind < ShParser.kindCount ∧
        ∃ k, ShParser.kinds.get? t.kind = some k ∧ k.name = "function" :=
  ShParser_kind_index_valid.2.2.2.2.2.2.2.2 (bytes "script.sh")
    [bytes "foo() \x7b", bytes "function bar"]

/-- C16. Shape of emitted tags: a line emits at most one tag and a line that
starts with `#` none, so there are at most as many tags as lines whose first
byte is not `#`; every emitted name is non-empty, consists of alphanumeric and
underscore bytes, and is a contiguous part of the line that produced it. -/
theorem findShTags_tag_shape (scriptName : List Nat) (lines : List (List Nat)) :
    (findShTags scriptName lines).length ≤
      (lines.filter (fun line => decide (peek line ≠ '#'.toNat))).length ∧
    (∀ line, (findShTags scriptName [line]).length ≤ 1) ∧
    (∀ t ∈ findShTags scriptName lines,
      t.name ≠ [] ∧ (∀ c ∈ t.name, isalnum c = true ∨ c = '_'.toNat) ∧
        ∃ line ∈ lines, t ∈ findShTags scriptName [line] ∧ t.name <:+: line) := by
  refine ⟨?_, ?_, ?_⟩
  · induction lines with
    | nil => simp [findShTags, runShLines_nil]
    | cons l ls ih =>
      rw [findShTags_cons, List.length_append, List.filter_cons]
      have h1 := findShTags_single_length scriptName l
      by_cases hh : peek l = '#'.toNat
      · rw [if_pos hh] at h1
        rw [if_neg (by simpa using hh)]
        omega
      · rw [if_neg hh] at h1
        rw [if_pos (by simpa using hh), List.length_cons]
        omega
  · intro line
    have h1 := findShTags_single_length scriptName line
    split at h1 <;> omega
  · intro t ht
    obtain ⟨_, hne, hid, hline⟩ := findShTags_mem_shape scriptName lines t ht
    refine ⟨hne, ?_, hline⟩
    intro c hc
    have := hid c hc
    simpa [identChar] using this

/-- Witness of C16: four lines, one of them a comment, give two tags. -/
theorem findShTags_tag_shape_witness :
    (findShTags (bytes "script.sh")
        [bytes "# setup", bytes "foo() \x7b", bytes "x=1", bytes "function bar"]).length ≤ 3 :=
  (findShTags_tag_shape (bytes "script.sh")
    [bytes "# setup", bytes "foo() \x7b", bytes "x=1", bytes "function bar"]).1

/-- C18. `isDestinationStdout` returns TRUE exactly when the xref option or the
filter option is set, or the tag file name is not NULL and is `-` or
`/dev/stdout`; it returns FALSE when neither option is set and the name is
NULL; and it leaves `Option` as it was. -/
theorem isDestinationStdout_iff (opt : optionValues) :
    ((isDestinationStdout opt).1 = true ↔
      opt.xref = true ∨ opt.filter = true ∨
        ∃ name, opt.tagFileName = some name ∧
          (cstr name = bytes "-" ∨ cstr name = bytes "/dev/stdout")) ∧
    (opt.xref = false → opt.filter = false → opt.tagFileName = none →
      (isDestinationStdout opt).1 = false) ∧
    (isDestinationStdout opt).2 = opt := by
  have h1 : cstr (bytes "-") = bytes "-" := by decide
  have h2 : cstr (bytes "/dev/stdout") = bytes "/dev/stdout" := by decide
  refine ⟨?_, ?_, rfl⟩
  · cases hn : opt.tagFileName with
    | none => simp [isDestinationStdout, hn]
    | some name =>
      simp only [isDestinationStdout, hn, Bool.or_eq_true, strcmpEq_iff, h1, h2]
      simp [or_assoc]
  · intro hx hf hn
    simp [isDestinationStdout, hx, hf, hn]

/-- Witness of C18: no option set and a NULL tag file name give FALSE. -/
theorem isDestinationStdout_iff_witness :
    (isDestinationStdout exampleOption).1 = false :=
  (isDestinationStdout_iff exampleOption).2.1 rfl rfl rfl


/-- The four parts of what `printTotals` writes: scan summary, tags added, tags
sorted, debug line. -/
theorem printTotals_parts (cfg : BuildConfig) (w : Nat) (opt : optionValues)
    (TagFile : tagFile) (totals : Totals) (timeStamps : Fin 3 → Int) :
    ∃ scan debug : List Output,
      (∀ n p, Output.tagsSorted n p ∉ scan) ∧ (∀ q, Output.sortSeconds q ∉ scan) ∧
      (∀ n, Output.nowTags n ∉ scan) ∧
      (∀ n p, Output.tagsSorted n p ∉ debug) ∧ (∀ q, Output.sortSeconds q ∉ debug) ∧
      (∀ n, Output.nowTags n ∉ debug) ∧
      printTotals cfg w opt TagFile totals timeStamps =
        scan ++
        ([Output.tagsAdded TagFile.added (plural TagFile.added)] ++
          (if opt.append then [Output.nowTags ((TagFile.added + TagFile.prev) % 2 ^ w)]
           else []) ++
          [Output.newline]) ++
        (if 0 < (TagFile.added + TagFile.prev) % 2 ^ w && opt.sorted then
          [Output.tagsSorted ((TagFile.added + TagFile.prev) % 2 ^ w)
            (plural (((TagFile.added + TagFile.prev) % 2 ^ w : Nat) : Int))] ++
          (if cfg.CLOCK_AVAILABLE then [Output.sortSeconds (elapsed cfg w timeStamps 1 2)]
           else []) ++
          [Output.newline]
         else []) ++
        debug := by
  refine ⟨[Output.scanned totals.files (plural totals.files) totals.lines (plural totals.lines)
      (Int.tdiv totals.bytes 1024)] ++
    (if cfg.CLOCK_AVAILABLE then
      [Output.inSeconds (elapsed cfg w timeStamps 0 1)] ++
      (if elapsed cfg w timeStamps 0 1 ≠ 0 then
        [Output.throughput
          ((doubleToULong w (roundDouble (roundDouble (totals.bytes : ℚ) /
            elapsed cfg w timeStamps 0 1))).map (fun n => n / 1024))]
       else [])
     else []) ++
    [Output.newline],
    if cfg.TM_DEBUG then [Output.longestTagLine TagFile.maxLine] else [],
    ?_, ?_, ?_, ?_, ?_, ?_, rfl⟩
  all_goals
    intros
    intro hk
    split_ifs at hk <;> simp at hk

/-- C15. `printTotals`, sort line: the line with the number of tags sorted is
written only if the sorted option is set (exactly when, besides, there is at
least one tag); it reports `totalTags`, the `unsigned long` sum of
`numTags.added` and `numTags.prev`, and, with a clock, the time between
`timeStamps[1]` and `timeStamps[2]` divided by `CLOCKS_PER_SEC`: for a non-zero
`CLOCKS_PER_SEC` and integers of at most 64 bits, the `double` quotient of
`timeStamps[2] - timeStamps[1]` (taken in `clock_t`, the plain difference when
it fits) and `CLOCKS_PER_SEC`, each conversion and the division correctly
rounded without overflow, and exact up to the one rounding of the division
when both integers are below `2^53`. The total `now N tags` is written, on the
tags-added line, exactly when the append option is set. -/
theorem printTotals_sort_line (cfg : BuildConfig) (w : Nat) (opt : optionValues)
    (TagFile : tagFile) (totals : Totals) (timeStamps : Fin 3 → Int) :
    ((∃ n p, Output.tagsSorted n p ∈ printTotals cfg w opt TagFile totals timeStamps) →
      opt.sorted = true) ∧
    ((∃ n p, Output.tagsSorted n p ∈ printTotals cfg w opt TagFile totals timeStamps) ↔
      0 < (TagFile.added + TagFile.prev) % 2 ^ w ∧ opt.sorted = true) ∧
    (∀ n p, Output.tagsSorted n p ∈ printTotals cfg w opt TagFile totals timeStamps →
      n = (TagFile.added + TagFile.prev) % 2 ^ w ∧ p = plural n) ∧
    (TagFile.added + TagFile.prev < 2 ^ w →
      (TagFile.added + TagFile.prev) % 2 ^ w = TagFile.added + TagFile.prev) ∧
    (∀ q, Output.sortSeconds q ∈ printTotals cfg w opt TagFile totals timeStamps →
      opt.sorted = true) ∧
    (cfg.CLOCKS_PER_SEC ≠ 0 → cfg.CLOCKS_PER_SEC < 2 ^ w → w ≤ 64 →
      ∃ difference ticks interval : ℚ,
        (NearestDouble ((wrapLong w (timeStamps 2 - timeStamps 1) : Int) : ℚ) difference ∧
          NearestDouble (cfg.CLOCKS_PER_SEC : ℚ) ticks ∧
          NearestDouble (difference / ticks) interval) ∧
        (difference = roundDouble ((wrapLong w (timeStamps 2 - timeStamps 1) : Int) : ℚ) ∧
          ticks = roundDouble (cfg.CLOCKS_PER_SEC : ℚ) ∧
          interval = roundDouble (difference / ticks)) ∧
        ((|wrapLong w (timeStamps 2 - timeStamps 1)| < 2 ^ 53 →
            difference = ((wrapLong w (timeStamps 2 - timeStamps 1) : Int) : ℚ)) ∧
          (cfg.CLOCKS_PER_SEC < 2 ^ 53 → ticks = (cfg.CLOCKS_PER_SEC : ℚ)) ∧
          (0 < w → isLong w (timeStamps 2 - timeStamps 1) →
            wrapLong w (timeStamps 2 - timeStamps 1) = timeStamps 2 - timeStamps 1)) ∧
        (|difference| ≤ 2 ^ 63 ∧ 1 ≤ ticks ∧ ticks ≤ 2 ^ 64 ∧ |interval| ≤ 2 ^ 63) ∧
        (∀ q, Output.sortSeconds q ∈ printTotals cfg w opt TagFile totals timeStamps →
          q = interval) ∧
        (cfg.CLOCK_AVAILABLE = true → 0 < (TagFile.added + TagFile.prev) % 2 ^ w →
          opt.sorted = true →
          [Output.tagsSorted ((TagFile.added + TagFile.prev) % 2 ^ w)
              (plural (((TagFile.added + TagFile.prev) % 2 ^ w : Nat) : Int)),
            Output.sortSeconds interval, Output.newline] <:+:
            printTotals cfg w opt TagFile totals timeStamps)) ∧
    ((∃ n, Output.nowTags n ∈ printTotals cfg w opt TagFile totals timeStamps) ↔
      opt.append = true) ∧
    (∀ n, Output.nowTags n ∈ printTotals cfg w opt TagFile totals timeStamps →
      n = (TagFile.added + TagFile.prev) % 2 ^ w) ∧
    (opt.append = true →
      [Output.tagsAdded TagFile.added (plural TagFile.added),
        Output.nowTags ((TagFile.added + TagFile.prev) % 2 ^ w), Output.newline] <:+:
        printTotals cfg w opt TagFile totals timeStamps) := by
  obtain ⟨scan, debug, hs1, hs2, hs3, hd1, hd2, hd3, hp⟩ :=
    printTotals_parts cfg w opt TagFile totals timeStamps
  have hsorted : ∀ n p, Output.tagsSorted n p ∈ printTotals cfg w opt TagFile totals timeStamps →
      (0 < (TagFile.added + TagFile.prev) % 2 ^ w ∧ opt.sorted = true) ∧
        n = (TagFile.added + TagFile.prev) % 2 ^ w ∧ p = plural n := by
    intro n p h
    rw [hp] at h
    simp only [List.mem_append, List.mem_singleton] at h
    rcases h with ((h | h) | h) | h
    · exact absurd h (hs1 n p)
    · split_ifs at h <;> simp at h
    · split_ifs at h with hc <;> simp at h
      all_goals
        obtain ⟨rfl, rfl⟩ := h
        simp only [Bool.and_eq_true, decide_eq_true_eq] at hc
        refine ⟨hc, rfl, ?_⟩
        push_cast
        rfl
    · exact absurd h (hd1 n p)
  have hsec : ∀ q, Output.sortSeconds q ∈ printTotals cfg w opt TagFile totals timeStamps →
      opt.sorted = true ∧ q = elapsed cfg w timeStamps 1 2 := by
    intro q h
    rw [hp] at h
    simp only [List.mem_append, List.mem_singleton] at h
    rcases h with ((h | h) | h) | h
    · exact absurd h (hs2 q)
    · split_ifs at h <;> simp at h
    · split_ifs at h with hc <;> simp at h
      simp only [Bool.and_eq_true, decide_eq_true_eq] at hc
      exact ⟨hc.2, h⟩
    · exact absurd h (hd2 q)
  have hnow : ∀ n, Output.nowTags n ∈ printTotals cfg w opt TagFile totals timeStamps →
      opt.append = true ∧ n = (TagFile.added + TagFile.prev) % 2 ^ w := by
    intro n h
    rw [hp] at h
    simp only [List.mem_append, List.mem_singleton] at h
    rcases h with ((h | h) | h) | h
    · exact absurd h (hs3 n)
    · split_ifs at h with hc <;> simp at h
      exact ⟨hc, h⟩
    · split_ifs at h <;> simp at h
    · exact absurd h (hd3 n)
  have hmag := fun (hcps : cfg.CLOCKS_PER_SEC ≠ 0) (hcps2 : cfg.CLOCKS_PER_SEC < 2 ^ w)
      (hw64 : w ≤ 64) =>
    elapsed_magnitude w hw64 (wrapLong w (timeStamps 2 - timeStamps 1)) cfg.CLOCKS_PER_SEC
      (wrapLong_abs_le w hw64 _) hcps hcps2
  refine ⟨fun ⟨n, p, h⟩ => (hsorted n p h).1.2, ⟨fun ⟨n, p, h⟩ => (hsorted n p h).1, ?_⟩,
    fun n p h => (hsorted n p h).2, fun h => Nat.mod_eq_of_lt h, fun q h => (hsec q h).1,
    fun hcps hcps2 hw64 => ⟨roundDouble ((wrapLong w (timeStamps 2 - timeStamps 1) : Int) : ℚ),
      roundDouble (cfg.CLOCKS_PER_SEC : ℚ), elapsed cfg w timeStamps 1 2,
      ⟨roundDouble_nearest _, roundDouble_nearest _, roundDouble_nearest _⟩,
      ⟨rfl, rfl, rfl⟩,
      ⟨fun h => roundDouble_of_isDouble _ (isDouble_intCast _ h),
        fun h => roundDouble_of_isDouble _ (isDouble_natCast _ h),
        fun hw h => wrapLong_of_isLong w hw h⟩,
      ⟨(hmag hcps hcps2 hw64).1, (hmag hcps hcps2 hw64).2.1, (hmag hcps hcps2 hw64).2.2.1,
        (hmag hcps hcps2 hw64).2.2.2.1⟩,
      fun q h => (hsec q h).2, ?_⟩,
    ⟨fun ⟨n, h⟩ => (hnow n h).1, ?_⟩, fun n h => (hnow n h).2, ?_⟩
  · rintro ⟨h1, h2⟩
    have hcond : (decide (0 < (TagFile.added + TagFile.prev) % 2 ^ w) && opt.sorted) = true := by
      simp [h1, h2]
    refine ⟨(TagFile.added + TagFile.prev) % 2 ^ w,
      plural (((TagFile.added + TagFile.prev) % 2 ^ w : Nat) : Int), ?_⟩
    rw [hp, if_pos hcond]
    simp
  · intro hc h1 h2
    have hcond : (decide (0 < (TagFile.added + TagFile.prev) % 2 ^ w) && opt.sorted) = true := by
      simp [h1, h2]
    rw [hp, if_pos hcond, if_pos hc]
    refine ⟨scan ++ ([Output.tagsAdded TagFile.added (plural TagFile.added)] ++
      (if opt.append then [Output.nowTags ((TagFile.added + TagFile.prev) % 2 ^ w)]
       else []) ++ [Output.newline]), debug, ?_⟩
    simp
  · intro h
    refine ⟨(TagFile.added + TagFile.prev) % 2 ^ w, ?_⟩
    rw [hp, if_pos h]
    simp
  · intro h
    rw [hp, if_pos h]
    refine ⟨scan, (if 0 < (TagFile.added + TagFile.prev) % 2 ^ w && opt.sorted then
          [Output.tagsSorted ((TagFile.added + TagFile.prev) % 2 ^ w)
            (plural (((TagFile.added + TagFile.prev) % 2 ^ w : Nat) : Int))] ++
          (if cfg.CLOCK_AVAILABLE then [Output.sortSeconds (elapsed cfg w timeStamps 1 2)]
           else []) ++
          [Output.newline]
         else []) ++ debug, ?_⟩
    simp


/-! ## Lemmas on the scan with checked reads -/

theorem except_ok_bind {ε α β : Type} (a : α) (f : α → Except ε β) :
    (Except.ok a >>= f) = f a := rfl

theorem except_pure {ε α : Type} (a : α) : (pure a : Except ε α) = Except.ok a := rfl

theorem get_lineMemory (line : List Nat) (j : Nat) (h : j ≤ line.length) :
    (lineMemory line).get? j = some (peek (line.drop j)) := by
  induction line generalizing j with
  | nil =>
    have : j = 0 := by simpa using h
    subst this
    rfl
  | cons c cs ih =>
    cases j with
    | zero => rfl
    | succ k =>
      have hk : k ≤ cs.length := by simpa using h
      have := ih k hk
      simpa [lineMemory] using this

theorem readAt_lineMemory (line : List Nat) (j : Nat) (h : j ≤ line.length) :
    readAt (lineMemory line) j = Except.ok (peek (line.drop j)) := by
  unfold readAt
  rw [get_lineMemory line j h]

/-- A pointer at a byte that is not NUL is inside the line, and the next
position is the rest of the line. -/
theorem drop_of_peek_ne_zero (line : List Nat) (j : Nat)
    (hp : peek (line.drop j) ≠ 0) :
    j + 1 ≤ line.length ∧ line.drop j = peek (line.drop j) :: line.drop (j + 1) := by
  cases hd : line.drop j with
  | nil => rw [hd] at hp; exact absurd rfl hp
  | cons c t =>
    have hlt : j < line.length := by
      by_contra hge
      rw [List.drop_eq_nil_of_le (by omega)] at hd
      exact List.noConfusion hd
    refine ⟨hlt, ?_⟩
    have ht : (line.drop j).tail = line.drop (j + 1) := by simp
    rw [hd] at ht
    rw [peek_cons, ← ht]
    rfl

theorem isspace_ne_zero {c : Nat} (h : isspace c = true) : c ≠ 0 := by
  rintro rfl
  exact Bool.noConfusion h

theorem skipSpaceAt_lineMemory (line : List Nat) (limit j : Nat) (h : j ≤ line.length)
    (hl : line.length - j < limit) :
    ∃ k, skipSpaceAt (lineMemory line) limit j = Except.ok k ∧ k ≤ line.length ∧
      line.drop k = skipSpace (line.drop j) := by
  induction limit generalizing j with
  | zero => omega
  | succ n ih =>
    unfold skipSpaceAt
    rw [readAt_lineMemory line j h, except_ok_bind]
    by_cases hs : isspace (peek (line.drop j)) = true
    · obtain ⟨h1, h2⟩ := drop_of_peek_ne_zero line j (isspace_ne_zero hs)
      obtain ⟨k, hk, hk1, hk2⟩ := ih (j + 1) h1 (by omega)
      refine ⟨k, ?_, hk1, ?_⟩
      · rw [if_pos hs]; exact hk
      · rw [hk2, h2]
        simp only [skipSpace, hs, if_true]
    · refine ⟨j, ?_, h, ?_⟩
      · rw [if_neg hs]; rfl
      · rw [skipSpace_of_not_space (by simpa using hs)]

theorem scanNameAt_lineMemory (line : List Nat) (limit j : Nat) (name : vString)
    (h : j ≤ line.length) (hl : line.length - j < limit) :
    ∃ k, scanNameAt (lineMemory line) limit name j =
        Except.ok ((scanName name (line.drop j)).1, k) ∧ k ≤ line.length ∧
      line.drop k = (scanName name (line.drop j)).2 := by
  induction limit generalizing j name with
  | zero => omega
  | succ n ih =>
    unfold scanNameAt
    rw [readAt_lineMemory line j h, except_ok_bind, identChar_iff]
    by_cases hs : identChar (peek (line.drop j)) = true
    · obtain ⟨h1, h2⟩ := drop_of_peek_ne_zero line j (identChar_ne_zero hs)
      obtain ⟨k, hk, hk1, hk2⟩ := ih (j + 1) (vStringPut name (peek (line.drop j))) h1 (by omega)
      have hsn : scanName name (line.drop j) =
          scanName (vStringPut name (peek (line.drop j))) (line.drop (j + 1)) := by
        conv_lhs => rw [h2]
        rw [scanName_cons, if_pos hs]
      refine ⟨k, ?_, hk1, ?_⟩
      · rw [if_pos hs, hsn]; exact hk
      · rw [hk2, hsn]
    · have hf : identChar (peek (line.drop j)) = false := by simpa using hs
      rw [scanName_stop hf]
      refine ⟨j, ?_, h, rfl⟩
      rw [if_neg hs]; rfl

theorem strncmpAt_lineMemory (line : List Nat) (j : Nat) (b : List Nat) (n : Nat)
    (h : j ≤ line.length) :
    strncmpAt (lineMemory line) j b n = Except.ok (strncmpEq (line.drop j) b n) := by
  induction n generalizing j b with
  | zero => rfl
  | succ m ih =>
    unfold strncmpAt strncmpEq
    rw [readAt_lineMemory line j h, except_ok_bind]
    by_cases h1 : (peek (line.drop j) != peek b) = true
    · rw [if_pos h1, if_pos h1]; rfl
    · rw [if_neg h1, if_neg h1]
      by_cases h2 : (peek (line.drop j) == 0) = true
      · rw [if_pos h2, if_pos h2]; rfl
      · rw [if_neg h2, if_neg h2]
        have hne : peek (line.drop j) ≠ 0 := by simpa using h2
        obtain ⟨h3, _⟩ := drop_of_peek_ne_zero line j hne
        rw [ih (j + 1) b.tail h3]
        simp


theorem scanIdentifier_unfold (scriptName : List Nat) (st : ShState) (ff : Bool)
    (cp : List Nat) :
    scanIdentifier scriptName st ff cp =
      if identChar (peek cp) = true then
        { name := [],
          tags :=
            if (if peek (skipSpace (scanName st.name cp).2) == '('.toNat then
                  (if peek (skipSpace (skipSpace (scanName st.name cp).2).tail) == ')'.toNat &&
                      !hackReject scriptName (scanName st.name cp).1 then true else ff)
                else ff) = true
            then st.tags ++ [{ name := (scanName st.name cp).1, kind := K_FUNCTION }]
            else st.tags }
      else st := by
  unfold scanIdentifier
  rw [identChar_iff]
  by_cases h : identChar (peek cp) = true
  · rw [if_pos h, h]
    simp only [Bool.not_true, Bool.false_eq_true, if_false, vStringTerminate, vStringClear,
      makeSimpleTag, vStringValue]
  · rw [if_neg h]
    simp [h]

theorem scanIdentifierAt_lineMemory (scriptName line : List Nat) (limit : Nat) (st : ShState)
    (ff : Bool) (j : Nat) (h : j ≤ line.length) (hl : line.length < limit) :
    scanIdentifierAt scriptName (lineMemory line) limit st ff j =
      Except.ok (scanIdentifier scriptName st ff (line.drop j)) := by
  rw [scanIdentifier_unfold]
  unfold scanIdentifierAt
  rw [readAt_lineMemory line j h, except_ok_bind, identChar_iff]
  by_cases hi : identChar (peek (line.drop j)) = true
  · obtain ⟨k1, e1, hk1, d1⟩ := scanNameAt_lineMemory line limit j st.name h (by omega)
    obtain ⟨k2, e2, hk2, d2⟩ := skipSpaceAt_lineMemory line limit k1 hk1 (by omega)
    rw [if_pos hi, hi]
    simp only [Bool.not_true, Bool.false_eq_true, if_false]
    rw [e1, except_ok_bind]
    simp only []
    rw [e2, except_ok_bind, readAt_lineMemory line k2 hk2, except_ok_bind, d2, d1]
    by_cases hp : (peek (skipSpace (scanName st.name (line.drop j)).2) == '('.toNat) = true
    · have hne : peek (line.drop k2) ≠ 0 := by
        rw [d2, d1]
        intro h0
        rw [h0] at hp
        exact Bool.noConfusion hp
      obtain ⟨h3, h4⟩ := drop_of_peek_ne_zero line k2 hne
      obtain ⟨k3, e3, hk3, d3⟩ := skipSpaceAt_lineMemory line limit (k2 + 1) h3 (by omega)
      have ht : line.drop (k2 + 1) = (skipSpace (scanName st.name (line.drop j)).2).tail := by
        rw [← d1, ← d2]
        simp
      rw [if_pos hp, if_pos hp, e3, except_ok_bind, readAt_lineMemory line k3 hk3,
        except_ok_bind, d3, ht]
      simp only [except_pure, except_ok_bind, vStringTerminate, vStringClear, makeSimpleTag,
        vStringValue]
    · rw [if_neg hp, if_neg hp]
      simp only [except_pure, except_ok_bind, vStringTerminate, vStringClear, makeSimpleTag,
        vStringValue]
  · rw [if_neg hi]
    have hf : identChar (peek (line.drop j)) = false := by simpa using hi
    rw [hf]
    rfl

theorem scanLineAt_lineMemory (scriptName line : List Nat) (limit : Nat) (st : ShState)
    (hl : line.length < limit) :
    scanLineAt scriptName (lineMemory line) limit st =
      Except.ok (scanLine scriptName st line) := by
  unfold scanLineAt scanLine
  have h0 : (0 : Nat) ≤ line.length := Nat.zero_le _
  rw [readAt_lineMemory line 0 h0, except_ok_bind, List.drop_zero]
  by_cases hh : (peek line == '#'.toNat) = true
  · rw [if_pos hh, if_pos hh]; rfl
  · rw [if_neg hh, if_neg hh]
    obtain ⟨k1, e1, hk1, d1⟩ := skipSpaceAt_lineMemory line limit 0 h0 (by omega)
    rw [List.drop_zero] at d1
    rw [e1, except_ok_bind, strncmpAt_lineMemory line k1 _ 8 hk1, except_ok_bind, d1]
    simp only []
    by_cases hs : strncmpEq (skipSpace line) (bytes "function") 8 = true
    · obtain ⟨r, hr⟩ := (strncmpEq_function (skipSpace line)).1 hs
      have hlen : k1 + 8 ≤ line.length := by
        have hlen2 : (line.drop k1).length = 8 + r.length := by
          rw [d1, hr, List.length_append, function_length]
        rw [List.length_drop] at hlen2
        omega
      have hd8 : line.drop (k1 + 8) = (skipSpace line).drop 8 := by
        rw [← d1, List.drop_drop]
      rw [hs, if_pos rfl, readAt_lineMemory line (k1 + 8) hlen, except_ok_bind, hd8]
      simp only [except_pure, except_ok_bind, Bool.true_and]
      by_cases hsp : isspace (peek ((skipSpace line).drop 8)) = true
      · rw [if_pos hsp, if_pos hsp, hsp]
        simp only [Bool.not_true, Bool.false_eq_true, if_false]
        obtain ⟨k2, e2, hk2, d2⟩ := skipSpaceAt_lineMemory line limit (k1 + 8) hlen (by omega)
        rw [e2, except_ok_bind, scanIdentifierAt_lineMemory scriptName line limit st true k2 hk2 hl,
          d2, hd8]
      · rw [if_neg hsp, if_neg hsp]
        exact scanIdentifierAt_lineMemory scriptName line limit st false k1 hk1 hl ▸
          (by rw [d1])
    · have hs2 : strncmpEq (skipSpace line) (bytes "function") 8 = false := by simpa using hs
      rw [hs2]
      simp only [Bool.false_eq_true, if_false, except_pure, except_ok_bind, Bool.false_and]
      rw [scanIdentifierAt_lineMemory scriptName line limit st false k1 hk1 hl, d1]


/-- C17. Scanning stays inside the line: with the line held as its `n` bytes
followed by the terminating NUL, a checked read succeeds exactly at the indices
up to `n`, and the scan of the line with checked reads and every loop limited to
`n + 1` iterations ends without a fault, in the state `scanLine` computes; so
every byte read (`line[0]`, `*cp` in each loop, the bytes compared with
`function`, `cp[8]`, the bytes tested against the parentheses) is at an index at
most `n`. The loops end because the terminator is neither whitespace nor
alphanumeric nor an underscore. -/
theorem scanLineAt_in_bounds (scriptName line : List Nat) (st : ShState) :
    scanLineAt scriptName (lineMemory line) (line.length + 1) st =
      Except.ok (scanLine scriptName st line) ∧
    (∀ i, (∃ c, readAt (lineMemory line) i = Except.ok c) ↔ i ≤ line.length) ∧
    readAt (lineMemory line) line.length = Except.ok 0 ∧
    (isspace 0 = false ∧ isalnum 0 = false ∧ (0 : Nat) ≠ '_'.toNat) ∧
    (∀ j, j ≤ line.length →
      ∃ k, skipSpaceAt (lineMemory line) (line.length + 1) j = Except.ok k ∧
        j ≤ k ∧ k ≤ line.length) ∧
    (∀ j name, j ≤ line.length →
      ∃ r, scanNameAt (lineMemory line) (line.length + 1) name j = Except.ok r ∧
        j ≤ r.2 ∧ r.2 ≤ line.length) := by
  refine ⟨scanLineAt_lineMemory scriptName line _ st (Nat.lt_succ_self _), ?_, ?_,
    ⟨rfl, rfl, by decide⟩, ?_, ?_⟩
  · intro i
    constructor
    · rintro ⟨c, hc⟩
      by_contra hgt
      have hnone : (lineMemory line).get? i = none := by
        apply List.get?_eq_none.2
        simp [lineMemory]
        omega
      unfold readAt at hc
      rw [hnone] at hc
      exact Except.noConfusion hc
    · intro hi
      exact ⟨_, readAt_lineMemory line i hi⟩
  · rw [readAt_lineMemory line line.length (Nat.le_refl _)]
    simp [peek]
  · intro j hj
    obtain ⟨k, hk, hk1, hk2⟩ := skipSpaceAt_lineMemory line (line.length + 1) j hj (by omega)
    refine ⟨k, hk, ?_, hk1⟩
    by_contra hlt
    obtain ⟨w, _, hw⟩ := skipSpace_decomp (line.drop j)
    have hlen := congrArg List.length hw
    rw [← hk2, List.length_append, List.length_drop, List.length_drop] at hlen
    omega
  · intro j name hj
    obtain ⟨k, hk, hk1, hk2⟩ := scanNameAt_lineMemory line (line.length + 1) j name hj (by omega)
    refine ⟨_, hk, ?_, hk1⟩
    by_contra hlt
    obtain ⟨id, _, hid, _, _⟩ := scanName_decomp name (line.drop j)
    have hlen := congrArg List.length hid
    rw [← hk2, List.length_append, List.length_drop, List.length_drop] at hlen
    simp only [] at hlt
    omega

/-- Witness of C17: the line `foo()` of 5 bytes, scanned with checked reads in
its 6 bytes of memory. -/
theorem scanLineAt_in_bounds_witness :
    scanLineAt (bytes "script.sh") (lineMemory (bytes "foo()")) 6 { name := [], tags := [] } =
      Except.ok { name := [], tags := [{ name := bytes "foo", kind := K_FUNCTION }] } :=
  (scanLineAt_in_bounds (bytes "script.sh") (bytes "foo()") { name := [], tags := [] }).1.trans
    (congrArg Except.ok (by decide))

/-- Witness of C15: with `sorted` and `append` set and five tags, the sort line
and the combined total are written; with 1000000 ticks per second and 100000
ticks between the samples 1 and 2, the sort line carries the `double` nearest
to 1/10. -/
theorem printTotals_sort_line_witness :
    (∃ n p, Output.tagsSorted n p ∈
      printTotals exampleConfig 64 exampleOptionSorted exampleTagFile exampleTotals
        ![0, 500000, 600000]) ∧
    (∃ n, Output.nowTags n ∈
      printTotals exampleConfig 64 exampleOptionSorted exampleTagFile exampleTotals
        ![0, 500000, 600000]) ∧
    [Output.tagsSorted 5 "s", Output.sortSeconds (3602879701896397 / 36028797018963968),
        Output.newline] <:+:
      printTotals exampleConfig 64 exampleOptionSorted exampleTagFile exampleTotals
        ![0, 500000, 600000] ∧
    printTotals exampleConfig 64 exampleOptionSorted exampleTagFile exampleTotals
        ![0, 500000, 600000] =
      [Output.scanned 2 "s" 30 "s" 292, Output.inSeconds (1 / 2),
        Output.throughput (some 585),
        Output.newline,
        Output.tagsAdded 5 "s", Output.nowTags 5, Output.newline,
        Output.tagsSorted 5 "s", Output.sortSeconds (3602879701896397 / 36028797018963968),
        Output.newline] := by
  obtain ⟨_, hs, _, _, _, hi, hn, _, _⟩ :=
    printTotals_sort_line exampleConfig 64 exampleOptionSorted exampleTagFile exampleTotals
      ![0, 500000, 600000]
  obtain ⟨difference, ticks, interval, _, ⟨rfl, rfl, rfl⟩, _, _, _, hinf⟩ :=
    hi (by decide) (by decide) (by decide)
  refine ⟨hs.2 ⟨by decide, rfl⟩, hn.2 rfl, ?_, by decide!⟩
  have e : [Output.tagsSorted 5 "s",
        Output.sortSeconds (3602879701896397 / 36028797018963968), Output.newline] =
      [Output.tagsSorted ((exampleTagFile.added + exampleTagFile.prev) % 2 ^ 64)
          (plural (((exampleTagFile.added + exampleTagFile.prev) % 2 ^ 64 : Nat) : Int)),
        Output.sortSeconds
          (roundDouble (roundDouble
            ((wrapLong 64 ((![0, 500000, 600000] : Fin 3 → Int) 2 -
              (![0, 500000, 600000] : Fin 3 → Int) 1) : Int) : ℚ) /
            roundDouble (exampleConfig.CLOCKS_PER_SEC : ℚ))),
        Output.newline] := by decide!
  rw [e]
  exact hinf rfl (by decide) rfl


/-! ## Lemmas on the directory walk -/

theorem callEach_invariant {σ : Type} (f : List Nat → σ → Bool × σ) (I : σ → Prop)
    (hf : ∀ p s, I s → I (f p s).2) (paths : List (List Nat)) (s : σ) (hs : I s) :
    I (callEach f paths s).2 := by
  induction paths generalizing s with
  | nil => exact hs
  | cons p ps ih =>
    rw [callEach_cons]
    exact ih _ (hf p s hs)

theorem callEach_congr {σ : Type} (f g : List Nat → σ → Bool × σ) (I : σ → Prop)
    (hf : ∀ p s, I s → I (f p s).2) (hfg : ∀ p s, I s → f p s = g p s)
    (paths : List (List Nat)) (s : σ) (hs : I s) :
    callEach f paths s = callEach g paths s := by
  induction paths generalizing s with
  | nil => rfl
  | cons p ps ih =>
    rw [callEach_cons, callEach_cons, ← hfg p s hs, ih _ (hf p s hs)]

/-- The visits of a sequence of calls are those of each call, in order, when
each call adds visits that depend on its path only and restores the recursion
path. -/
theorem callEach_visited (f : List Nat → WalkState → Bool × WalkState) (above : List Nat)
    (F : List Nat → List (List Nat))
    (hf : ∀ p s, s.traversal = above →
      (f p s).2.traversal = above ∧ (f p s).2.visited = s.visited ++ F p)
    (paths : List (List Nat)) (s : WalkState) (hs : s.traversal = above) :
    (callEach f paths s).2.traversal = above ∧
      (callEach f paths s).2.visited = s.visited ++ paths.flatMap F := by
  induction paths generalizing s with
  | nil => exact ⟨hs, by simp [callEach_nil]⟩
  | cons p ps ih =>
    obtain ⟨h1, h2⟩ := hf p s hs
    obtain ⟨h3, h4⟩ := ih _ h1
    rw [callEach_cons]
    refine ⟨h3, ?_⟩
    rw [h4, h2, List.flatMap_cons, List.append_assoc]

theorem entryPath_walkEnv (fs : FileTree) (create : List Nat → WalkState → Bool × WalkState)
    (dirName name : List Nat) :
    entryPath (walkEnv fs create) dirName name = treePath dirName name := rfl

/-- The function `recurseIntoDirectory` in a walk with recursion on, on a
directory that has just been put on the recursion path. -/
theorem recurseIntoDirectory_walk (fs : FileTree)
    (create : List Nat → WalkState → Bool × WalkState) (opt : optionValues)
    (hrec : opt.recurse = true) (dirName : List Nat) (s : WalkState) :
    recurseIntoDirectory (walkEnv fs create) opt dirName s =
      if fs.identity dirName ∈ s.traversal.tail then
        (false, { s with notes := s.notes ++ [Diagnostic.ignoringRecursiveLink dirName] })
      else
        match fs.entries dirName with
        | none => (false, { s with notes := s.notes ++ [Diagnostic.cannotRecurse dirName] })
        | some entries =>
          ((callEach create ((properEntries entries).map (treePath dirName))
              { s with notes := s.notes ++ [Diagnostic.recursing dirName] }).1.or,
            (callEach create ((properEntries entries).map (treePath dirName))
              { s with notes := s.notes ++ [Diagnostic.recursing dirName] }).2) := by
  unfold recurseIntoDirectory
  by_cases hl : fs.identity dirName ∈ s.traversal.tail
  · rw [if_pos hl]
    simp [walkEnv, hl]
  · rw [if_neg hl]
    have h1 : (walkEnv fs create).isRecursiveLink dirName s = false := by
      simp [walkEnv, hl]
    rw [h1]
    simp only [Bool.false_eq_true, if_false, hrec, Bool.not_true]
    have h2 : (walkEnv fs create).opendir dirName s = fs.entries dirName := rfl
    rw [h2]
    cases fs.entries dirName with
    | none => rfl
    | some entries =>
      simp only []
      rw [readdirLoop_eq]
      simp only [Bool.false_or]
      rfl


theorem createTagsForEntry_zero (fs : FileTree) (opt : optionValues) (path : List Nat)
    (s : WalkState) :
    createTagsForEntry fs opt 0 path s = (false, { s with outOfFuel := true }) := rfl

theorem createTagsForEntry_succ (fs : FileTree) (opt : optionValues) (fuel : Nat)
    (path : List Nat) (s : WalkState) :
    createTagsForEntry fs opt (fuel + 1) path s =
      match fs.kind path with
      | FileKind.regular => (fs.parseFile path, { s with visited := s.visited ++ [path] })
      | FileKind.directory =>
        ((recurseIntoDirectory (walkEnv fs (createTagsForEntry fs opt fuel)) opt path
            { s with traversal := fs.identity path :: s.traversal }).1,
          { (recurseIntoDirectory (walkEnv fs (createTagsForEntry fs opt fuel)) opt path
              { s with traversal := fs.identity path :: s.traversal }).2 with
            traversal := s.traversal })
      | FileKind.other => (false, s) := rfl

theorem visitsOf_succ (fs : FileTree) (fuel : Nat) (above path : List Nat) :
    visitsOf fs (fuel + 1) above path =
      match fs.kind path with
      | FileKind.regular => [[]]
      | FileKind.directory =>
        if fs.identity path ∈ above then []
        else
          match fs.entries path with
          | none => []
          | some entries =>
            (properEntries entries).flatMap (fun name =>
              (visitsOf fs fuel (fs.identity path :: above) (treePath path name)).map
                (fun trail => name :: trail))
      | FileKind.other => [] := rfl

/-- What a walk of `path` visits, and that it restores the recursion path. -/
theorem createTagsForEntry_visited (fs : FileTree) (opt : optionValues)
    (hrec : opt.recurse = true) (fuel : Nat) (path : List Nat) (s : WalkState) :
    (createTagsForEntry fs opt fuel path s).2.traversal = s.traversal ∧
      (createTagsForEntry fs opt fuel path s).2.visited =
        s.visited ++ (visitsOf fs fuel s.traversal path).map (trailPath path) := by
  induction fuel generalizing path s with
  | zero => simp [createTagsForEntry_zero, visitsOf]
  | succ n ih =>
    rw [createTagsForEntry_succ, visitsOf_succ]
    cases hk : fs.kind path with
    | regular => simp [trailPath]
    | other => simp
    | directory =>
      simp only []
      rw [recurseIntoDirectory_walk fs _ opt hrec]
      simp only [List.tail_cons]
      by_cases hl : fs.identity path ∈ s.traversal
      · rw [if_pos hl, if_pos hl]
        simp
      · rw [if_neg hl, if_neg hl]
        cases he : fs.entries path with
        | none => simp
        | some entries =>
          simp only []
          have hc := callEach_visited (createTagsForEntry fs opt n)
            (fs.identity path :: s.traversal)
            (fun p => (visitsOf fs n (fs.identity path :: s.traversal) p).map (trailPath p))
            (fun p t ht => by
              have := ih p t
              rw [ht] at this
              exact this)
            ((properEntries entries).map (treePath path))
            { s with traversal := fs.identity path :: s.traversal,
                     notes := s.notes ++ [Diagnostic.recursing path] } rfl
          refine ⟨trivial, ?_⟩
          rw [hc.2]
          simp only [List.flatMap_map, List.map_flatMap, List.map_map]
          rfl


/-- A list of distinct numbers below `N` has at most `N` elements. -/
theorem nodup_bounded_length (N : Nat) (l : List Nat) (hn : l.Nodup)
    (hb : ∀ i ∈ l, i < N) : l.length ≤ N := by
  have hsub : l.toFinset ⊆ Finset.range N := by
    intro i hi
    exact Finset.mem_range.2 (hb i (List.mem_toFinset.1 hi))
  have hcard := Finset.card_le_card hsub
  rw [List.toFinset_card_of_nodup hn, Finset.card_range] at hcard
  exact hcard

/-- With one unit of depth for every directory identity, and one more, a walk
does not hit the bound on its depth. -/
theorem createTagsForEntry_fuel (fs : FileTree) (opt : optionValues)
    (hrec : opt.recurse = true) (N : Nat)
    (hfin : ∀ p, fs.kind p = FileKind.directory → fs.identity p < N)
    (fuel : Nat) (path : List Nat) (s : WalkState)
    (hs : s.outOfFuel = false) (hn : s.traversal.Nodup) (hb : ∀ i ∈ s.traversal, i < N)
    (hf : N + 1 ≤ fuel + s.traversal.length) :
    (createTagsForEntry fs opt fuel path s).2.outOfFuel = false := by
  induction fuel generalizing path s with
  | zero =>
    have := nodup_bounded_length N s.traversal hn hb
    omega
  | succ n ih =>
    rw [createTagsForEntry_succ]
    cases hk : fs.kind path with
    | regular => exact hs
    | other => exact hs
    | directory =>
      simp only []
      rw [recurseIntoDirectory_walk fs _ opt hrec]
      simp only [List.tail_cons]
      by_cases hl : fs.identity path ∈ s.traversal
      · rw [if_pos hl]; exact hs
      · rw [if_neg hl]
        cases he : fs.entries path with
        | none => exact hs
        | some entries =>
          simp only []
          have hinv := callEach_invariant (createTagsForEntry fs opt n)
            (fun t => t.traversal = fs.identity path :: s.traversal ∧ t.outOfFuel = false)
            (fun p t ht => by
              refine ⟨?_, ?_⟩
              · rw [(createTagsForEntry_visited fs opt hrec n p t).1]; exact ht.1
              · apply ih p t ht.2
                · rw [ht.1]; exact List.nodup_cons.2 ⟨hl, hn⟩
                · rw [ht.1]
                  intro i hi
                  rcases List.mem_cons.1 hi with rfl | hi
                  · exact hfin path hk
                  · exact hb i hi
                · rw [ht.1, List.length_cons]; omega)
            ((properEntries entries).map (treePath path))
            { s with traversal := fs.identity path :: s.traversal,
                     notes := s.notes ++ [Diagnostic.recursing path] } ⟨rfl, hs⟩
          exact hinv.2

/-- Beyond that depth the bound plays no part: one more unit changes nothing. -/
theorem createTagsForEntry_stable (fs : FileTree) (opt : optionValues)
    (hrec : opt.recurse = true) (N : Nat)
    (hfin : ∀ p, fs.kind p = FileKind.directory → fs.identity p < N)
    (fuel : Nat) (path : List Nat) (s : WalkState)
    (hn : s.traversal.Nodup) (hb : ∀ i ∈ s.traversal, i < N)
    (hf : N + 1 ≤ fuel + s.traversal.length) :
    createTagsForEntry fs opt (fuel + 1) path s = createTagsForEntry fs opt fuel path s := by
  induction fuel generalizing path s with
  | zero =>
    have := nodup_bounded_length N s.traversal hn hb
    omega
  | succ n ih =>
    rw [createTagsForEntry_succ, createTagsForEntry_succ fs opt n]
    cases hk : fs.kind path with
    | regular => rfl
    | other => rfl
    | directory =>
      simp only []
      rw [recurseIntoDirectory_walk fs _ opt hrec, recurseIntoDirectory_walk fs _ opt hrec]
      simp only [List.tail_cons]
      by_cases hl : fs.identity path ∈ s.traversal
      · simp only [if_pos hl]
      · simp only [if_neg hl]
        cases he : fs.entries path with
        | none => rfl
        | some entries =>
          simp only []
          have hc := callEach_congr (createTagsForEntry fs opt (n + 1))
            (createTagsForEntry fs opt n)
            (fun t => t.traversal = fs.identity path :: s.traversal)
            (fun p t ht =>
              ((createTagsForEntry_visited fs opt hrec (n + 1) p t).1).trans ht)
            (fun p t ht => by
              apply ih p t
              · rw [ht]; exact List.nodup_cons.2 ⟨hl, hn⟩
              · rw [ht]
                intro i hi
                rcases List.mem_cons.1 hi with rfl | hi
                · exact hfin path hk
                · exact hb i hi
              · rw [ht, List.length_cons]; omega)
            ((properEntries entries).map (treePath path))
            { s with traversal := fs.identity path :: s.traversal,
                     notes := s.notes ++ [Diagnostic.recursing path] } rfl
          rw [hc]

theorem createTagsForEntry_stable_add (fs : FileTree) (opt : optionValues)
    (hrec : opt.recurse = true) (N : Nat)
    (hfin : ∀ p, fs.kind p = FileKind.directory → fs.identity p < N)
    (fuel k : Nat) (path : List Nat) (s : WalkState)
    (hn : s.traversal.Nodup) (hb : ∀ i ∈ s.traversal, i < N)
    (hf : N + 1 ≤ fuel + s.traversal.length) :
    createTagsForEntry fs opt (fuel + k) path s = createTagsForEntry fs opt fuel path s := by
  induction k with
  | zero => rfl
  | succ m ih =>
    rw [← Nat.add_assoc,
      createTagsForEntry_stable fs opt hrec N hfin (fuel + m) path s hn hb (by omega), ih]


theorem nonCyclicFile_nil (fs : FileTree) (above dirName : List Nat) :
    NonCyclicFile fs above dirName [] ↔ False := Iff.rfl

theorem nonCyclicFile_cons (fs : FileTree) (above dirName name : List Nat)
    (trail : List (List Nat)) :
    NonCyclicFile fs above dirName (name :: trail) ↔
      fs.identity dirName ∉ above ∧
      (∃ entries, fs.entries dirName = some entries ∧ name ∈ properEntries entries) ∧
      ((trail = [] ∧ fs.kind (treePath dirName name) = FileKind.regular) ∨
        (fs.kind (treePath dirName name) = FileKind.directory ∧
          NonCyclicFile fs (fs.identity dirName :: above) (treePath dirName name) trail)) :=
  Iff.rfl

/-- With enough depth, the trails a walk of `path` follows to regular files are
`[]` when `path` is a regular file, and the non-cyclic trails when it is a
directory. -/
theorem mem_visitsOf (fs : FileTree) (N : Nat)
    (hfin : ∀ p, fs.kind p = FileKind.directory → fs.identity p < N)
    (fuel : Nat) (above path : List Nat) (trail : List (List Nat))
    (hn : above.Nodup) (hb : ∀ i ∈ above, i < N) (hf : N + 1 ≤ fuel + above.length) :
    trail ∈ visitsOf fs fuel above path ↔
      (fs.kind path = FileKind.regular ∧ trail = []) ∨
      (fs.kind path = FileKind.directory ∧ NonCyclicFile fs above path trail) := by
  induction fuel generalizing above path trail with
  | zero =>
    have := nodup_bounded_length N above hn hb
    omega
  | succ n ih =>
    rw [visitsOf_succ]
    cases hk : fs.kind path with
    | regular => simp
    | other => simp
    | directory =>
      simp only [reduceCtorEq, false_and, false_or, true_and]
      by_cases hl : fs.identity path ∈ above
      · rw [if_pos hl]
        cases trail with
        | nil => simp [nonCyclicFile_nil]
        | cons name rest => simp [nonCyclicFile_cons, hl]
      · rw [if_neg hl]
        have hn2 : (fs.identity path :: above).Nodup := List.nodup_cons.2 ⟨hl, hn⟩
        have hb2 : ∀ i ∈ fs.identity path :: above, i < N := by
          intro i hi
          rcases List.mem_cons.1 hi with rfl | hi
          · exact hfin path hk
          · exact hb i hi
        have hf2 : N + 1 ≤ n + (fs.identity path :: above).length := by
          rw [List.length_cons]; omega
        cases he : fs.entries path with
        | none =>
          cases trail with
          | nil => simp [nonCyclicFile_nil]
          | cons name rest => simp [nonCyclicFile_cons, he]
        | some entries =>
          simp only [List.mem_flatMap, List.mem_map]
          cases trail with
          | nil =>
            simp [nonCyclicFile_nil]
          | cons name rest =>
            rw [nonCyclicFile_cons]
            constructor
            · rintro ⟨name2, hmem, rest2, hrest, heq⟩
              obtain ⟨rfl, rfl⟩ := List.cons.inj heq
              refine ⟨hl, ⟨entries, he, hmem⟩, ?_⟩
              rcases (ih _ _ _ hn2 hb2 hf2).1 hrest with ⟨h1, h2⟩ | ⟨h1, h2⟩
              · exact Or.inl ⟨h2, h1⟩
              · exact Or.inr ⟨h1, h2⟩
            · rintro ⟨_, ⟨entries2, he2, hmem⟩, hrest⟩
              rw [he] at he2
              obtain rfl := Option.some.inj he2
              refine ⟨name, hmem, rest, ?_, rfl⟩
              apply (ih _ _ _ hn2 hb2 hf2).2
              rcases hrest with ⟨h1, h2⟩ | ⟨h1, h2⟩
              · exact Or.inl ⟨h2, h1⟩
              · exact Or.inr ⟨h1, h2⟩

/-- No trail is followed twice when no directory lists a name twice. -/
theorem visitsOf_nodup (fs : FileTree)
    (hnodup : ∀ p entries, fs.entries p = some entries → entries.Nodup)
    (fuel : Nat) (above path : List Nat) :
    (visitsOf fs fuel above path).Nodup := by
  induction fuel generalizing above path with
  | zero => simp [visitsOf]
  | succ n ih =>
    rw [visitsOf_succ]
    cases hk : fs.kind path with
    | regular => simp
    | other => simp
    | directory =>
      simp only []
      by_cases hl : fs.identity path ∈ above
      · rw [if_pos hl]; exact List.nodup_nil
      · rw [if_neg hl]
        cases he : fs.entries path with
        | none => exact List.nodup_nil
        | some entries =>
          simp only []
          rw [List.nodup_flatMap]
          constructor
          · intro name _
            exact (ih _ _).map (fun a b h => (List.cons.inj h).2)
          · have hp : (properEntries entries).Nodup := (hnodup path entries he).filter _
            refine List.Pairwise.imp ?_ hp
            intro a b hab
            intro t hta htb
            obtain ⟨_, _, rfl⟩ := List.mem_map.1 hta
            obtain ⟨_, _, h2⟩ := List.mem_map.1 htb
            exact hab (List.cons.inj h2).1.symm


/-! ## Lemmas on the paths of trails -/

theorem cstr_of_no_nul {a : List Nat} (h : 0 ∉ a) : cstr a = a := by
  induction a with
  | nil => rfl
  | cons c cs ih =>
    have hc : c ≠ 0 := fun e => h (e ▸ List.mem_cons_self _ _)
    rw [cstr_cons_of_ne hc, ih (fun hm => h (List.mem_cons_of_mem _ hm))]

/-- Two splittings of a text into a part without the separator and a rest that
is empty or starts with the separator are equal. -/
theorem slash_split_unique {a b r t : List Nat} (ha : '/'.toNat ∉ a) (hb : '/'.toNat ∉ b)
    (hr : r = [] ∨ ∃ r2, r = '/'.toNat :: r2) (ht : t = [] ∨ ∃ t2, t = '/'.toNat :: t2)
    (h : a ++ r = b ++ t) : a = b ∧ r = t := by
  induction a generalizing b with
  | nil =>
    cases b with
    | nil => exact ⟨rfl, by simpa using h⟩
    | cons y ys =>
      exfalso
      rw [List.nil_append] at h
      rcases hr with rfl | ⟨r2, rfl⟩
      · exact List.noConfusion h
      · have hy : '/'.toNat = y := (List.cons.inj h).1
        exact hb (hy ▸ List.mem_cons_self _ _)
  | cons x xs ih =>
    cases b with
    | nil =>
      exfalso
      rw [List.nil_append] at h
      rcases ht with rfl | ⟨t2, rfl⟩
      · exact List.noConfusion h
      · have hx : x = '/'.toNat := (List.cons.inj h).1
        exact ha (hx ▸ List.mem_cons_self _ _)
    | cons y ys =>
      obtain ⟨h1, h2⟩ := List.cons.inj h
      obtain ⟨e1, e2⟩ := ih (fun hm => ha (List.mem_cons_of_mem _ hm))
        (fun hm => hb (List.mem_cons_of_mem _ hm)) h2
      exact ⟨by rw [h1, e1], e2⟩

theorem flatMap_slash_shape (t : List (List Nat)) :
    t.flatMap (fun n => '/'.toNat :: n) = [] ∨
      ∃ r, t.flatMap (fun n => '/'.toNat :: n) = '/'.toNat :: r := by
  cases t with
  | nil => exact Or.inl rfl
  | cons n rest => exact Or.inr ⟨_, by rw [List.flatMap_cons]; rfl⟩

/-- Joining names that hold no separator loses nothing: the names can be read
back from the joined text. -/
theorem flatMap_slash_injective (t1 t2 : List (List Nat))
    (h1 : ∀ n ∈ t1, '/'.toNat ∉ n) (h2 : ∀ n ∈ t2, '/'.toNat ∉ n)
    (h : t1.flatMap (fun n => '/'.toNat :: n) = t2.flatMap (fun n => '/'.toNat :: n)) :
    t1 = t2 := by
  induction t1 generalizing t2 with
  | nil =>
    cases t2 with
    | nil => rfl
    | cons n rest =>
      rw [List.flatMap_cons] at h
      exact List.noConfusion h
  | cons n rest ih =>
    cases t2 with
    | nil =>
      rw [List.flatMap_cons] at h
      exact List.noConfusion h
    | cons m rest2 =>
      rw [List.flatMap_cons, List.flatMap_cons, List.cons_append, List.cons_append] at h
      have h3 := (List.cons.inj h).2
      obtain ⟨e1, e2⟩ := slash_split_unique (h1 n (List.mem_cons_self _ _))
        (h2 m (List.mem_cons_self _ _)) (flatMap_slash_shape rest) (flatMap_slash_shape rest2) h3
      rw [e1, ih rest2 (fun x hx => h1 x (List.mem_cons_of_mem _ hx))
        (fun x hx => h2 x (List.mem_cons_of_mem _ hx)) e2]

/-- Below a directory other than `.`, the path of a trail is the directory
followed by the names, each after a separator. -/
theorem trailPath_join (dirName : List Nat) (trail : List (List Nat))
    (hd : dirName ≠ bytes ".") (hd0 : 0 ∉ dirName) (hn0 : ∀ n ∈ trail, 0 ∉ n) :
    trailPath dirName trail = dirName ++ trail.flatMap (fun n => '/'.toNat :: n) := by
  induction trail generalizing dirName with
  | nil => simp [trailPath]
  | cons n rest ih =>
    have hn : 0 ∉ n := hn0 n (List.mem_cons_self _ _)
    have htp : treePath dirName n = dirName ++ '/'.toNat :: n := by
      unfold treePath
      rw [cstr_of_no_nul hd0, cstr_of_no_nul hn, if_neg hd]
    have hne : dirName ++ '/'.toNat :: n ≠ bytes "." := by
      intro e
      have hm : '/'.toNat ∈ dirName ++ '/'.toNat :: n := by simp
      rw [e] at hm
      exact absurd hm (by decide)
    have h0 : 0 ∉ dirName ++ '/'.toNat :: n := by
      intro hm
      rcases List.mem_append.1 hm with hm | hm
      · exact hd0 hm
      · rcases List.mem_cons.1 hm with hm | hm
        · exact absurd hm (by decide)
        · exact hn hm
    show trailPath (treePath dirName n) rest = _
    rw [htp, ih _ hne h0 (fun x hx => hn0 x (List.mem_cons_of_mem _ hx)), List.flatMap_cons]
    simp

/-- Distinct non-empty trails of well-formed names (no NUL, no separator, not
`.`) lead to distinct paths. -/
theorem trailPath_injective (root : List Nat) (t1 t2 : List (List Nat))
    (hr0 : 0 ∉ root) (hne1 : t1 ≠ []) (hne2 : t2 ≠ [])
    (h1 : ∀ n ∈ t1, 0 ∉ n ∧ '/'.toNat ∉ n ∧ n ≠ bytes ".")
    (h2 : ∀ n ∈ t2, 0 ∉ n ∧ '/'.toNat ∉ n ∧ n ≠ bytes ".")
    (h : trailPath root t1 = trailPath root t2) : t1 = t2 := by
  by_cases hd : root = bytes "."
  · obtain ⟨n, r1, rfl⟩ := List.exists_cons_of_ne_nil hne1
    obtain ⟨m, r2, rfl⟩ := List.exists_cons_of_ne_nil hne2
    have hn := h1 n (List.mem_cons_self _ _)
    have hm := h2 m (List.mem_cons_self _ _)
    have e1 : treePath root n = n := by
      unfold treePath
      rw [cstr_of_no_nul hr0, cstr_of_no_nul hn.1, if_pos hd]
    have e2 : treePath root m = m := by
      unfold treePath
      rw [cstr_of_no_nul hr0, cstr_of_no_nul hm.1, if_pos hd]
    have hp1 : trailPath root (n :: r1) = n ++ r1.flatMap (fun x => '/'.toNat :: x) := by
      show trailPath (treePath root n) r1 = _
      rw [e1]
      exact trailPath_join n r1 hn.2.2 hn.1 (fun x hx => (h1 x (List.mem_cons_of_mem _ hx)).1)
    have hp2 : trailPath root (m :: r2) = m ++ r2.flatMap (fun x => '/'.toNat :: x) := by
      show trailPath (treePath root m) r2 = _
      rw [e2]
      exact trailPath_join m r2 hm.2.2 hm.1 (fun x hx => (h2 x (List.mem_cons_of_mem _ hx)).1)
    rw [hp1, hp2] at h
    obtain ⟨e3, e4⟩ := slash_split_unique hn.2.1 hm.2.1 (flatMap_slash_shape r1)
      (flatMap_slash_shape r2) h
    rw [e3, flatMap_slash_injective r1 r2
      (fun x hx => (h1 x (List.mem_cons_of_mem _ hx)).2.1)
      (fun x hx => (h2 x (List.mem_cons_of_mem _ hx)).2.1) e4]
  · rw [trailPath_join root t1 hd hr0 (fun x hx => (h1 x hx).1),
      trailPath_join root t2 hd hr0 (fun x hx => (h2 x hx).1)] at h
    exact flatMap_slash_injective t1 t2 (fun x hx => (h1 x hx).2.1) (fun x hx => (h2 x hx).2.1)
      (List.append_cancel_left h)

/-- Every name on a non-cyclic trail is listed by a directory of the tree,
and is neither `.` nor `..`. -/
theorem nonCyclicFile_names (fs : FileTree) (above dirName : List Nat)
    (trail : List (List Nat)) (h : NonCyclicFile fs above dirName trail) :
    ∀ n ∈ trail, ∃ p entries, fs.entries p = some entries ∧ n ∈ properEntries entries := by
  induction trail generalizing above dirName with
  | nil => exact fun _ hn => absurd hn (List.not_mem_nil _)
  | cons name rest ih =>
    rw [nonCyclicFile_cons] at h
    obtain ⟨_, ⟨entries, he, hmem⟩, hrest⟩ := h
    intro n hn
    rcases List.mem_cons.1 hn with rfl | hn
    · exact ⟨dirName, entries, he, hmem⟩
    · rcases hrest with ⟨rfl, _⟩ | ⟨_, h2⟩
      · exact absurd hn (List.not_mem_nil _)
      · exact ih _ _ h2 n hn


/-! ## Claim on the directory walk -/

theorem exampleTree_finite :
    ∀ p, exampleTree.kind p = FileKind.directory → exampleTree.identity p < 3 := by
  intro p _
  simp only [exampleTree]
  split_ifs <;> omega

theorem exampleTree_nodup :
    ∀ p entries, exampleTree.entries p = some entries → entries.Nodup := by
  intro p entries h
  simp only [exampleTree] at h
  split_ifs at h
  · obtain rfl := Option.some.inj h
    decide
  · obtain rfl := Option.some.inj h
    decide

/-- In a list without repetition, the elements with a property that only `a`
has are `a` alone. -/
theorem filter_eq_singleton {α : Type} (p : α → Bool) (a : α) (l : List α) (hnd : l.Nodup)
    (ha : a ∈ l) (hpa : p a = true) (huniq : ∀ x ∈ l, p x = true → x = a) :
    l.filter p = [a] := by
  induction l with
  | nil => exact absurd ha (List.not_mem_nil _)
  | cons x xs ih =>
    obtain ⟨hx, hxs⟩ := List.nodup_cons.1 hnd
    by_cases hax : x = a
    · subst hax
      rw [List.filter_cons_of_pos hpa]
      congr 1
      rw [List.filter_eq_nil_iff]
      intro y hy hpy
      exact hx (huniq y (List.mem_cons_of_mem _ hy) hpy ▸ hy)
    · have hpx : ¬ p x = true := fun h => hax (huniq x (List.mem_cons_self _ _) h)
      rw [List.filter_cons_of_neg hpx]
      rcases List.mem_cons.1 ha with h | h
      · exact absurd h.symm hax
      · exact ih hxs h (fun y hy => huniq y (List.mem_cons_of_mem _ hy))

theorem aliasTree_finite :
    ∀ p, aliasTree.kind p = FileKind.directory → aliasTree.identity p < 3 := by
  intro p h
  have hp : p = bytes "dir" ∨ p = bytes "dir/a" ∨ p = bytes "dir/b" ∨ p = bytes "dir/loop" := by
    by_contra hc
    simp only [aliasTree, if_neg hc] at h
    split_ifs at h
  rcases hp with rfl | rfl | rfl | rfl <;> decide

theorem aliasTree_nodup :
    ∀ p entries, aliasTree.entries p = some entries → entries.Nodup := by
  intro p entries h
  simp only [aliasTree] at h
  split_ifs at h
  · obtain rfl := Option.some.inj h
    decide
  · obtain rfl := Option.some.inj h
    decide

/-- C13, amended. Symlink-cycle termination: on a file tree with finitely many
directories, with or without symbolic-link cycles, the recursive walk
(`recurseIntoDirectory` calling `createTagsForEntry` on each entry, guarded by
`isRecursiveLink`) ends: a recursion depth of one more than the number of
directory identities is never exhausted and more depth changes nothing. The
regular files visited are those at the end of a non-cyclic trail from the root
(no directory on the trail has the identity of a directory above it), each such
trail once and no other; when names hold neither NUL nor the separator, the
paths visited are pairwise distinct. A regular file is therefore visited once
for each non-cyclic trail that leads to it: exactly once when there is one such
trail, and more than once when links give it several. -/
theorem walk_terminates_visits_once (fs : FileTree) (opt : optionValues) (N : Nat)
    (root : List Nat) (hrec : opt.recurse = true)
    (hfin : ∀ p, fs.kind p = FileKind.directory → fs.identity p < N)
    (hnodup : ∀ p entries, fs.entries p = some entries → entries.Nodup)
    (hroot : fs.kind root = FileKind.directory) :
    (∀ fuel, N + 1 ≤ fuel →
      createTagsForEntry fs opt fuel root WalkState.start =
        createTagsForEntry fs opt (N + 1) root WalkState.start) ∧
    (createTagsForEntry fs opt (N + 1) root WalkState.start).2.outOfFuel = false ∧
    (∃ trails : List (List (List Nat)),
      (createTagsForEntry fs opt (N + 1) root WalkState.start).2.visited =
        trails.map (trailPath root) ∧
      trails.Nodup ∧
      (∀ trail, trail ∈ trails ↔ NonCyclicFile fs [] root trail)) ∧
    (0 ∉ root →
      (∀ p entries n, fs.entries p = some entries → n ∈ entries →
        0 ∉ n ∧ '/'.toNat ∉ n) →
      (createTagsForEntry fs opt (N + 1) root WalkState.start).2.visited.Nodup ∧
      (∀ path, path ∈ (createTagsForEntry fs opt (N + 1) root WalkState.start).2.visited ↔
        ∃ trail, NonCyclicFile fs [] root trail ∧ path = trailPath root trail)) ∧
    (∀ trail, NonCyclicFile fs [] root trail →
      (∀ other, NonCyclicFile fs [] root other →
        fs.identity (trailPath root other) = fs.identity (trailPath root trail) →
        other = trail) →
      (createTagsForEntry fs opt (N + 1) root WalkState.start).2.visited.filter
          (fun p => decide (fs.identity p = fs.identity (trailPath root trail))) =
        [trailPath root trail]) := by
  have hstart : WalkState.start.traversal = [] := rfl
  have hvis := (createTagsForEntry_visited fs opt hrec (N + 1) root WalkState.start).2
  have hvis2 : (createTagsForEntry fs opt (N + 1) root WalkState.start).2.visited =
      (visitsOf fs (N + 1) [] root).map (trailPath root) := by
    rw [hvis]; rfl
  have hmem : ∀ trail, trail ∈ visitsOf fs (N + 1) [] root ↔ NonCyclicFile fs [] root trail := by
    intro trail
    rw [mem_visitsOf fs N hfin (N + 1) [] root trail List.nodup_nil
      (fun i hi => absurd hi (List.not_mem_nil _)) (by simp), hroot]
    simp
  have hnd := visitsOf_nodup fs hnodup (N + 1) [] root
  refine ⟨?_, ?_, ⟨visitsOf fs (N + 1) [] root, hvis2, hnd, hmem⟩, ?_, ?_⟩
  · intro fuel hfuel
    obtain ⟨k, rfl⟩ : ∃ k, fuel = N + 1 + k := ⟨fuel - (N + 1), by omega⟩
    exact createTagsForEntry_stable_add fs opt hrec N hfin (N + 1) k root WalkState.start
      (by rw [hstart]; exact List.nodup_nil)
      (by rw [hstart]; exact fun i hi => absurd hi (List.not_mem_nil _))
      (by rw [hstart]; simp)
  · exact createTagsForEntry_fuel fs opt hrec N hfin (N + 1) root WalkState.start rfl
      (by rw [hstart]; exact List.nodup_nil)
      (by rw [hstart]; exact fun i hi => absurd hi (List.not_mem_nil _))
      (by rw [hstart]; simp)
  · intro hr0 hnames
    have hwell : ∀ trail, NonCyclicFile fs [] root trail →
        trail ≠ [] ∧ ∀ n ∈ trail, 0 ∉ n ∧ '/'.toNat ∉ n ∧ n ≠ bytes "." := by
      intro trail ht
      refine ⟨?_, ?_⟩
      · rintro rfl
        exact (nonCyclicFile_nil fs [] root).1 ht
      · intro n hn
        obtain ⟨p, entries, he, hp⟩ := nonCyclicFile_names fs [] root trail ht n hn
        have hp2 := List.mem_filter.1 hp
        have hw := hnames p entries n he hp2.1
        refine ⟨hw.1, hw.2, ?_⟩
        have hproper : cstr n ≠ bytes "." := (of_decide_eq_true hp2.2).1
        rw [cstr_of_no_nul hw.1] at hproper
        exact hproper
    have hinj : ∀ x ∈ visitsOf fs (N + 1) [] root, ∀ y ∈ visitsOf fs (N + 1) [] root,
        trailPath root x = trailPath root y → x = y := by
      intro x hx y hy hxy
      obtain ⟨hx1, hx2⟩ := hwell x ((hmem x).1 hx)
      obtain ⟨hy1, hy2⟩ := hwell y ((hmem y).1 hy)
      exact trailPath_injective root x y hr0 hx1 hy1 hx2 hy2 hxy
    have hnd2 : (createTagsForEntry fs opt (N + 1) root WalkState.start).2.visited.Nodup := by
      rw [hvis2]
      exact List.Nodup.map_on hinj hnd
    refine ⟨hnd2, ?_⟩
    intro path
    rw [hvis2, List.mem_map]
    constructor
    · rintro ⟨trail, ht, rfl⟩
      exact ⟨trail, (hmem trail).1 ht, rfl⟩
    · rintro ⟨trail, ht, rfl⟩
      exact ⟨trail, (hmem trail).2 ht, rfl⟩
  · intro trail ht huniq
    rw [hvis2, List.filter_map,
      filter_eq_singleton _ trail (visitsOf fs (N + 1) [] root) hnd ((hmem trail).2 ht)
        (by simp)
        (fun x hx hpx => huniq x ((hmem x).1 hx) (by simpa using hpx))]
    rfl

/-- Counterexample to C13 as stated. In `aliasTree`, a finite tree whose
directories list no name twice, `dir/loop` is a directory with the identity of
`dir` (a symbolic-link cycle) and `dir/b` has the identity of its sibling
`dir/a`. The walk ends, and it visits the regular file `g.sh`, which is not on
the cycle, twice: as `dir/a/g.sh` and as `dir/b/g.sh`, two paths of one
identity. -/
theorem walk_visits_aliased_file_twice :
    (∀ p, aliasTree.kind p = FileKind.directory → aliasTree.identity p < 3) ∧
    (∀ p entries, aliasTree.entries p = some entries → entries.Nodup) ∧
    aliasTree.kind (bytes "dir") = FileKind.directory ∧
    aliasTree.kind (bytes "dir/loop") = FileKind.directory ∧
    aliasTree.identity (bytes "dir/loop") = aliasTree.identity (bytes "dir") ∧
    (createTagsForEntry aliasTree exampleOption 4 (bytes "dir") WalkState.start).2.outOfFuel =
      false ∧
    (createTagsForEntry aliasTree exampleOption 4 (bytes "dir") WalkState.start).2.visited =
      [bytes "dir/a/g.sh", bytes "dir/b/g.sh"] ∧
    aliasTree.kind (bytes "dir/a/g.sh") = FileKind.regular ∧
    aliasTree.identity (bytes "dir/a/g.sh") = aliasTree.identity (bytes "dir/b/g.sh") ∧
    ((createTagsForEntry aliasTree exampleOption 4 (bytes "dir") WalkState.start).2.visited.filter
      (fun p => decide (aliasTree.identity p = aliasTree.identity (bytes "dir/a/g.sh")))).length =
      2 :=
  ⟨aliasTree_finite, aliasTree_nodup, by decide, by decide, by decide, by decide, by decide,
    by decide, by decide, by decide⟩

/-- Witness of C13: the example tree, in which `dir/a/loop` links back to
`dir`; with three directory identities the depth 4 is enough, the walk with
depth 10 is the same, and the files visited are `dir/f.sh` and `dir/a/g.sh`. -/
theorem walk_terminates_visits_once_witness :
    createTagsForEntry exampleTree exampleOption 10 (bytes "dir") WalkState.start =
      createTagsForEntry exampleTree exampleOption 4 (bytes "dir") WalkState.start ∧
    (createTagsForEntry exampleTree exampleOption 4 (bytes "dir") WalkState.start).2.outOfFuel =
      false ∧
    (createTagsForEntry exampleTree exampleOption 4 (bytes "dir") WalkState.start).2.visited =
      [bytes "dir/f.sh", bytes "dir/a/g.sh"] :=
  ⟨(walk_terminates_visits_once exampleTree exampleOption 3 (bytes "dir") rfl
      exampleTree_finite exampleTree_nodup (by decide)).1 10 (by decide),
   (walk_terminates_visits_once exampleTree exampleOption 3 (bytes "dir") rfl
      exampleTree_finite exampleTree_nodup (by decide)).2.1,
   by decide⟩


end Ctags
